import Mathlib

/-!
Verification of the MeritRank incremental walk-maintenance engine.

The development shallow-embeds the core of the repository, the file
src/src/rank.rs, into Lean. Machine floating-point weights (f64) are
modelled as exact rationals, and the thread-local random number
generator is modelled as an explicit finite tape of rational draws in
the unit interval (an exhausted tape yields the draw 1, which fails
every alpha check and therefore stops a walk). The auxiliary modules of
the crate (constants.rs, common.rs, counter.rs, graph.rs,
random_walk.rs, walk_storage.rs) are not part of the sources; the
definitions translated from them are modelled from the specification
and marked as such in their doc comments. Maps (IntMap) are modelled
as insertion-ordered association lists.
-/

namespace Meritrank

abbrev NodeId := Nat

abbrev Weight := ℚ

/-- Modelled from the spec: constants.rs is missing from the sources.
EPSILON bounds effectively-zero weights (spec section 3 suggests 1e-9).
The compile-time flags ASSERT and OPTIMIZE_INVALIDATION are modelled as
fields of an explicit configuration record. -/
def EPSILON : Weight := 1 / 1000000000

structure Cfg where
  assertOn : Bool
  optimize_invalidation : Bool

/-- Modelled from the spec: common.rs is missing from the sources.
Sign of a weight, in the set -1, 0, 1 (spec section 4.4.6). -/
def sign (w : Weight) : Int :=
  if 0 < w then 1 else if w < 0 then -1 else 0

/-! ### Association-list maps (model of IntMap) -/

def getK {κ α : Type} [DecidableEq κ] : List (κ × α) → κ → Option α
  | [], _ => none
  | e :: rest, key => if e.1 = key then some e.2 else getK rest key

def getD {κ α : Type} [DecidableEq κ] (m : List (κ × α)) (key : κ) (d : α) : α :=
  (getK m key).getD d

def setK {κ α : Type} [DecidableEq κ] : List (κ × α) → κ → α → List (κ × α)
  | [], key, v => [(key, v)]
  | e :: rest, key, v => if e.1 = key then (key, v) :: rest else e :: setK rest key v

/-- Model of the IntMap entry-or-insert-then-modify idiom: apply f to the
value stored at key, inserting f d when the key is absent. -/
def modK {κ α : Type} [DecidableEq κ] : List (κ × α) → κ → (α → α) → α → List (κ × α)
  | [], key, f, d => [(key, f d)]
  | e :: rest, key, f, d => if e.1 = key then (key, f e.2) :: rest else e :: modK rest key f d

/-- Model of the IntMap entry-and-modify idiom: apply f when the key is
present, do nothing otherwise. -/
def amodK {κ α : Type} [DecidableEq κ] : List (κ × α) → κ → (α → α) → List (κ × α)
  | [], _, _ => []
  | e :: rest, key, f => if e.1 = key then (key, f e.2) :: rest else e :: amodK rest key f

def eraseK {κ α : Type} [DecidableEq κ] (m : List (κ × α)) (key : κ) : List (κ × α) :=
  m.filter (fun e => decide (¬ e.1 = key))

def keysK {κ α : Type} (m : List (κ × α)) : List κ := m.map (·.1)

def valsSum {κ : Type} (m : List (κ × Weight)) : Weight := (m.map (·.2)).sum

/-! ### Counter (modelled from the spec: counter.rs is missing) -/

/-- Modelled from the spec: a Counter is a mapping from node id to a
nonnegative real count together with a total count equal to the sum of
the stored counts (spec sections 3 and 8, property 1). -/
abbrev Counter := List (NodeId × Weight)

namespace Counter

def new : Counter := []

def get_count (c : Counter) (t : NodeId) : Option Weight := getK c t

def total_count (c : Counter) : Weight := valsSum c

def keys (c : Counter) : List NodeId := keysK c

/-- Model of the raw mutable cell access get_mut_count followed by an
in-place addition of delta (a subtraction when delta is negative). -/
def add_to (c : Counter) (t : NodeId) (delta : Weight) : Counter :=
  modK c t (· + delta) 0

/-- Modelled from the spec: adds one to each distinct node of the list,
duplicates within a single call do not re-increment (spec section 3). -/
def increment_unique_counts (c : Counter) (l : List NodeId) : Counter :=
  l.dedup.foldl (fun c n => add_to c n 1) c

end Counter

/-! ### Graph (modelled from the spec: graph.rs is missing) -/

/-- Modelled from the spec: a signed weighted directed graph with a node
set and at most one weighted edge per ordered pair (spec section 3). -/
structure Graph where
  nodes : List NodeId
  edges : List ((NodeId × NodeId) × Weight)

namespace Graph

def empty : Graph := { nodes := [], edges := [] }

def contains_node (g : Graph) (n : NodeId) : Bool := decide (n ∈ g.nodes)

def add_node (g : Graph) (n : NodeId) : Graph :=
  if n ∈ g.nodes then g else { g with nodes := g.nodes ++ [n] }

def edge_weight (g : Graph) (src dest : NodeId) : Option Weight :=
  getK g.edges (src, dest)

def contains_edge (g : Graph) (src dest : NodeId) : Bool :=
  (edge_weight g src dest).isSome

/-- Direct edge insertion, overwriting any stored weight; no walk
invalidation happens here (spec section 4.1). -/
def add_edge_raw (g : Graph) (src dest : NodeId) (w : Weight) : Graph :=
  { g with edges := setK g.edges (src, dest) w }

def remove_edge (g : Graph) (src dest : NodeId) : Graph :=
  { g with edges := eraseK g.edges (src, dest) }

def neighbors (g : Graph) (n : NodeId) : List NodeId :=
  g.edges.filterMap (fun e => if e.1.1 = n then some e.1.2 else none)

/-- Modelled from the spec: true when the graph holds a self-loop edge
(spec section 4.1, check_self_reference). -/
def check_self_reference (g : Graph) : Bool :=
  g.edges.any (fun e => decide (e.1.1 = e.1.2))

def pos_successors (g : Graph) (n : NodeId) : List NodeId :=
  g.edges.filterMap (fun e => if e.1.1 = n ∧ 0 < e.2 then some e.1.2 else none)

def reach_expand (g : Graph) (vis : List NodeId) : List NodeId :=
  vis.foldl (fun acc n => acc ++ ((pos_successors g n).filter (fun m => decide (m ∉ acc)))) vis

/-- Modelled from the spec: reachability through positive edges, used
only by the debug-assert regime (spec section 4.1, is_connecting).
Computed as a bounded breadth-first expansion. -/
def is_connecting (g : Graph) (src dest : NodeId) : Bool :=
  decide (dest ∈ (reach_expand g)^[g.edges.length + 1] [src])

end Graph

inductive NeighborsMode
  | all
  | positive
  | negative
deriving DecidableEq

/-- Model of MeritRank.neighbors_weighted: enumerate the neighbors of a
node and keep those whose weight matches the mode. The Rust function
wraps the empty map in None; the model returns the plain list and call
sites test for emptiness. -/
def neighbors_weighted (g : Graph) (node : NodeId) (mode : NeighborsMode) : List (NodeId × Weight) :=
  (Graph.neighbors g node).filterMap (fun nbr =>
    let w := (Graph.edge_weight g node nbr).getD 0
    if mode = NeighborsMode.all ∨ (mode = NeighborsMode.positive ∧ 0 < w) ∨
       (mode = NeighborsMode.negative ∧ w < 0) then
      some (nbr, w)
    else none)

/-! ### Random tape -/

abbrev Tape := List ℚ

/-- One draw from the modelled random source. An exhausted tape yields
the value 1, which fails every strict alpha check and stops a walk. -/
def draw : Tape → ℚ × Tape
  | [] => (1, [])
  | u :: rest => (u, rest)

/-! ### Random walks (random_walk.rs is missing; modelled from the spec) -/

def first_node (wk : List NodeId) : Option NodeId := wk.head?

def intersects_nodes (wk : List NodeId) (keys : List NodeId) : Bool :=
  wk.any (fun n => decide (n ∈ keys))

def calculate_penalties_go (negs : List (NodeId × Weight)) : Weight → List NodeId → List (NodeId × Weight)
  | _, [] => []
  | acc, n :: rest =>
    let acc2 := acc + getD negs n 0
    (n, acc2) :: calculate_penalties_go negs acc2 rest

/-- Modelled from the spec: calculate_penalties distributes the weight of
each negative sink met along the walk over that node and all later walk
positions; the exact decay shape is left open by the spec, which only
demands one fixed deterministic formula used by both the add and the
subtract path (spec section 4.3). The model charges every position the
sum of the negative weights encountered up to and including it. -/
def calculate_penalties (wk : List NodeId) (negs : List (NodeId × Weight)) : List (NodeId × Weight) :=
  calculate_penalties_go negs 0 wk

/-! ### Walk storage (walk_storage.rs is missing; modelled from the spec) -/

/-- Modelled from the spec: an arena of walks keyed by walk id, an
inverted index from node to the walks passing through it with the first
visit position, and a monotone id source (spec sections 3 and 4.2). -/
structure WalkStorage where
  walks : List (Nat × List NodeId)
  visits : List (NodeId × List (Nat × Nat))
  next_id : Nat

namespace WalkStorage

def empty : WalkStorage := { walks := [], visits := [], next_id := 0 }

def get_walk (ws : WalkStorage) (id : Nat) : Option (List NodeId) := getK ws.walks id

def set_walk (ws : WalkStorage) (id : Nat) (wk : List NodeId) : WalkStorage :=
  { ws with walks := setK ws.walks id wk }

/-- Allocation registers a fresh empty walk under the issued id, so that
the subsequent get_walk_mut of perform_walk finds it. -/
def get_next_free_walkid (ws : WalkStorage) : Nat × WalkStorage :=
  (ws.next_id, { ws with next_id := ws.next_id + 1, walks := setK ws.walks ws.next_id [] })

def drop_walks_from_node (ws : WalkStorage) (ego : NodeId) : WalkStorage :=
  let dropped := ws.walks.filterMap (fun e => if e.2.head? = some ego then some e.1 else none)
  { ws with
    walks := ws.walks.filter (fun e => decide (¬ e.2.head? = some ego)),
    visits := ws.visits.map (fun v => (v.1, v.2.filter (fun pr => decide (pr.1 ∉ dropped)))) }

def get_visits_through_node (ws : WalkStorage) (n : NodeId) : Option (List (Nat × Nat)) :=
  getK ws.visits n

def visits_list (ws : WalkStorage) (n : NodeId) : List (Nat × Nat) :=
  (getK ws.visits n).getD []

/-- For each position p at or after from_pos whose node has no earlier
occurrence in the walk, record the pair (id, p) under that node
(spec section 4.2). -/
def add_walk_to_bookkeeping (ws : WalkStorage) (id : Nat) (from_pos : Nat) : WalkStorage :=
  let wk := (get_walk ws id).getD []
  { ws with
    visits := (List.range' from_pos (wk.length - from_pos)).foldl (fun vis p =>
      let node := wk.getD p 0
      if node ∈ wk.take p then vis
      else modK vis node (fun l => setK l id p) []) ws.visits }

/-- Inverse of add_walk_to_bookkeeping for positions at or after cut, and
truncation of the walk at cut (spec sections 4.2 and 4.3). -/
def remove_walk_segment_from_bookkeeping (ws : WalkStorage) (id : Nat) (cut : Nat) : WalkStorage :=
  let wk := (get_walk ws id).getD []
  { ws with
    visits := ws.visits.map (fun v => (v.1, v.2.filter (fun pr => decide (¬ (pr.1 = id ∧ cut ≤ pr.2))))),
    walks := setK ws.walks id (wk.take cut) }

def invalidate_go (ws : WalkStorage) (target : Option NodeId) (prob : ℚ) :
    List (Nat × Nat) → Tape → List (Nat × Nat) × Tape
  | [], t => ([], t)
  | (id, p) :: rest, t =>
    let wk := (get_walk ws id).getD []
    let forced : Bool := if 0 < prob then decide ((draw t).1 < prob) else false
    let t1 := if 0 < prob then (draw t).2 else t
    let hit : Bool :=
      match target with
      | some tg => decide (p + 1 < wk.length ∧ wk.getD (p + 1) 0 = tg)
      | none => false
    let r := invalidate_go ws target prob rest t1
    (if forced || hit then (id, p) :: r.1 else r.1, r.2)

/-- Modelled from the spec: every walk through src, taken at its first
visit position of src, is selected with probability prob for forced
re-routing, and otherwise selected when its current step after src is
the target (spec section 4.2). -/
def invalidate_walks_through_node (ws : WalkStorage) (src : NodeId) (target : Option NodeId)
    (prob : ℚ) (tape : Tape) : List (Nat × Nat) × Tape :=
  invalidate_go ws target prob (visits_list ws src) tape

end WalkStorage

/-! ### Errors and panics (errors.rs is missing; modelled from the spec) -/

/-- Modelled from the spec: the error kinds of section 7. -/
inductive MeritRankError
  | NodeDoesNotExist
  | NodeIsNotCalculated
  | NoPathExists
  | InvalidWalkLength
  | RandomChoiceError
  | SelfReferenceNotAllowed
deriving DecidableEq

/-- The process-aborting panics reachable from add_edge in rank.rs: the
self-reference guard, the Negs-not-found branch of zp, the nonnegative
weight assertion of zp, and the unreachable arm of the sign dispatch. -/
inductive PanicKind
  | selfReference
  | negsNotFound
  | weightAssertFailed
  | invalidWeightCombination
deriving DecidableEq

/-! ### The MeritRank state and its helpers from rank.rs -/

structure MeritRank where
  graph : Graph
  walks : WalkStorage
  personal_hits : List (NodeId × Counter)
  neg_hits : List (NodeId × List (NodeId × Weight))
  alpha : Weight

/-- The shared fold of the penalty-application loops: add each penalty,
negated when subtract is set, into the per-target map with default 0. -/
def apply_penalties (ego_map : List (NodeId × Weight)) (P : List (NodeId × Weight))
    (subtract : Bool) : List (NodeId × Weight) :=
  P.foldl (fun m pr => modK m pr.1 (fun v => v + (if subtract then -pr.2 else pr.2)) 0) ego_map

/-- Translation of the free function update_negative_hits of rank.rs:
when the walk intersects the keys of negs, fold the penalties of the
walk into the entry of the walk's first node, negated when subtract is
set. -/
def update_negative_hits (nh : List (NodeId × List (NodeId × Weight))) (wk : List NodeId)
    (negs : List (NodeId × Weight)) (subtract : Bool) : List (NodeId × List (NodeId × Weight)) :=
  if intersects_nodes wk (keysK negs) then
    modK nh (wk.headD 0)
      (fun ego_map => apply_penalties ego_map (calculate_penalties wk negs) subtract)
      []
  else nh

/-- Translation of the free function revert_counters_for_walk_from_pos of
rank.rs: subtract one from the count of every node of the suffix of the
walk from pos that does not also occur before pos. -/
def revert_counters_for_walk_from_pos (hits : List (NodeId × Counter)) (wk : List NodeId)
    (pos : Nat) : List (NodeId × Counter) :=
  let ego := wk.headD 0
  let nodes_before := wk.take pos
  let to_remove := ((wk.drop pos).filter (fun n => decide (n ∉ nodes_before))).dedup
  modK hits ego (fun c => to_remove.foldl (fun c n => Counter.add_to c n (-1)) c) []

/-- Model of MeritRank.random_choice backed by WeightedIndex: scale the
unit draw by the total weight and select by cumulative weights. -/
def weighted_choice_pick : List (NodeId × Weight) → ℚ → NodeId
  | [], _ => 0
  | [e], _ => e.1
  | e :: e2 :: rest, x => if x < e.2 then e.1 else weighted_choice_pick (e2 :: rest) (x - e.2)

def weighted_choice (l : List (NodeId × Weight)) (u : ℚ) : NodeId :=
  weighted_choice_pick l (u * valsSum l)

/-- Fueled body of MeritRank.generate_walk_segment: while the node has
positive neighbors, take a step when the skip flag is set or the alpha
draw succeeds, stepping to a neighbor chosen by weight. The fuel is
chosen large enough for every finite tape. -/
def gen_seg (g : Graph) (alpha : Weight) : Nat → NodeId → Bool → Tape → List NodeId × Tape
  | 0, _, _, t => ([], t)
  | fuel + 1, node, skip, t =>
    let nbrs := neighbors_weighted g node .positive
    if nbrs.isEmpty then ([], t)
    else if skip then
      let (u, t1) := draw t
      let next := weighted_choice nbrs u
      let (seg, t2) := gen_seg g alpha fuel next false t1
      (next :: seg, t2)
    else
      let (u, t1) := draw t
      if u ≤ alpha then
        let (v, t2) := draw t1
        let next := weighted_choice nbrs v
        let (seg, t3) := gen_seg g alpha fuel next false t2
        (next :: seg, t3)
      else ([], t1)

def generate_walk_segment (g : Graph) (alpha : Weight) (start : NodeId) (skip : Bool)
    (tape : Tape) : List NodeId × Tape :=
  gen_seg g alpha (2 * tape.length + 2) start skip tape

namespace MeritRank

/-- Translation of MeritRank::new: reject a graph with a self-loop,
otherwise start with empty walks, hits and neg hits and alpha 0.85. -/
def new (g : Graph) : Except MeritRankError MeritRank :=
  if Graph.check_self_reference g then .error .SelfReferenceNotAllowed
  else .ok { graph := g, walks := WalkStorage.empty, personal_hits := [], neg_hits := [],
             alpha := 85 / 100 }

def add_node (mr : MeritRank) (n : NodeId) : MeritRank :=
  { mr with graph := Graph.add_node mr.graph n }

def get_edge (mr : MeritRank) (src dest : NodeId) : Option Weight :=
  Graph.edge_weight mr.graph src dest

/-- Translation of MeritRank::perform_walk: generate a segment from the
start node without skipping alpha, and store the start node followed by
the segment under the given id (whose walk is empty by allocation). -/
def perform_walk (mr : MeritRank) (walk_id : Nat) (start : NodeId) (tape : Tape) :
    MeritRank × Tape :=
  let (seg, t1) := generate_walk_segment mr.graph mr.alpha start false tape
  ({ mr with walks := WalkStorage.set_walk mr.walks walk_id (start :: seg) }, t1)

/-- One iteration per remaining walk of the loop of MeritRank::calculate:
allocate an id, perform the walk, fold its distinct nodes into the ego
counter, apply negative hits, and register bookkeeping from position 0. -/
def calculate_loop : Nat → MeritRank → NodeId → List (NodeId × Weight) → Tape → MeritRank × Tape
  | 0, mr, _, _, t => (mr, t)
  | n + 1, mr, ego, negs, t =>
    let (id, ws1) := WalkStorage.get_next_free_walkid mr.walks
    let mr1 := { mr with walks := ws1 }
    let (mr2, t1) := perform_walk mr1 id ego t
    let wk := (WalkStorage.get_walk mr2.walks id).getD []
    let mr3 := { mr2 with
      personal_hits := amodK mr2.personal_hits ego (fun c => Counter.increment_unique_counts c wk) }
    let mr4 := { mr3 with neg_hits := update_negative_hits mr3.neg_hits wk negs false }
    let mr5 := { mr4 with walks := WalkStorage.add_walk_to_bookkeeping mr4.walks id 0 }
    calculate_loop n mr5 ego negs t1

/-- Translation of MeritRank::calculate: fail when the ego is not a graph
node, drop the walks of the ego, reset its counter, compute its negative
neighbors once, then run num_walks walk iterations. -/
def calculate (mr : MeritRank) (ego : NodeId) (num_walks : Nat) (tape : Tape) :
    Except MeritRankError (MeritRank × Tape) :=
  if ¬ Graph.contains_node mr.graph ego then .error .NodeDoesNotExist
  else
    let ws := WalkStorage.drop_walks_from_node mr.walks ego
    let negs := neighbors_weighted mr.graph ego .negative
    let mr1 := { mr with walks := ws, personal_hits := setK mr.personal_hits ego Counter.new }
    .ok (calculate_loop num_walks mr1 ego negs tape)

/-- Translation of MeritRank::get_node_score: fail with
NodeIsNotCalculated when the ego has no counter; under the assert regime
fail with NoPathExists when the target has hits but no positive path;
otherwise return the penalized hits divided by the total count. -/
def get_node_score (cfg : Cfg) (mr : MeritRank) (ego target : NodeId) :
    Except MeritRankError Weight :=
  match getK mr.personal_hits ego with
  | none => .error .NodeIsNotCalculated
  | some counter =>
    let hits := (Counter.get_count counter target).getD 0
    if cfg.assertOn ∧ 0 < hits ∧ ¬ Graph.is_connecting mr.graph ego target then
      .error .NoPathExists
    else
      let p := getD (getD mr.neg_hits ego []) target 0
      .ok ((hits + p) / Counter.total_count counter)

def collect_scores (cfg : Cfg) (mr : MeritRank) (ego : NodeId) :
    List NodeId → Except MeritRankError (List (NodeId × Weight))
  | [] => .ok []
  | peer :: rest =>
    match get_node_score cfg mr ego peer with
    | .error e => .error e
    | .ok v =>
      match collect_scores cfg mr ego rest with
      | .error e => .error e
      | .ok l => .ok ((peer, v) :: l)

def ranks_le (a b : NodeId × Weight) : Bool := decide (b.2 ≤ a.2)

/-- Translation of MeritRank::get_ranks: fail with NodeDoesNotExist when
the ego has no counter; otherwise score every counter key, sort by
non-increasing score, and truncate to the limit when one is given. -/
def get_ranks (cfg : Cfg) (mr : MeritRank) (ego : NodeId) (limit : Option Nat) :
    Except MeritRankError (List (NodeId × Weight)) :=
  match getK mr.personal_hits ego with
  | none => .error .NodeDoesNotExist
  | some counter =>
    match collect_scores cfg mr ego (Counter.keys counter) with
    | .error e => .error e
    | .ok peer_scores =>
      let sorted := peer_scores.mergeSort ranks_le
      .ok (sorted.take (limit.getD sorted.length))

/-- Translation of MeritRank::update_penalties_for_edge: for every walk
through dest whose first node is src, fold the penalties of the edge
weight into the neg hits of src (negated when remove is set). The
edge-existence unwrap of the source is modelled by a default of 0; both
call sites guarantee that the edge exists. -/
def update_penalties_for_edge (mr : MeritRank) (src dest : NodeId) (remove : Bool) : MeritRank :=
  let weight := (Graph.edge_weight mr.graph src dest).getD 0
  let affected := (WalkStorage.visits_list mr.walks dest).filterMap (fun pr =>
    match WalkStorage.get_walk mr.walks pr.1 with
    | none => none
    | some wk => if wk.headD 0 = src then some wk else none)
  { mr with
    neg_hits := modK mr.neg_hits src
      (fun ego_map => affected.foldl
        (fun m wk => apply_penalties m (calculate_penalties wk [(dest, weight)]) remove)
        ego_map)
      [] }

/-- Translation of MeritRank::recalc_invalidated_walk: extend an
invalidated walk with a new segment. With a forced first step the alpha
draw may abort the extension; the nodes of the new segment that are not
already in the walk are folded into the ego counter; the walk is
extended and re-registered from its previous length. -/
def recalc_invalidated_walk (mr : MeritRank) (walk_id : Nat) (force : Option NodeId)
    (skip : Bool) (tape : Tape) : Except MeritRankError MeritRank × Tape :=
  let wk0 := (WalkStorage.get_walk mr.walks walk_id).getD []
  let new_segment_start := wk0.length
  let first_step? : Except MeritRankError NodeId :=
    match force with
    | some s => .ok s
    | none =>
      match wk0.getLast? with
      | some l => .ok l
      | none => .error .InvalidWalkLength
  match first_step? with
  | .error e => (.error e, tape)
  | .ok first_step =>
    let (abort, skip2, t1) :=
      match force with
      | some _ =>
        if skip then (false, false, tape)
        else
          let (u, t') := draw tape
          (decide (mr.alpha ≤ u), false, t')
      | none => (false, skip, tape)
    if abort then (.ok mr, t1)
    else
      let (seg0, t2) := generate_walk_segment mr.graph mr.alpha first_step skip2 t1
      let new_segment := match force with | some f => f :: seg0 | none => seg0
      match wk0.head? with
      | none => (.error .InvalidWalkLength, t2)
      | some ego =>
        let diff := new_segment.dedup.filter (fun n => decide (n ∉ wk0))
        let hits1 := modK mr.personal_hits ego
          (fun c => Counter.increment_unique_counts c diff) Counter.new
        let ws1 := WalkStorage.set_walk mr.walks walk_id (wk0 ++ new_segment)
        let ws2 := WalkStorage.add_walk_to_bookkeeping ws1 walk_id new_segment_start
        (.ok { mr with personal_hits := hits1, walks := ws2 }, t2)

/-- The probability computed at the head of MeritRank::zp and passed to
invalidate_walks_through_node. -/
def step_recalc_probability (cfg : Cfg) (g : Graph) (src : NodeId) (weight : Weight) : Weight :=
  if cfg.optimize_invalidation ∧ EPSILON < weight ∧ Graph.contains_node g src then
    let sum := valsSum (neighbors_weighted g src .positive)
    weight / (sum + weight)
  else 0

/-- First loop of MeritRank::zp: for every invalidated walk, cache the
negative neighbors of its first node, revert the counter contributions
of the cut suffix, and subtract its negative hits when the ego has
negative neighbors. Only counters, neg hits and the cache change. -/
def zp_loop1 (g : Graph) (ws : WalkStorage) :
    List (Nat × Nat) → List (NodeId × List (NodeId × Weight)) → List (NodeId × Counter) →
    List (NodeId × List (NodeId × Weight)) →
    List (NodeId × List (NodeId × Weight)) × List (NodeId × Counter) ×
      List (NodeId × List (NodeId × Weight))
  | [], cache, hits, nh => (cache, hits, nh)
  | (id, pos) :: rest, cache, hits, nh =>
    let wk := (WalkStorage.get_walk ws id).getD []
    let first := wk.headD 0
    let (negs, cache1) :=
      match getK cache first with
      | some negs => (negs, cache)
      | none =>
        let negs := neighbors_weighted g first .negative
        (negs, setK cache first negs)
    let cut := pos + 1
    let hits1 := revert_counters_for_walk_from_pos hits wk cut
    let nh1 := if negs.isEmpty then nh else update_negative_hits nh wk negs true
    zp_loop1 g ws rest cache1 hits1 nh1

/-- Truncation step of the second zp loop: remove the bookkeeping of the
walk past the cut position pos plus one and truncate the walk there. -/
def zp_truncate (mr : MeritRank) (walk_id pos : Nat) : MeritRank :=
  { mr with
    walks := WalkStorage.remove_walk_segment_from_bookkeeping mr.walks walk_id (pos + 1) }

/-- Recalculation step of the second zp loop: the error of
recalc_invalidated_walk is discarded, keeping the state reached so far,
exactly as the underscore binding of the source does. -/
def recalc_or_keep (mr1 : MeritRank) (walk_id : Nat) (force : Option NodeId) (skip : Bool)
    (t : Tape) : MeritRank × Tape :=
  (match (recalc_invalidated_walk mr1 walk_id force skip t).1 with
   | .ok m => m
   | .error _ => mr1,
   (recalc_invalidated_walk mr1 walk_id force skip t).2)

/-- Re-application step of the second zp loop: look the negative
neighbors of the updated walk's first node up in the cache and fold the
penalties back in; a cache miss is the Negs-not-found panic (None). -/
def zp_reapply (cache : List (NodeId × List (NodeId × Weight))) (mr2 : MeritRank)
    (walk_id : Nat) : Option MeritRank :=
  let wk := (WalkStorage.get_walk mr2.walks walk_id).getD []
  match getK cache (wk.headD 0) with
  | some negs =>
    some (if negs.isEmpty then mr2
      else { mr2 with neg_hits := update_negative_hits mr2.neg_hits wk negs false })
  | none => none

/-- Second loop of MeritRank::zp: truncate each invalidated walk after
its cut position, recalculate its tail (forcing the first step to dest
when the recalc probability is positive), and re-apply its negative
hits from the cache keyed by the updated walk's first node; a cache
miss is the Negs-not-found panic. -/
def zp_loop2 (cache : List (NodeId × List (NodeId × Weight))) (dest : NodeId)
    (force_flag skip_flag : Bool) :
    List (Nat × Nat) → MeritRank → Tape → Except PanicKind (MeritRank × Tape)
  | [], mr, t => .ok (mr, t)
  | (walk_id, pos) :: rest, mr, t =>
    let mr1 := zp_truncate mr walk_id pos
    let force := if force_flag then some dest else none
    let rr := recalc_or_keep mr1 walk_id force skip_flag t
    match zp_reapply cache rr.1 walk_id with
    | some mr3 => zp_loop2 cache dest force_flag skip_flag rest mr3 rr.2
    | none => .error .negsNotFound

/-- Translation of MeritRank::zp, the zero-to-positive invalidation path
of add_edge. The debug-assert consistency checks at its end are modelled
as no-ops; the property the counters check asserts is proved below. -/
def zp (cfg : Cfg) (mr : MeritRank) (src dest : NodeId) (weight : Weight) (tape : Tape) :
    Except PanicKind (MeritRank × Tape) :=
  if weight < 0 then .error .weightAssertFailed
  else
    let prob := step_recalc_probability cfg mr.graph src weight
    let inv := WalkStorage.invalidate_walks_through_node mr.walks src (some dest) prob tape
    let lhn := zp_loop1 mr.graph mr.walks inv.1 [] mr.personal_hits mr.neg_hits
    let g1 :=
      if weight ≤ EPSILON then
        if Graph.contains_edge mr.graph src dest then Graph.remove_edge mr.graph src dest
        else mr.graph
      else Graph.add_edge_raw mr.graph src dest weight
    let mr1 := { mr with graph := g1, personal_hits := lhn.2.1, neg_hits := lhn.2.2 }
    zp_loop2 lhn.1 dest (decide (0 < prob)) (cfg.optimize_invalidation ∧ weight ≤ EPSILON)
      inv.1 mr1 inv.2

/-- Translation of MeritRank::zn: add the negative edge directly, then
apply the penalties of the edge. -/
def zn (mr : MeritRank) (src dest : NodeId) (weight : Weight) : MeritRank :=
  let mr1 := { mr with graph := Graph.add_edge_raw mr.graph src dest weight }
  update_penalties_for_edge mr1 src dest false

/-- Translation of MeritRank::nz: remove the penalties of the negative
edge, then remove the edge. -/
def nz (mr : MeritRank) (src dest : NodeId) : MeritRank :=
  let mr1 := update_penalties_for_edge mr src dest true
  { mr1 with graph := Graph.remove_edge mr1.graph src dest }

/-- Translation of MeritRank::add_edge: reject self-loops, return early
when the weight is unchanged, and otherwise dispatch on the signs of the
old and new weights exactly as the nine handlers of rank.rs do. -/
def add_edge (cfg : Cfg) (mr : MeritRank) (src dest : NodeId) (weight : Weight) (tape : Tape) :
    Except PanicKind (MeritRank × Tape) :=
  if src = dest then .error .selfReference
  else
    let old := (Graph.edge_weight mr.graph src dest).getD 0
    if old = weight then .ok (mr, tape)
    else
      let row := sign old
      let column := sign weight
      if row = 0 ∧ column = 0 then .ok (mr, tape)
      else if row = 0 ∧ column = 1 then zp cfg mr src dest weight tape
      else if row = 0 ∧ column = -1 then .ok (zn mr src dest weight, tape)
      else if row = 1 ∧ column = 0 then zp cfg mr src dest 0 tape
      else if row = 1 ∧ column = 1 then zp cfg mr src dest weight tape
      else if row = 1 ∧ column = -1 then
        match zp cfg mr src dest 0 tape with
        | .ok (m, t) => .ok (zn m src dest weight, t)
        | .error e => .error e
      else if row = -1 ∧ column = 0 then .ok (nz mr src dest, tape)
      else if row = -1 ∧ column = 1 then zp cfg (nz mr src dest) src dest weight tape
      else if row = -1 ∧ column = -1 then .ok (zn (nz mr src dest) src dest weight, tape)
      else .error .invalidWeightCombination

end MeritRank

/-- Total penalty charged to a target by a penalty list. -/
def penSum (P : List (NodeId × Weight)) (t : NodeId) : Weight :=
  ((P.filter (fun pr => decide (pr.1 = t))).map (·.2)).sum

/-- Witness for claim C2 at a concrete state: one node, one counter. -/
def c2mr : MeritRank :=
  { graph := { nodes := [1], edges := [] }, walks := WalkStorage.empty,
    personal_hits := [(1, [(1, 1)])], neg_hits := [], alpha := 85 / 100 }

/-- Witness state for claim C9: a one-node graph with no prior state. -/
def c9mr : MeritRank :=
  { graph := { nodes := [7], edges := [] }, walks := WalkStorage.empty,
    personal_hits := [], neg_hits := [], alpha := 85 / 100 }

/-- Witness objects for claim C8: an arbitrary small state and a graph
with a self-loop. -/
def c8mr : MeritRank :=
  { graph := { nodes := [5], edges := [] }, walks := WalkStorage.empty,
    personal_hits := [], neg_hits := [], alpha := 85 / 100 }

def c8g : Graph := { nodes := [1], edges := [((1, 1), 1)] }

/-- The sum of the positive out-edge weights of a source node, read
directly off the edge list; the quantity named pos_sum_src by claim C3. -/
def pos_out_sum (g : Graph) (src : NodeId) : Weight :=
  ((g.edges.filter (fun e => decide (e.1.1 = src ∧ 0 < e.2))).map (fun e => e.2)).sum

/-- Witness graph for claim C3: two positive out-edges of node 1. -/
def c3g : Graph := { nodes := [1, 2, 3], edges := [((1, 2), 3), ((1, 3), 2), ((2, 3), 9)] }

/-- Witness state for claim C5: node 1 with a positive edge to node 2
and a stored walk consisting of node 1 alone. -/
def c5mr : MeritRank :=
  { graph := { nodes := [1, 2], edges := [((1, 2), 1)] },
    walks := { walks := [(0, [1])], visits := [(1, [(0, 0)])], next_id := 1 },
    personal_hits := [(1, [(1, 1)])], neg_hits := [], alpha := 85 / 100 }

/-- The value carried by a successful get_node_score, with an arbitrary
default on the error branches. -/
def score_value (cfg : Cfg) (mr : MeritRank) (ego peer : NodeId) : Weight :=
  match MeritRank.get_node_score cfg mr ego peer with
  | .ok v => v
  | .error _ => 0

/-- Witness state for claim C7: one ego with two scored peers. -/
def c7mr : MeritRank :=
  { graph := { nodes := [1, 2], edges := [] }, walks := WalkStorage.empty,
    personal_hits := [(1, [(1, 1), (2, 3)])], neg_hits := [], alpha := 85 / 100 }

/-- The first node of the stored walk of an id, with defaults. -/
def walk_head (ws : WalkStorage) (id : Nat) : NodeId :=
  ((WalkStorage.get_walk ws id).getD []).headD 0

/-- The walks selected by invalidate_walks_through_node when the recalc
probability is zero: exactly those whose step after the recorded visit
position is the destination. -/
def zp_hit_filter (ws : WalkStorage) (src dest : NodeId) : List (Nat × Nat) :=
  (WalkStorage.visits_list ws src).filter (fun pr =>
    decide (pr.2 + 1 < ((WalkStorage.get_walk ws pr.1).getD []).length ∧
      ((WalkStorage.get_walk ws pr.1).getD []).getD (pr.2 + 1) 0 = dest))

/-- Witness state for claim C6: nodes 1 and 2 with the stored edge
weight 5 and no walks. -/
def c6mr : MeritRank :=
  { graph := { nodes := [1, 2], edges := [((1, 2), 5)] }
    walks := { walks := [], visits := [], next_id := 0 }
    personal_hits := []
    neg_hits := []
    alpha := 17/20 }

/-- The number of stored walks that originate at ego and contain t. -/
def count_walks_with (ws : WalkStorage) (ego t : NodeId) : Nat :=
  (ws.walks.filter (fun e => decide (e.2.head? = some ego ∧ t ∈ e.2))).length

/-- The sum over the stored walks originating at ego of the number of
distinct nodes in each walk. -/
def total_distinct (ws : WalkStorage) (ego : NodeId) : Nat :=
  ((ws.walks.filter (fun e => decide (e.2.head? = some ego))).map
    (fun e => e.2.dedup.length)).sum

/-- Indicator measure of one walk for the count of target t under ego. -/
def indC (ego t : NodeId) (wk : List NodeId) : ℚ :=
  if wk.head? = some ego ∧ t ∈ wk then 1 else 0

/-- Distinct-node measure of one walk under ego. -/
def indT (ego : NodeId) (wk : List NodeId) : ℚ :=
  if wk.head? = some ego then (wk.dedup.length : ℚ) else 0

/-- Sum of a walk measure over a stored walk list. -/
def wmeas (w : List (Nat × List NodeId)) (μ : List NodeId → ℚ) : ℚ :=
  (w.map (fun e => μ e.2)).sum

/-- The counters agree with the walk list: for every ego the stored
counter (empty by default) counts, for every target, the walks from ego
containing the target, and its total is the summed distinct-node counts. -/
def hits_ok (hits : List (NodeId × Counter)) (W : List (Nat × List NodeId)) : Prop :=
  ∀ ego, (∀ t, getD (getD hits ego []) t 0 = wmeas W (indC ego t))
    ∧ Counter.total_count (getD hits ego []) = wmeas W (indT ego)

/-- The claim-facing counter sanity property: every existing counter
counts walks and sums distinct nodes. -/
def counter_sanity (mr : MeritRank) : Prop :=
  ∀ ego c, getK mr.personal_hits ego = some c →
    (∀ t, getD c t 0 = (count_walks_with mr.walks ego t : ℚ))
    ∧ Counter.total_count c = (total_distinct mr.walks ego : ℚ)

/-- Storage well-formedness: distinct walk ids, all below the id source. -/
def walks_wf (ws : WalkStorage) : Prop :=
  (keysK ws.walks).Nodup ∧ ∀ id ∈ keysK ws.walks, id < ws.next_id

/-- Pending truncations: each walk whose id carries a pending cut
position is replaced by its prefix up to that position inclusive. -/
def truncW (P : List (Nat × Nat)) (w : List (Nat × List NodeId)) : List (Nat × List NodeId) :=
  w.map (fun e =>
    match getK P e.1 with
    | some pos => (e.1, e.2.take (pos + 1))
    | none => e)

/-- Witness state for claim C1: two nodes, one positive edge, nothing
calculated yet. -/
def c1mr : MeritRank :=
  { graph := { nodes := [1, 2], edges := [((1, 2), 1)] }
    walks := { walks := [], visits := [], next_id := 0 }
    personal_hits := []
    neg_hits := []
    alpha := 17/20 }

/-- The state after calculate(1, 0) on c1mr: the counter of ego 1 is
installed empty. -/
def c1res : MeritRank :=
  { graph := { nodes := [1, 2], edges := [((1, 2), 1)] }
    walks := { walks := [], visits := [], next_id := 0 }
    personal_hits := [(1, [])]
    neg_hits := []
    alpha := 17/20 }

/-! ### Lemmas about the association-list maps -/

theorem getK_setK_self {κ α : Type} [DecidableEq κ] (m : List (κ × α)) (k : κ) (v : α) :
    getK (setK m k v) k = some v := by
  induction m with
  | nil => simp [setK, getK]
  | cons e rest ih =>
    by_cases h : e.1 = k
    · simp [setK, h, getK]
    · simp [setK, h, getK, ih]

theorem getK_setK_ne {κ α : Type} [DecidableEq κ] (m : List (κ × α)) (k k' : κ) (v : α)
    (h : ¬ k' = k) : getK (setK m k v) k' = getK m k' := by
  have h' : ¬ k = k' := fun hh => h hh.symm
  induction m with
  | nil => simp [setK, getK, h']
  | cons e rest ih =>
    by_cases he : e.1 = k
    · simp [setK, he, getK, h', he.symm ▸ h']
    · simp [setK, he, getK, ih]

theorem getK_modK_self {κ α : Type} [DecidableEq κ] (m : List (κ × α)) (k : κ) (f : α → α)
    (d : α) : getK (modK m k f d) k = some (f (getD m k d)) := by
  induction m with
  | nil => simp [modK, getK, getD]
  | cons e rest ih =>
    by_cases h : e.1 = k
    · simp [modK, h, getK, getD]
    · simp [modK, h, getK, getD] at ih ⊢
      exact ih

theorem getK_modK_ne {κ α : Type} [DecidableEq κ] (m : List (κ × α)) (k k' : κ) (f : α → α)
    (d : α) (h : ¬ k' = k) : getK (modK m k f d) k' = getK m k' := by
  have h' : ¬ k = k' := fun hh => h hh.symm
  induction m with
  | nil => simp [modK, getK, h']
  | cons e rest ih =>
    by_cases he : e.1 = k
    · simp [modK, he, getK, h', he.symm ▸ h']
    · simp [modK, he, getK, ih]

theorem getD_modK_self {κ α : Type} [DecidableEq κ] (m : List (κ × α)) (k : κ) (f : α → α)
    (d : α) (d' : α) : getD (modK m k f d) k d' = f (getD m k d) := by
  simp [getD, getK_modK_self]

theorem getD_modK_ne {κ α : Type} [DecidableEq κ] (m : List (κ × α)) (k k' : κ) (f : α → α)
    (d : α) (d' : α) (h : ¬ k' = k) : getD (modK m k f d) k' d' = getD m k' d' := by
  simp [getD, getK_modK_ne _ _ _ _ _ h]

theorem getK_amodK_self {κ α : Type} [DecidableEq κ] (m : List (κ × α)) (k : κ) (f : α → α) :
    getK (amodK m k f) k = (getK m k).map f := by
  induction m with
  | nil => simp [amodK, getK]
  | cons e rest ih =>
    by_cases h : e.1 = k
    · simp [amodK, h, getK]
    · simp [amodK, h, getK, ih]

theorem getK_amodK_ne {κ α : Type} [DecidableEq κ] (m : List (κ × α)) (k k' : κ) (f : α → α)
    (h : ¬ k' = k) : getK (amodK m k f) k' = getK m k' := by
  have h' : ¬ k = k' := fun hh => h hh.symm
  induction m with
  | nil => simp [amodK, getK]
  | cons e rest ih =>
    by_cases he : e.1 = k
    · simp [amodK, he, getK, h', he.symm ▸ h']
    · simp [amodK, he, getK, ih]

theorem valsSum_modK_add {κ : Type} [DecidableEq κ] (m : List (κ × Weight)) (k : κ)
    (delta : Weight) : valsSum (modK m k (· + delta) 0) = valsSum m + delta := by
  induction m with
  | nil => simp [modK, valsSum]
  | cons e rest ih =>
    by_cases h : e.1 = k
    · simp [modK, h, valsSum]
      ring
    · simp only [modK, h, if_false, valsSum, List.map_cons, List.sum_cons] at ih ⊢
      rw [ih]
      ring

/-! ### Lemmas about counters -/

theorem Counter.getD_add_to (c : Counter) (t t' : NodeId) (delta : Weight) :
    getD (Counter.add_to c t delta) t' 0 =
      getD c t' 0 + (if t' = t then delta else 0) := by
  by_cases h : t' = t
  · subst h
    simp [Counter.add_to, getD_modK_self]
  · simp [Counter.add_to, getD_modK_ne _ _ _ _ _ _ h, h]

theorem Counter.total_add_to (c : Counter) (t : NodeId) (delta : Weight) :
    Counter.total_count (Counter.add_to c t delta) = Counter.total_count c + delta := by
  simp [Counter.add_to, Counter.total_count, valsSum_modK_add]

theorem Counter.getD_fold_add_one (L : List NodeId) (hnd : L.Nodup) (c : Counter) (t : NodeId) :
    getD (L.foldl (fun c n => Counter.add_to c n 1) c) t 0 =
      getD c t 0 + (if t ∈ L then 1 else 0) := by
  induction L generalizing c with
  | nil => simp
  | cons n rest ih =>
    simp only [List.foldl_cons]
    rw [ih (List.Nodup.of_cons hnd)]
    rw [Counter.getD_add_to]
    by_cases h : t = n
    · subst h
      have : t ∉ rest := by
        intro hm
        exact (List.nodup_cons.mp hnd).1 hm
      simp [this]
    · simp [h, List.mem_cons]

theorem Counter.total_fold_add_one (L : List NodeId) (c : Counter) :
    Counter.total_count (L.foldl (fun c n => Counter.add_to c n 1) c) =
      Counter.total_count c + L.length := by
  induction L generalizing c with
  | nil => simp
  | cons n rest ih =>
    simp only [List.foldl_cons, ih, Counter.total_add_to, List.length_cons]
    push_cast
    ring

theorem Counter.getD_increment_unique (c : Counter) (l : List NodeId) (t : NodeId) :
    getD (Counter.increment_unique_counts c l) t 0 =
      getD c t 0 + (if t ∈ l then 1 else 0) := by
  unfold Counter.increment_unique_counts
  rw [Counter.getD_fold_add_one _ (List.nodup_dedup l)]
  simp [List.mem_dedup]

theorem Counter.total_increment_unique (c : Counter) (l : List NodeId) :
    Counter.total_count (Counter.increment_unique_counts c l) =
      Counter.total_count c + l.dedup.length := by
  unfold Counter.increment_unique_counts
  exact Counter.total_fold_add_one _ c

theorem Counter.getD_fold_sub_one (L : List NodeId) (hnd : L.Nodup) (c : Counter) (t : NodeId) :
    getD (L.foldl (fun c n => Counter.add_to c n (-1)) c) t 0 =
      getD c t 0 - (if t ∈ L then 1 else 0) := by
  induction L generalizing c with
  | nil => simp
  | cons n rest ih =>
    simp only [List.foldl_cons]
    rw [ih (List.Nodup.of_cons hnd)]
    rw [Counter.getD_add_to]
    by_cases h : t = n
    · subst h
      have : t ∉ rest := by
        intro hm
        exact (List.nodup_cons.mp hnd).1 hm
      simp [this]
      ring
    · simp [h, List.mem_cons]

theorem Counter.total_fold_sub_one (L : List NodeId) (c : Counter) :
    Counter.total_count (L.foldl (fun c n => Counter.add_to c n (-1)) c) =
      Counter.total_count c - L.length := by
  induction L generalizing c with
  | nil => simp
  | cons n rest ih =>
    simp only [List.foldl_cons, ih, Counter.total_add_to, List.length_cons]
    push_cast
    ring

/-! ### Lemmas about penalty folds -/

theorem getD_fold_pen (P : List (NodeId × Weight)) (sub : Bool) (m : List (NodeId × Weight))
    (t : NodeId) :
    getD (apply_penalties m P sub) t 0
      = getD m t 0 + (if sub then -1 else 1) * penSum P t := by
  unfold apply_penalties
  induction P generalizing m with
  | nil => simp [penSum]
  | cons pr rest ih =>
    simp only [List.foldl_cons]
    rw [ih]
    have hmod : getD (modK m pr.1 (fun v => v + (if sub then -pr.2 else pr.2)) 0) t 0
        = getD m t 0 + (if t = pr.1 then (if sub then -pr.2 else pr.2) else 0) := by
      by_cases h : t = pr.1
      · subst h
        simp [getD_modK_self]
      · simp [getD_modK_ne _ _ _ _ _ _ h, h]
    rw [hmod]
    have hsum : penSum (pr :: rest) t = (if pr.1 = t then pr.2 else 0) + penSum rest t := by
      by_cases h : pr.1 = t
      · simp [penSum, h]
      · simp [penSum, h]
    rw [hsum]
    by_cases h : t = pr.1
    · subst h
      simp only [if_pos rfl]
      cases sub <;> simp <;> ring
    · have h' : ¬ pr.1 = t := fun hh => h hh.symm
      simp only [if_neg h, if_neg h']
      ring

end Meritrank

namespace Meritrank

/-! ### Claim C4: penalty cancellation round-trip -/

/-- Claim C4. For every walk and fixed negs map, applying
update_negative_hits with subtract set to false and then with subtract
set to true leaves every entry of neg_hits at its previous value: the
two contributions cancel exactly, because calculate_penalties is a
deterministic function of the walk and the negs map. Values are read
with the absent-entry default 0 that the code itself uses. -/
theorem claim_C4_update_negative_hits_roundtrip
    (nh : List (NodeId × List (NodeId × Weight))) (wk : List NodeId)
    (negs : List (NodeId × Weight)) (ego target : NodeId) :
    getD (getD (update_negative_hits (update_negative_hits nh wk negs false) wk negs true)
        ego []) target 0
      = getD (getD nh ego []) target 0 := by
  unfold update_negative_hits
  by_cases hi : intersects_nodes wk (keysK negs) = true
  · simp only [hi, if_true]
    by_cases hego : ego = wk.headD 0
    · subst hego
      rw [getD_modK_self, getD_modK_self]
      rw [getD_fold_pen, getD_fold_pen]
      simp
    · rw [getD_modK_ne _ _ _ _ _ _ hego, getD_modK_ne _ _ _ _ _ _ hego]
  · simp only [Bool.not_eq_true] at hi
    simp [hi]

/-! ### Claim C8: self-loop rejection -/

/-- Claim C8. Adding a self-loop edge panics for every state, weight and
tape, with the same panic value regardless of the state, so no state is
read or mutated first; and the constructor returns an error, never an
instance, whenever the given graph holds a self-loop edge. -/
theorem claim_C8_self_loop_rejection :
    (∀ cfg mr x w tape, MeritRank.add_edge cfg mr x x w tape = .error .selfReference)
    ∧ (∀ g : Graph, (∃ e ∈ g.edges, e.1.1 = e.1.2) →
        MeritRank.new g = .error .SelfReferenceNotAllowed) := by
  constructor
  · intro cfg mr x w tape
    simp [MeritRank.add_edge]
  · intro g hg
    have : Graph.check_self_reference g = true := by
      rcases hg with ⟨e, he, heq⟩
      simp only [Graph.check_self_reference, List.any_eq_true]
      exact ⟨e, he, by simp [heq]⟩
    simp [MeritRank.new, this]

/-! ### Claim C2: the score formula of get_node_score -/

/-- Claim C2. The score of a target from an ego: the call fails with
NodeIsNotCalculated exactly when the ego has no personal-hits counter;
otherwise, with h the counter value of the target (0 when absent), p the
negative-hits value (0 when absent) and t the counter total, it fails
with NoPathExists when the assert regime is on, h is positive and no
positive-edge path connects ego to target, and in every other case it
returns (h + p) / t. -/
theorem claim_C2_get_node_score (cfg : Cfg) (mr : MeritRank) (ego target : NodeId) :
    (getK mr.personal_hits ego = none ↔
      MeritRank.get_node_score cfg mr ego target = .error .NodeIsNotCalculated)
    ∧ (∀ c, getK mr.personal_hits ego = some c →
        (if cfg.assertOn ∧ 0 < getD c target 0 ∧ ¬ Graph.is_connecting mr.graph ego target then
          MeritRank.get_node_score cfg mr ego target = .error .NoPathExists
        else
          MeritRank.get_node_score cfg mr ego target =
            .ok ((getD c target 0 + getD (getD mr.neg_hits ego []) target 0) /
              Counter.total_count c))) := by
  constructor
  · constructor
    · intro h
      simp [MeritRank.get_node_score, h]
    · intro h
      cases hk : getK mr.personal_hits ego with
      | none => rfl
      | some c =>
        exfalso
        simp only [MeritRank.get_node_score, hk] at h
        split at h <;> simp at h
  · intro c hc
    have hscore : MeritRank.get_node_score cfg mr ego target =
        (if cfg.assertOn ∧ 0 < getD c target 0 ∧ ¬ Graph.is_connecting mr.graph ego target then
          .error .NoPathExists
        else
          .ok ((getD c target 0 + getD (getD mr.neg_hits ego []) target 0) /
            Counter.total_count c)) := by
      simp only [MeritRank.get_node_score, hc]
      rfl
    rw [hscore]
    by_cases h : cfg.assertOn ∧ 0 < getD c target 0 ∧
        ¬ Graph.is_connecting mr.graph ego target
    · simp only [if_pos h]
    · simp only [if_neg h]

theorem claim_C2_get_node_score_witness :
    MeritRank.get_node_score { assertOn := false, optimize_invalidation := true } c2mr 1 1 =
      .ok ((getD [(1, (1 : Weight))] 1 0 + getD (getD ([] : List (NodeId × List (NodeId × Weight))) 1 []) 1 0) / Counter.total_count [(1, 1)]) := by
  have h := (claim_C2_get_node_score { assertOn := false, optimize_invalidation := true }
    c2mr 1 1).2 [(1, 1)] rfl
  simpa using h

/-! ### Claim C9: unguarded division by a zero total count -/

/-- Claim C9. The division of get_node_score is not guarded against a
zero total count, and such a state is reachable through the public
interface: calculate of any graph node with zero walks succeeds and
installs the empty counter with total count 0, whereupon
get_node_score returns Ok of the division of the penalized hits by the
zero total for every target, never an error. With rationals modelling
the machine floats, the junk value of the division by zero replaces the
NaN of the source. -/
theorem claim_C9_zero_total_division (mr : MeritRank) (ego : NodeId) (tape : Tape)
    (h : Graph.contains_node mr.graph ego = true) :
    ∃ mr' tape', MeritRank.calculate mr ego 0 tape = .ok (mr', tape')
      ∧ getK mr'.personal_hits ego = some Counter.new
      ∧ Counter.total_count Counter.new = 0
      ∧ ∀ cfg target, ∃ p : Weight,
          MeritRank.get_node_score cfg mr' ego target = .ok ((0 + p) / 0) := by
  refine
    ⟨{ mr with
       walks := WalkStorage.drop_walks_from_node mr.walks ego
       personal_hits := setK mr.personal_hits ego Counter.new },
     tape, ?_, ?_, rfl, ?_⟩
  · simp [MeritRank.calculate, h, MeritRank.calculate_loop]
  · exact getK_setK_self _ _ _
  · intro cfg target
    refine ⟨getD (getD mr.neg_hits ego []) target 0, ?_⟩
    have hc : getK (setK mr.personal_hits ego Counter.new) ego = some Counter.new :=
      getK_setK_self _ _ _
    simp only [MeritRank.get_node_score, hc]
    simp [Counter.get_count, Counter.new, getD, getK, Counter.total_count, valsSum]

theorem claim_C9_zero_total_division_witness :
    ∃ mr' tape', MeritRank.calculate c9mr 7 0 [] = .ok (mr', tape')
      ∧ getK mr'.personal_hits 7 = some Counter.new
      ∧ Counter.total_count Counter.new = 0
      ∧ ∀ cfg target, ∃ p : Weight,
          MeritRank.get_node_score cfg mr' 7 target = .ok ((0 + p) / 0) :=
  claim_C9_zero_total_division c9mr 7 [] (by decide)

theorem claim_C8_self_loop_rejection_witness :
    MeritRank.add_edge { assertOn := true, optimize_invalidation := true } c8mr 5 5 1 [] =
      .error .selfReference
    ∧ MeritRank.new c8g = .error .SelfReferenceNotAllowed :=
  ⟨claim_C8_self_loop_rejection.1 { assertOn := true, optimize_invalidation := true } c8mr 5 1 [],
   claim_C8_self_loop_rejection.2 c8g ⟨((1, 1), 1), by decide, rfl⟩⟩

/-! ### Claim C3: the recalc probability of the ZP path -/

theorem getK_eq_of_mem {κ α : Type} [DecidableEq κ] (e : κ × α) :
    ∀ m : List (κ × α), (keysK m).Nodup → e ∈ m → getK m e.1 = some e.2 := by
  intro m
  induction m with
  | nil =>
    intro _ he
    cases he
  | cons f rest ih =>
    intro hnd he
    have hnd2 : (f.1 :: keysK rest).Nodup := hnd
    rcases List.nodup_cons.mp hnd2 with ⟨hf, hrestnd⟩
    rcases List.mem_cons.mp he with hef | hrest
    · subst hef
      simp [getK]
    · have hne : ¬ f.1 = e.1 := by
        intro hh
        have hmem : e.1 ∈ keysK rest := List.mem_map.mpr ⟨e, hrest, rfl⟩
        rw [hh] at hf
        exact hf hmem
      simp only [getK, hne, if_false]
      exact ih hrestnd hrest

theorem fm_congr {α β : Type} (f g : α → Option β) :
    ∀ l : List α, (∀ a, a ∈ l → f a = g a) → l.filterMap f = l.filterMap g := by
  intro l
  induction l with
  | nil =>
    intro _
    rfl
  | cons a rest ih =>
    intro h
    rw [List.filterMap_cons, List.filterMap_cons, h a (List.mem_cons_self _ _),
      ih (fun b hb => h b (List.mem_cons_of_mem _ hb))]

theorem map_filter_eq_fm {α β : Type} (p : α → Bool) (f : α → β) :
    ∀ l : List α, (l.filter p).map f = l.filterMap (fun a => if p a then some (f a) else none) := by
  intro l
  induction l with
  | nil => rfl
  | cons a rest ih =>
    rw [List.filter_cons, List.filterMap_cons]
    by_cases h : p a = true
    · simp only [h, if_true, List.map_cons, ih]
    · simp only [h, if_false, ih]
      exact ih

theorem neighbors_weighted_positive_eq (g : Graph) (src : NodeId)
    (hnd : (keysK g.edges).Nodup) :
    neighbors_weighted g src .positive =
      (g.edges.filter (fun e => decide (e.1.1 = src ∧ 0 < e.2))).map (fun e => (e.1.2, e.2)) := by
  unfold neighbors_weighted Graph.neighbors
  rw [List.filterMap_filterMap, map_filter_eq_fm]
  apply fm_congr
  intro e he
  by_cases hsrc : e.1.1 = src
  · have hkey : e.1 = (src, e.1.2) := by
      rw [← hsrc]
    have hw : Graph.edge_weight g src e.1.2 = some e.2 := by
      have hh := getK_eq_of_mem e g.edges hnd he
      unfold Graph.edge_weight
      rw [← hkey]
      exact hh
    simp only [hsrc, if_pos rfl, Option.some_bind]
    by_cases hpos : 0 < e.2
    · simp [hw, hpos, hsrc]
    · simp [hw, hpos, hsrc]
  · simp [hsrc]

theorem valsSum_neighbors_weighted_positive (g : Graph) (src : NodeId)
    (hnd : (keysK g.edges).Nodup) :
    valsSum (neighbors_weighted g src .positive) = pos_out_sum g src := by
  rw [neighbors_weighted_positive_eq g src hnd]
  unfold valsSum pos_out_sum
  rw [List.map_map]
  rfl

/-- Claim C3. The probability that the ZP path of add_edge hands to
invalidate_walks_through_node (the def step_recalc_probability, which zp
passes by construction) equals new_weight divided by the sum of the
positive out-edge weights of src plus new_weight, whenever new_weight
exceeds EPSILON, the optimize-invalidation flag is on and src is a node
of the graph; in every other case it equals 0. Stated for every graph
whose edge keys are duplicate-free, which every graph built through the
model's operations is. -/
theorem claim_C3_step_recalc_probability (cfg : Cfg) (g : Graph) (src : NodeId) (w : Weight)
    (hnd : (keysK g.edges).Nodup) :
    MeritRank.step_recalc_probability cfg g src w =
      if cfg.optimize_invalidation ∧ EPSILON < w ∧ src ∈ g.nodes then
        w / (pos_out_sum g src + w)
      else 0 := by
  unfold MeritRank.step_recalc_probability
  by_cases h : cfg.optimize_invalidation ∧ EPSILON < w ∧ src ∈ g.nodes
  · have h' : cfg.optimize_invalidation ∧ EPSILON < w ∧ Graph.contains_node g src := by
      refine ⟨h.1, h.2.1, ?_⟩
      simp [Graph.contains_node, h.2.2]
    rw [if_pos h', if_pos h]
    rw [valsSum_neighbors_weighted_positive g src hnd]
  · have h' : ¬ (cfg.optimize_invalidation ∧ EPSILON < w ∧ Graph.contains_node g src) := by
      intro hh
      exact h ⟨hh.1, hh.2.1, by simpa [Graph.contains_node] using hh.2.2⟩
    rw [if_neg h', if_neg h]

theorem setK_self_of_getK {κ α : Type} [DecidableEq κ] (v : α) (k : κ) :
    ∀ m : List (κ × α), getK m k = some v → setK m k v = m := by
  intro m
  induction m with
  | nil =>
    intro h
    cases h
  | cons e rest ih =>
    intro h
    by_cases he : e.1 = k
    · simp only [getK, he, if_pos rfl] at h
      obtain ⟨k', v'⟩ := e
      simp only at he
      subst he
      injection h with h
      subst h
      simp [setK]
    · simp only [getK, he, if_false] at h
      simp [setK, he, ih h]

theorem weighted_choice_pick_mem :
    ∀ (l : List (NodeId × Weight)) (x : ℚ), l ≠ [] →
      ∃ e, e ∈ l ∧ weighted_choice_pick l x = e.1 := by
  intro l
  induction l with
  | nil =>
    intro x h
    exact absurd rfl h
  | cons e tail ih =>
    intro x _
    cases tail with
    | nil => exact ⟨e, List.mem_singleton.mpr rfl, rfl⟩
    | cons e2 rest =>
      by_cases hx : x < e.2
      · exact ⟨e, List.mem_cons_self _ _, by simp [weighted_choice_pick, hx]⟩
      · obtain ⟨f, hf, heq⟩ := ih (x - e.2) (by simp)
        exact ⟨f, List.mem_cons_of_mem _ hf, by simp [weighted_choice_pick, hx, heq]⟩

theorem weighted_choice_mem (l : List (NodeId × Weight)) (u : ℚ) (h : l ≠ []) :
    ∃ e, e ∈ l ∧ weighted_choice l u = e.1 :=
  weighted_choice_pick_mem l (u * valsSum l) h

/-- The first node of a generated segment, when there is one, is a
positive-mode neighbor of the start node. -/
theorem gen_seg_head (g : Graph) (alpha : Weight) :
    ∀ (fuel : Nat) (node : NodeId) (skip : Bool) (t : Tape) (x : NodeId),
      ((gen_seg g alpha fuel node skip t).1).head? = some x →
      ∃ w, (x, w) ∈ neighbors_weighted g node .positive := by
  intro fuel node skip t x
  cases fuel with
  | zero =>
    intro h
    simp [gen_seg] at h
  | succ n =>
    intro h
    by_cases hn : (neighbors_weighted g node .positive).isEmpty
    · simp [gen_seg, hn] at h
    · have hne : neighbors_weighted g node .positive ≠ [] := by
        intro hh
        rw [hh] at hn
        exact hn rfl
      cases skip with
      | true =>
        simp only [gen_seg, hn, Bool.false_eq_true, if_false, if_true] at h
        obtain ⟨e, he, heq⟩ := weighted_choice_mem (neighbors_weighted g node .positive)
          (draw t).1 hne
        refine ⟨e.2, ?_⟩
        have hx : x = e.1 := by
          rw [← heq]
          simpa using h.symm
        rw [hx]
        simpa using he
      | false =>
        by_cases hu : (draw t).1 ≤ alpha
        · simp only [gen_seg, hn, Bool.false_eq_true, if_false, hu, if_true] at h
          obtain ⟨e, he, heq⟩ := weighted_choice_mem (neighbors_weighted g node .positive)
            (draw (draw t).2).1 hne
          refine ⟨e.2, ?_⟩
          have hx : x = e.1 := by
            rw [← heq]
            simpa using h.symm
          rw [hx]
          simpa using he
        · simp [gen_seg, hn, hu] at h

theorem generate_walk_segment_head (g : Graph) (alpha : Weight) (start : NodeId) (skip : Bool)
    (tape : Tape) (x : NodeId)
    (h : ((generate_walk_segment g alpha start skip tape).1).head? = some x) :
    ∃ w, (x, w) ∈ neighbors_weighted g start .positive :=
  gen_seg_head g alpha _ start skip tape x h

/-- Full effect of recalc_invalidated_walk on a stored nonempty walk:
the call succeeds, and either it is the early alpha-abort of a forced
first step and the state is untouched, or the walk is extended by a
segment whose nodes outside the old walk are folded into the counter of
the walk's first node, with bookkeeping re-registered from the old
length. -/
theorem recalc_effect (mr : MeritRank) (walk_id : Nat) (force : Option NodeId) (skip : Bool)
    (tape : Tape) (wk0 : List NodeId)
    (hwk : WalkStorage.get_walk mr.walks walk_id = some wk0) (hne : wk0 ≠ []) :
    ∃ m' tape' seg,
      MeritRank.recalc_invalidated_walk mr walk_id force skip tape = (.ok m', tape')
      ∧ ((m' = mr ∧ seg = [] ∧ force.isSome ∧ skip = false ∧ mr.alpha ≤ (draw tape).1
            ∧ tape' = (draw tape).2)
        ∨ (m' = { mr with
              personal_hits := modK mr.personal_hits (wk0.headD 0)
                (fun c => Counter.increment_unique_counts c
                  (seg.dedup.filter (fun n => decide (n ∉ wk0)))) Counter.new
              walks := WalkStorage.add_walk_to_bookkeeping
                (WalkStorage.set_walk mr.walks walk_id (wk0 ++ seg)) walk_id wk0.length }
            ∧ (∀ x, seg.head? = some x →
                (match force with
                 | some f => x = f
                 | none => ∃ w, (x, w) ∈ neighbors_weighted mr.graph (wk0.getLastD 0) .positive)))) := by
  obtain ⟨a, rest, rfl⟩ : ∃ a rest, wk0 = a :: rest := by
    cases wk0 with
    | nil => exact absurd rfl hne
    | cons a rest => exact ⟨a, rest, rfl⟩
  cases force with
  | none =>
    cases hL : (a :: rest).getLast? with
    | none => simp at hL
    | some l =>
      have hlD : (a :: rest).getLastD 0 = l := by
        rw [List.getLastD_eq_getLast?, hL]
        rfl
      rcases hgen : generate_walk_segment mr.graph mr.alpha l skip tape with ⟨s, t2⟩
      refine ⟨_, t2, s, ?_, Or.inr ⟨rfl, ?_⟩⟩
      · simp only [MeritRank.recalc_invalidated_walk, hwk, Option.getD_some, hL, hgen]
        simp
      · intro x hx
        rw [hlD]
        have : ((generate_walk_segment mr.graph mr.alpha l skip tape).1).head? = some x := by
          rw [hgen]
          exact hx
        exact generate_walk_segment_head _ _ _ _ _ _ this
  | some f =>
    cases skip with
    | true =>
      rcases hgen : generate_walk_segment mr.graph mr.alpha f false tape with ⟨s, t2⟩
      refine ⟨_, t2, f :: s, ?_, Or.inr ⟨rfl, ?_⟩⟩
      · simp only [MeritRank.recalc_invalidated_walk, hwk, Option.getD_some]
        simp [hgen]
      · intro x hx
        simp only [List.head?_cons, Option.some.injEq] at hx
        simp [hx]
    | false =>
      rcases hd : draw tape with ⟨u, t1⟩
      by_cases halpha : mr.alpha ≤ u
      · refine ⟨mr, t1, [], ?_, Or.inl ⟨rfl, rfl, rfl, rfl, ?_, ?_⟩⟩
        · simp only [MeritRank.recalc_invalidated_walk, hwk, Option.getD_some, hd]
          simp [halpha]
        · exact halpha
        · rfl
      · rcases hgen : generate_walk_segment mr.graph mr.alpha f false t1 with ⟨s, t2⟩
        refine ⟨_, t2, f :: s, ?_, Or.inr ⟨rfl, ?_⟩⟩
        · simp only [MeritRank.recalc_invalidated_walk, hwk, Option.getD_some, hd]
          simp [halpha, hgen]
        · intro x hx
          simp only [List.head?_cons, Option.some.injEq] at hx
          simp [hx]

/-- Claim C5. For every call of recalc_invalidated_walk on a stored
nonempty walk: first, when the first step is forced, the skip flag is
clear and the alpha draw fails, the call returns with the state fully
unchanged, extending no walk and touching no counter; second, on every
successful return there is a segment (the newly generated one, empty in
the aborted case) such that the walk is extended by exactly that
segment, the counter of the walk's first node gains exactly one for
each node of the segment that does not occur anywhere in the existing
walk and is unchanged at every other node, and the counters of all
other egos are untouched. -/
theorem claim_C5_recalc_counter_delta (mr : MeritRank) (walk_id : Nat) (force : Option NodeId)
    (skip : Bool) (tape : Tape) (wk0 : List NodeId)
    (hwk : WalkStorage.get_walk mr.walks walk_id = some wk0) (hne : wk0 ≠ []) :
    (∀ s, force = some s → skip = false → mr.alpha ≤ (draw tape).1 →
        MeritRank.recalc_invalidated_walk mr walk_id force skip tape = (.ok mr, (draw tape).2))
    ∧ (∀ m' tape',
        MeritRank.recalc_invalidated_walk mr walk_id force skip tape = (.ok m', tape') →
        ∃ seg, WalkStorage.get_walk m'.walks walk_id = some (wk0 ++ seg)
          ∧ (∀ t, getD (getD m'.personal_hits (wk0.headD 0) []) t 0
                = getD (getD mr.personal_hits (wk0.headD 0) []) t 0
                  + (if t ∈ seg ∧ t ∉ wk0 then 1 else 0))
          ∧ (∀ e, ¬ e = wk0.headD 0 → getK m'.personal_hits e = getK mr.personal_hits e)) := by
  constructor
  · intro s hf hs hal
    subst hf
    subst hs
    rcases hd : draw tape with ⟨u, t1⟩
    rw [hd] at hal
    simp only at hal
    simp only [MeritRank.recalc_invalidated_walk, hwk, Option.getD_some, hd]
    simp [hal, hd]
  · intro m' tape' hrec
    obtain ⟨m2, t2, seg, heq, hcase⟩ := recalc_effect mr walk_id force skip tape wk0 hwk hne
    rw [heq] at hrec
    have hm : m2 = m' := by
      injection hrec with h1 _
      injection h1
    subst hm
    rcases hcase with ⟨hm2, hseg, _⟩ | ⟨hm2, _⟩
    · subst hm2
      subst hseg
      exact ⟨[], by simpa using hwk, by simp, by simp⟩
    · subst hm2
      refine ⟨seg, ?_, ?_, ?_⟩
      · simp only [WalkStorage.add_walk_to_bookkeeping, WalkStorage.get_walk,
          WalkStorage.set_walk]
        exact getK_setK_self _ _ _
      · intro t
        simp only [getD_modK_self]
        have : getD mr.personal_hits (wk0.headD 0) Counter.new
            = getD mr.personal_hits (wk0.headD 0) [] := rfl
        rw [this, Counter.getD_increment_unique]
        congr 1
        by_cases h : t ∈ seg ∧ t ∉ wk0
        · simp [List.mem_filter, List.mem_dedup, h.1, h.2]
        · have : ¬ (t ∈ List.filter (fun n => decide (n ∉ wk0)) seg.dedup) := by
            intro hmem
            rcases List.mem_filter.mp hmem with ⟨hd', hp⟩
            exact h ⟨List.mem_dedup.mp hd', by simpa using hp⟩
          simp [this, h]
      · intro e he
        simp only [getK_modK_ne _ _ _ _ _ he]

theorem claim_C5_recalc_counter_delta_witness :
    MeritRank.recalc_invalidated_walk c5mr 0 (some 2) false [1] =
      (.ok c5mr, (draw [1]).2) :=
  (claim_C5_recalc_counter_delta c5mr 0 (some 2) false [1] [1] rfl (by decide)).1
    2 rfl rfl (by norm_num [c5mr, draw])

theorem collect_scores_ok (cfg : Cfg) (mr : MeritRank) (ego : NodeId) :
    ∀ l : List NodeId, (∀ k, k ∈ l → ∃ v, MeritRank.get_node_score cfg mr ego k = .ok v) →
      MeritRank.collect_scores cfg mr ego l =
        .ok (l.map (fun k => (k, score_value cfg mr ego k))) := by
  intro l
  induction l with
  | nil =>
    intro _
    rfl
  | cons k rest ih =>
    intro h
    obtain ⟨v, hv⟩ := h k (List.mem_cons_self _ _)
    have hrest := ih (fun b hb => h b (List.mem_cons_of_mem _ hb))
    simp only [MeritRank.collect_scores, hv, hrest, List.map_cons]
    have : score_value cfg mr ego k = v := by
      simp [score_value, hv]
    rw [this]

/-- Claim C7. When the ego has no personal-hits counter, get_ranks fails
with NodeDoesNotExist for every limit. When the ego has a counter and
every counter key scores successfully (which always holds with the
assert regime off, and is what the claim presupposes by naming the
scores), get_ranks returns one pair (peer, score) per counter key,
sorted by non-increasing score, and the limited call returns the first
limit entries of that list. With rational weights every pair of scores
is comparable, so the NaN proviso of the claim is vacuous in the model. -/
theorem claim_C7_get_ranks (cfg : Cfg) (mr : MeritRank) (ego : NodeId) :
    (∀ limit, getK mr.personal_hits ego = none →
        MeritRank.get_ranks cfg mr ego limit = .error .NodeDoesNotExist)
    ∧ (∀ c, getK mr.personal_hits ego = some c →
        (∀ peer, peer ∈ Counter.keys c →
          ∃ v, MeritRank.get_node_score cfg mr ego peer = .ok v) →
        ∃ l, MeritRank.get_ranks cfg mr ego none = .ok l
          ∧ l.Perm ((Counter.keys c).map (fun peer => (peer, score_value cfg mr ego peer)))
          ∧ (∀ pr, pr ∈ l → MeritRank.get_node_score cfg mr ego pr.1 = .ok pr.2)
          ∧ List.Sorted (fun a b : NodeId × Weight => b.2 ≤ a.2) l
          ∧ (∀ lim, MeritRank.get_ranks cfg mr ego (some lim) = .ok (l.take lim))) := by
  constructor
  · intro limit h
    simp [MeritRank.get_ranks, h]
  · intro c hc hok
    have hcollect := collect_scores_ok cfg mr ego (Counter.keys c) hok
    set X := (Counter.keys c).map (fun peer => (peer, score_value cfg mr ego peer)) with hX
    have hperm : (X.mergeSort MeritRank.ranks_le).Perm X := List.mergeSort_perm X _
    refine ⟨X.mergeSort MeritRank.ranks_le, ?_, hperm, ?_, ?_, ?_⟩
    · simp only [MeritRank.get_ranks, hc, hcollect]
      simp [List.take_length]
    · intro pr hpr
      have hprX : pr ∈ X := hperm.mem_iff.mp hpr
      rw [hX] at hprX
      obtain ⟨peer, hpeer, hpr_eq⟩ := List.mem_map.mp hprX
      obtain ⟨v, hv⟩ := hok peer hpeer
      have : score_value cfg mr ego peer = v := by
        simp [score_value, hv]
      rw [← hpr_eq]
      simp only [this]
      simpa [this] using hv
    · have hs := @List.sorted_mergeSort (NodeId × Weight) MeritRank.ranks_le
        (fun a b c hab hbc => by
          simp only [MeritRank.ranks_le, decide_eq_true_eq] at hab hbc ⊢
          exact le_trans hbc hab)
        (fun a b => by
          simp only [MeritRank.ranks_le, ← Bool.decide_or, decide_eq_true_eq]
          exact le_total b.2 a.2)
        X
      exact hs.imp (fun h => by simpa [MeritRank.ranks_le] using h)
    · intro lim
      simp only [MeritRank.get_ranks, hc, hcollect]
      rfl

theorem claim_C7_get_ranks_witness :
    ∃ l, MeritRank.get_ranks { assertOn := false, optimize_invalidation := true } c7mr 1 none =
        .ok l
      ∧ l.Perm ((Counter.keys [(1, 1), (2, 3)]).map (fun peer =>
          (peer, score_value { assertOn := false, optimize_invalidation := true } c7mr 1 peer)))
      ∧ (∀ pr, pr ∈ l →
          MeritRank.get_node_score { assertOn := false, optimize_invalidation := true }
            c7mr 1 pr.1 = .ok pr.2)
      ∧ List.Sorted (fun a b : NodeId × Weight => b.2 ≤ a.2) l
      ∧ (∀ lim, MeritRank.get_ranks { assertOn := false, optimize_invalidation := true }
          c7mr 1 (some lim) = .ok (l.take lim)) := by
  refine (claim_C7_get_ranks { assertOn := false, optimize_invalidation := true } c7mr 1).2
    [(1, 1), (2, 3)] rfl ?_
  intro peer hp
  fin_cases hp
  · refine ⟨1 / 4, ?_⟩
    simp only [MeritRank.get_node_score, c7mr]
    norm_num [getK, getD, Counter.get_count, Counter.total_count, valsSum]
  · refine ⟨3 / 4, ?_⟩
    simp only [MeritRank.get_node_score, c7mr]
    norm_num [getK, getD, Counter.get_count, Counter.total_count, valsSum]

theorem claim_C3_step_recalc_probability_witness :
    MeritRank.step_recalc_probability { assertOn := false, optimize_invalidation := true }
        c3g 1 1 =
      if ({ assertOn := false, optimize_invalidation := true } : Cfg).optimize_invalidation ∧
          EPSILON < 1 ∧ 1 ∈ c3g.nodes then
        1 / (pos_out_sum c3g 1 + 1)
      else 0 :=
  claim_C3_step_recalc_probability { assertOn := false, optimize_invalidation := true }
    c3g 1 1 (by decide)

/-! ### Structure lemmas for the ZP invalidation pipeline -/

theorem remove_segment_walks (ws : WalkStorage) (id cut : Nat) :
    (WalkStorage.remove_walk_segment_from_bookkeeping ws id cut).walks =
      setK ws.walks id (((WalkStorage.get_walk ws id).getD []).take cut) := rfl

theorem add_bookkeeping_walks (ws : WalkStorage) (id fp : Nat) :
    (WalkStorage.add_walk_to_bookkeeping ws id fp).walks = ws.walks := rfl

theorem invalidate_go_sublist (ws : WalkStorage) (target : Option NodeId) (prob : ℚ) :
    ∀ (l : List (Nat × Nat)) (t : Tape),
      (WalkStorage.invalidate_go ws target prob l t).1.Sublist l := by
  intro l
  induction l with
  | nil =>
    intro t
    simp [WalkStorage.invalidate_go]
  | cons pr rest ih =>
    intro t
    obtain ⟨id, p⟩ := pr
    simp only [WalkStorage.invalidate_go]
    split
    · split
      · exact List.Sublist.cons₂ _ (ih _)
      · exact List.Sublist.cons _ (ih _)
    · split
      · exact List.Sublist.cons₂ _ (ih _)
      · exact List.Sublist.cons _ (ih _)

theorem invalidate_mem (ws : WalkStorage) (target : Option NodeId) (prob : ℚ)
    (l : List (Nat × Nat)) (t : Tape) (pr : Nat × Nat)
    (h : pr ∈ (WalkStorage.invalidate_go ws target prob l t).1) : pr ∈ l :=
  (invalidate_go_sublist ws target prob l t).mem h

theorem zp_loop1_cache_mono (g : Graph) (ws : WalkStorage) :
    ∀ (L : List (Nat × Nat)) cache hits nh (k : NodeId) (v : List (NodeId × Weight)),
      getK cache k = some v →
      getK (MeritRank.zp_loop1 g ws L cache hits nh).1 k = some v := by
  intro L
  induction L with
  | nil =>
    intro cache hits nh k v h
    exact h
  | cons pr rest ih =>
    intro cache hits nh k v h
    obtain ⟨id, pos⟩ := pr
    simp only [MeritRank.zp_loop1]
    cases hcc : getK cache (((WalkStorage.get_walk ws id).getD []).headD 0) with
    | some negs =>
      simp only [hcc]
      exact ih _ _ _ k v h
    | none =>
      simp only [hcc]
      apply ih
      by_cases hk : ((WalkStorage.get_walk ws id).getD []).headD 0 = k
      · rw [hk] at hcc
        rw [hcc] at h
        cases h
      · rw [getK_setK_ne _ _ _ _ (fun hh => hk hh.symm)]
        exact h

theorem zp_loop1_cache_covers (g : Graph) (ws : WalkStorage) :
    ∀ (L : List (Nat × Nat)) cache hits nh (pr : Nat × Nat), pr ∈ L →
      ∃ v, getK (MeritRank.zp_loop1 g ws L cache hits nh).1 (walk_head ws pr.1) = some v := by
  intro L
  induction L with
  | nil =>
    intro cache hits nh pr h
    cases h
  | cons pr0 rest ih =>
    intro cache hits nh pr h
    obtain ⟨id, pos⟩ := pr0
    simp only [MeritRank.zp_loop1]
    rcases List.mem_cons.mp h with hpr | hpr
    · subst hpr
      cases hcc : getK cache (((WalkStorage.get_walk ws id).getD []).headD 0) with
      | some negs =>
        simp only [hcc]
        exact ⟨negs, zp_loop1_cache_mono g ws rest _ _ _ _ _ hcc⟩
      | none =>
        simp only [hcc]
        refine ⟨neighbors_weighted g (((WalkStorage.get_walk ws id).getD []).headD 0) .negative, ?_⟩
        exact zp_loop1_cache_mono g ws rest _ _ _ _ _ (getK_setK_self _ _ _)
    · cases hcc : getK cache (((WalkStorage.get_walk ws id).getD []).headD 0) with
      | some negs =>
        simp only [hcc]
        exact ih _ _ _ pr hpr
      | none =>
        simp only [hcc]
        exact ih _ _ _ pr hpr

theorem zp_loop2_ok (cache : List (NodeId × List (NodeId × Weight))) (dest : NodeId)
    (force_flag skip_flag : Bool) :
    ∀ (L : List (Nat × Nat)) (mr : MeritRank) (t : Tape),
      (∀ pr, pr ∈ L → ∃ wk, WalkStorage.get_walk mr.walks pr.1 = some wk ∧ wk ≠ []
        ∧ ∃ negs, getK cache (wk.headD 0) = some negs) →
      ∃ res, MeritRank.zp_loop2 cache dest force_flag skip_flag L mr t = .ok res := by
  intro L
  induction L with
  | nil =>
    intro mr t _
    exact ⟨(mr, t), rfl⟩
  | cons pr0 rest ih =>
    intro mr t hH
    obtain ⟨walk_id, pos⟩ := pr0
    obtain ⟨wk, hwk, hne, negs, hcache⟩ := hH (walk_id, pos) (List.mem_cons_self _ _)
    obtain ⟨a, tail, rfl⟩ : ∃ a tail, wk = a :: tail := by
      cases wk with
      | nil => exact absurd rfl hne
      | cons a tail => exact ⟨a, tail, rfl⟩
    have hcache2 : getK cache a = some negs := hcache
    have hwk1 : WalkStorage.get_walk (MeritRank.zp_truncate mr walk_id pos).walks walk_id
        = some (a :: tail.take pos) := by
      show getK (setK mr.walks.walks walk_id
        (((WalkStorage.get_walk mr.walks walk_id).getD []).take (pos + 1))) walk_id = _
      rw [hwk]
      exact getK_setK_self _ _ _
    obtain ⟨m2, t2, seg, heq, hcase⟩ := recalc_effect (MeritRank.zp_truncate mr walk_id pos)
      walk_id (if force_flag = true then some dest else none) skip_flag t
      (a :: tail.take pos) hwk1 (by simp)
    have hrr : MeritRank.recalc_or_keep (MeritRank.zp_truncate mr walk_id pos) walk_id
        (if force_flag = true then some dest else none) skip_flag t = (m2, t2) := by
      simp only [MeritRank.recalc_or_keep, heq]
    have hm2walk : WalkStorage.get_walk m2.walks walk_id = some (a :: tail.take pos)
        ∨ WalkStorage.get_walk m2.walks walk_id = some ((a :: tail.take pos) ++ seg) := by
      rcases hcase with ⟨hm2, _⟩ | ⟨hm2, _⟩
      · left
        rw [hm2]
        exact hwk1
      · right
        rw [hm2]
        show getK (setK (MeritRank.zp_truncate mr walk_id pos).walks.walks walk_id
          ((a :: tail.take pos) ++ seg)) walk_id = _
        exact getK_setK_self _ _ _
    have hm2others : ∀ j, ¬ j = walk_id →
        WalkStorage.get_walk m2.walks j = WalkStorage.get_walk mr.walks j := by
      intro j hj
      have h1 : WalkStorage.get_walk (MeritRank.zp_truncate mr walk_id pos).walks j
          = WalkStorage.get_walk mr.walks j := by
        show getK (setK mr.walks.walks walk_id
          (((WalkStorage.get_walk mr.walks walk_id).getD []).take (pos + 1))) j = _
        exact getK_setK_ne _ _ _ _ hj
      rcases hcase with ⟨hm2, _⟩ | ⟨hm2, _⟩
      · rw [hm2]
        exact h1
      · rw [hm2]
        show getK (setK (MeritRank.zp_truncate mr walk_id pos).walks.walks walk_id
          ((a :: tail.take pos) ++ seg)) j = _
        rw [getK_setK_ne _ _ _ _ hj]
        exact h1
    have hupd : ((WalkStorage.get_walk m2.walks walk_id).getD []).headD 0 = a := by
      rcases hm2walk with hm | hm <;> rw [hm] <;> rfl
    have hre : MeritRank.zp_reapply cache m2 walk_id = some (if negs.isEmpty then m2
        else { m2 with neg_hits := (update_negative_hits m2.neg_hits ((WalkStorage.get_walk m2.walks walk_id).getD []) negs false) }) := by
      simp only [MeritRank.zp_reapply, hupd, hcache2]
    have hstep : MeritRank.zp_loop2 cache dest force_flag skip_flag ((walk_id, pos) :: rest) mr t
        = MeritRank.zp_loop2 cache dest force_flag skip_flag rest
          (if negs.isEmpty then m2
           else { m2 with neg_hits := (update_negative_hits m2.neg_hits ((WalkStorage.get_walk m2.walks walk_id).getD []) negs false) }) t2 := by
      simp only [MeritRank.zp_loop2, hrr, hre]
    rw [hstep]
    apply ih
    have hmr3walks : (if negs.isEmpty then m2
        else { m2 with neg_hits := (update_negative_hits m2.neg_hits ((WalkStorage.get_walk m2.walks walk_id).getD []) negs false) }).walks = m2.walks := by
      split
      · rfl
      · rfl
    intro pr hpr
    have hget3 : ∀ j, WalkStorage.get_walk (if negs.isEmpty then m2
        else { m2 with neg_hits := (update_negative_hits m2.neg_hits ((WalkStorage.get_walk m2.walks walk_id).getD []) negs false) }).walks j
        = WalkStorage.get_walk m2.walks j := by
      intro j
      show getK _ j = getK _ j
      rw [hmr3walks]
    by_cases hj : pr.1 = walk_id
    · rcases hm2walk with hm | hm
      · refine ⟨a :: tail.take pos, ?_, by simp, negs, hcache⟩
        rw [hget3, hj]
        exact hm
      · refine ⟨(a :: tail.take pos) ++ seg, ?_, by simp, negs, hcache⟩
        rw [hget3, hj]
        exact hm
    · obtain ⟨wkp, hwkp, hnep, negsp, hcachep⟩ := hH pr (List.mem_cons_of_mem _ hpr)
      refine ⟨wkp, ?_, hnep, negsp, hcachep⟩
      rw [hget3, hm2others pr.1 hj]
      exact hwkp

/-- Claim C10. The Negs-not-found panic of the re-application loop of zp
is unreachable: for every state whose visits index of src names stored
nonempty walks, every weight and every tape, zp never returns that
panic. The first loop seeds the cache under each affected walk's first
node, and truncation at a cut of at least one together with tail
recalculation never changes a walk's first node, so the cache lookup by
the updated walk's first node always succeeds. -/
theorem zp_loop2_ne (cache : List (NodeId × List (NodeId × Weight))) (dest : NodeId)
    (force_flag skip_flag : Bool) (L : List (Nat × Nat)) (mr : MeritRank) (t : Tape)
    (h : ∀ pr, pr ∈ L → ∃ wk, WalkStorage.get_walk mr.walks pr.1 = some wk ∧ wk ≠ []
      ∧ ∃ negs, getK cache (wk.headD 0) = some negs) :
    MeritRank.zp_loop2 cache dest force_flag skip_flag L mr t ≠ .error .negsNotFound := by
  obtain ⟨res, hres⟩ := zp_loop2_ok cache dest force_flag skip_flag L mr t h
  rw [hres]
  simp

theorem claim_C10_zp_negs_cache_hit (cfg : Cfg) (mr : MeritRank) (src dest : NodeId)
    (w : Weight) (tape : Tape)
    (hv : ∀ pr, pr ∈ WalkStorage.visits_list mr.walks src →
      ∃ wk, WalkStorage.get_walk mr.walks pr.1 = some wk ∧ wk ≠ []) :
    MeritRank.zp cfg mr src dest w tape ≠ .error .negsNotFound := by
  unfold MeritRank.zp
  by_cases hw : w < 0
  · simp [hw]
  · simp only [hw, if_false]
    apply zp_loop2_ne
    intro pr hpr
    have hmem : pr ∈ WalkStorage.visits_list mr.walks src :=
      invalidate_mem mr.walks (some dest) _ _ tape pr hpr
    obtain ⟨wk, hwk, hne⟩ := hv pr hmem
    refine ⟨wk, hwk, hne, ?_⟩
    obtain ⟨v, hvv⟩ := zp_loop1_cache_covers mr.graph mr.walks
      (WalkStorage.invalidate_walks_through_node mr.walks src (some dest)
        (MeritRank.step_recalc_probability cfg mr.graph src w) tape).1
      [] mr.personal_hits mr.neg_hits pr hpr
    refine ⟨v, ?_⟩
    have hwh : walk_head mr.walks pr.1 = wk.headD 0 := by
      unfold walk_head
      rw [hwk]
      rfl
    rw [← hwh]
    exact hvv

/-! ### Field-effect lemmas for the edge handlers -/

theorem update_penalties_graph (mr : MeritRank) (src dest : NodeId) (remove : Bool) :
    (MeritRank.update_penalties_for_edge mr src dest remove).graph = mr.graph := rfl

theorem update_penalties_walks (mr : MeritRank) (src dest : NodeId) (remove : Bool) :
    (MeritRank.update_penalties_for_edge mr src dest remove).walks = mr.walks := rfl

theorem update_penalties_hits (mr : MeritRank) (src dest : NodeId) (remove : Bool) :
    (MeritRank.update_penalties_for_edge mr src dest remove).personal_hits =
      mr.personal_hits := rfl

theorem getK_eraseK_self {κ α : Type} [DecidableEq κ] (k : κ) :
    ∀ m : List (κ × α), getK (eraseK m k) k = none := by
  intro m
  induction m with
  | nil => rfl
  | cons e rest ih =>
    by_cases he : e.1 = k
    · simpa [eraseK, he] using ih
    · simpa [eraseK, he, getK] using ih

theorem getK_eraseK_ne {κ α : Type} [DecidableEq κ] (k k' : κ) (h : ¬ k' = k) :
    ∀ m : List (κ × α), getK (eraseK m k) k' = getK m k' := by
  have h' : ¬ k = k' := fun hh => h hh.symm
  intro m
  induction m with
  | nil => rfl
  | cons e rest ih =>
    by_cases he : e.1 = k
    · have hd : (decide (¬ e.1 = k) : Bool) = false := by simp [he]
      simp only [eraseK, List.filter_cons, hd, Bool.false_eq_true, if_false]
      show getK (eraseK rest k) k' = _
      rw [ih]
      have hne : ¬ e.1 = k' := by
        rw [he]
        exact h'
      simp [getK, hne]
    · have hd : (decide (¬ e.1 = k) : Bool) = true := by simp [he]
      simp only [eraseK, List.filter_cons, hd, if_true]
      show getK (e :: eraseK rest k) k' = _
      by_cases he' : e.1 = k'
      · simp [getK, he']
      · simp only [getK, he', if_false]
        exact ih

theorem zn_graph_edges (mr : MeritRank) (src dest : NodeId) (w : Weight) :
    (MeritRank.zn mr src dest w).graph = Graph.add_edge_raw mr.graph src dest w := rfl

theorem zn_walks (mr : MeritRank) (src dest : NodeId) (w : Weight) :
    (MeritRank.zn mr src dest w).walks = mr.walks := rfl

theorem nz_graph (mr : MeritRank) (src dest : NodeId) :
    (MeritRank.nz mr src dest).graph = Graph.remove_edge mr.graph src dest := rfl

theorem nz_walks (mr : MeritRank) (src dest : NodeId) :
    (MeritRank.nz mr src dest).walks = mr.walks := rfl

theorem edge_weight_zn (mr : MeritRank) (src dest : NodeId) (w : Weight) :
    Graph.edge_weight (MeritRank.zn mr src dest w).graph src dest = some w := by
  rw [zn_graph_edges]
  exact getK_setK_self _ _ _

theorem edge_weight_nz (mr : MeritRank) (src dest : NodeId) :
    Graph.edge_weight (MeritRank.nz mr src dest).graph src dest = none := by
  rw [nz_graph]
  exact getK_eraseK_self _ _

theorem getK_map_values {κ α : Type} [DecidableEq κ] (f : α → α) (k : κ) :
    ∀ m : List (κ × α),
      getK (m.map (fun v => (v.1, f v.2))) k = (getK m k).map f := by
  intro m
  induction m with
  | nil => rfl
  | cons e rest ih =>
    by_cases he : e.1 = k
    · simp [getK, he]
    · simpa [getK, he] using ih

/-- The graph component of the zp helpers is never modified. -/
theorem recalc_or_keep_graph (mr1 : MeritRank) (walk_id : Nat) (force : Option NodeId)
    (skip : Bool) (t : Tape) :
    (MeritRank.recalc_or_keep mr1 walk_id force skip t).1.graph = mr1.graph := by
  unfold MeritRank.recalc_or_keep MeritRank.recalc_invalidated_walk
  cases force with
  | none =>
    cases hL : (((WalkStorage.get_walk mr1.walks walk_id).getD []).getLast?) with
    | none => simp [hL]
    | some l =>
      simp only [hL]
      cases hh : (((WalkStorage.get_walk mr1.walks walk_id).getD []).head?) with
      | none => simp [hh]
      | some ego => simp [hh]
  | some f =>
    by_cases hskip : skip
    · simp only [hskip]
      cases hh : (((WalkStorage.get_walk mr1.walks walk_id).getD []).head?) with
      | none => simp [hh]
      | some ego => simp [hh]
    · simp only [hskip]
      by_cases habort : mr1.alpha ≤ (draw t).1
      · simp [habort]
      · simp only [Bool.false_eq_true, if_false]
        cases hh : (((WalkStorage.get_walk mr1.walks walk_id).getD []).head?) with
        | none => simp [hh, habort]
        | some ego => simp [hh, habort]

theorem zp_reapply_graph (cache : List (NodeId × List (NodeId × Weight))) (mr2 : MeritRank)
    (walk_id : Nat) (mr3 : MeritRank)
    (h : MeritRank.zp_reapply cache mr2 walk_id = some mr3) : mr3.graph = mr2.graph := by
  simp only [MeritRank.zp_reapply] at h
  split at h
  · injection h with h
    rw [← h]
    split
    · rfl
    · rfl
  · cases h

theorem zp_reapply_walks (cache : List (NodeId × List (NodeId × Weight))) (mr2 : MeritRank)
    (walk_id : Nat) (mr3 : MeritRank)
    (h : MeritRank.zp_reapply cache mr2 walk_id = some mr3) : mr3.walks = mr2.walks := by
  simp only [MeritRank.zp_reapply] at h
  split at h
  · injection h with h
    rw [← h]
    split
    · rfl
    · rfl
  · cases h

theorem zp_reapply_hits (cache : List (NodeId × List (NodeId × Weight))) (mr2 : MeritRank)
    (walk_id : Nat) (mr3 : MeritRank)
    (h : MeritRank.zp_reapply cache mr2 walk_id = some mr3) :
    mr3.personal_hits = mr2.personal_hits := by
  simp only [MeritRank.zp_reapply] at h
  split at h
  · injection h with h
    rw [← h]
    split
    · rfl
    · rfl
  · cases h

theorem zp_loop2_graph (cache : List (NodeId × List (NodeId × Weight))) (dest : NodeId)
    (force_flag skip_flag : Bool) :
    ∀ (L : List (Nat × Nat)) (mr : MeritRank) (t : Tape) (m1 : MeritRank) (t1 : Tape),
      MeritRank.zp_loop2 cache dest force_flag skip_flag L mr t = .ok (m1, t1) →
      m1.graph = mr.graph := by
  intro L
  induction L with
  | nil =>
    intro mr t m1 t1 h
    injection h with h
    injection h with h1 _
    rw [← h1]
  | cons pr0 rest ih =>
    intro mr t m1 t1 h
    obtain ⟨walk_id, pos⟩ := pr0
    simp only [MeritRank.zp_loop2] at h
    cases hre : MeritRank.zp_reapply cache
      (MeritRank.recalc_or_keep (MeritRank.zp_truncate mr walk_id pos) walk_id
        (if force_flag = true then some dest else none) skip_flag t).1 walk_id with
    | none =>
      rw [hre] at h
      cases h
    | some mr3 =>
      rw [hre] at h
      have h3 := ih mr3 _ m1 t1 h
      rw [h3, zp_reapply_graph cache _ walk_id mr3 hre, recalc_or_keep_graph]
      rfl

/-- The final graph of a successful zp call: the edge is removed when
the weight is effectively zero and stored otherwise. -/
theorem zp_graph (cfg : Cfg) (mr : MeritRank) (src dest : NodeId) (w : Weight) (tape : Tape)
    (m1 : MeritRank) (t1 : Tape)
    (h : MeritRank.zp cfg mr src dest w tape = .ok (m1, t1)) :
    m1.graph =
      (if w ≤ EPSILON then
        if Graph.contains_edge mr.graph src dest then Graph.remove_edge mr.graph src dest
        else mr.graph
      else Graph.add_edge_raw mr.graph src dest w) := by
  unfold MeritRank.zp at h
  by_cases hw : w < 0
  · simp [hw] at h
  · simp only [hw, if_false] at h
    exact zp_loop2_graph _ _ _ _ _ _ _ _ _ h

/-! ### List and index helper lemmas -/

theorem getD_mem {α : Type} (l : List α) (p : Nat) (d : α) (h : p < l.length) :
    l.getD p d ∈ l := by
  rw [List.getD_eq_getElem l d h]
  exact List.getElem_mem h

theorem mem_take_of_le {α : Type} [DecidableEq α] (l : List α) (m p : Nat) (hle : m ≤ p)
    (n : α) (h : n ∈ l.take m) : n ∈ l.take p := by
  have : l.take m = (l.take p).take m := by
    rw [List.take_take, min_eq_left hle]
  rw [this] at h
  exact List.take_subset _ _ h

theorem getD_mem_take {α : Type} (l : List α) (p : Nat) (d : α) (h : p < l.length) :
    l.getD p d ∈ l.take (p + 1) := by
  induction l generalizing p with
  | nil => cases h
  | cons a rest ih =>
    cases p with
    | zero => simp
    | succ q =>
      have hq : q < rest.length := Nat.lt_of_succ_lt_succ h
      simp only [List.getD_cons_succ, List.take_succ_cons]
      exact List.mem_cons_of_mem _ (ih q hq)

theorem take_getLastD {α : Type} :
    ∀ (l : List α) (p : Nat), p < l.length → ∀ d : α,
      (l.take (p + 1)).getLastD d = l.getD p d := by
  intro l
  induction l with
  | nil =>
    intro p h
    cases h
  | cons a rest ih =>
    intro p h d
    cases p with
    | zero => simp
    | succ q =>
      have hq : q < rest.length := Nat.lt_of_succ_lt_succ h
      simp only [List.take_succ_cons, List.getD_cons_succ]
      rw [List.getLastD_cons, ih q hq a]
      rw [List.getD_eq_getElem rest a hq, List.getD_eq_getElem rest d hq]

theorem length_take_of_lt {α : Type} (l : List α) (p : Nat) (h : p < l.length) :
    (l.take (p + 1)).length = p + 1 := by
  rw [List.length_take]
  omega

theorem pair_unique {α : Type} {β : Type} [DecidableEq α] :
    ∀ (l : List (α × β)), (l.map Prod.fst).Nodup →
      ∀ pr pr' : α × β, pr ∈ l → pr' ∈ l → pr'.1 = pr.1 → pr' = pr := by
  intro l
  induction l with
  | nil =>
    intro _ pr pr' h
    cases h
  | cons e rest ih =>
    intro hnd pr pr' hpr hpr' heq
    have hnd2 : (e.1 :: rest.map Prod.fst).Nodup := hnd
    rcases List.nodup_cons.mp hnd2 with ⟨hhd, htl⟩
    rcases List.mem_cons.mp hpr with h1 | h1 <;> rcases List.mem_cons.mp hpr' with h2 | h2
    · rw [h1, h2]
    · exfalso
      apply hhd
      have hm : pr'.1 ∈ List.map Prod.fst rest := List.mem_map.mpr ⟨pr', h2, rfl⟩
      have he : e.1 = pr'.1 := (congrArg Prod.fst h1).symm.trans heq.symm
      rw [he]
      exact hm
    · exfalso
      apply hhd
      have hm : pr.1 ∈ List.map Prod.fst rest := List.mem_map.mpr ⟨pr, h1, rfl⟩
      have he : e.1 = pr.1 := (congrArg Prod.fst h2).symm.trans heq
      rw [he]
      exact hm
    · exact ih htl pr pr' h1 h2 heq

theorem mem_nbw_pos (g : Graph) (n x : NodeId) (wx : Weight)
    (h : (x, wx) ∈ neighbors_weighted g n .positive) :
    0 < (Graph.edge_weight g n x).getD 0 := by
  unfold neighbors_weighted at h
  obtain ⟨nbr, _, heq⟩ := List.mem_filterMap.mp h
  have heq2 : (if NeighborsMode.positive = NeighborsMode.all ∨
      (NeighborsMode.positive = NeighborsMode.positive ∧ 0 < (Graph.edge_weight g n nbr).getD 0) ∨
      (NeighborsMode.positive = NeighborsMode.negative ∧ (Graph.edge_weight g n nbr).getD 0 < 0)
      then some (nbr, (Graph.edge_weight g n nbr).getD 0) else none) = some (x, wx) := heq
  split at heq2
  case isTrue hcond =>
    injection heq2 with heq3
    have h1 : nbr = x := congrArg Prod.fst heq3
    rcases hcond with hc | ⟨_, hc⟩ | ⟨hc, _⟩
    · exact absurd hc (by decide)
    · rw [← h1]
      exact hc
    · exact absurd hc (by decide)
  case isFalse => cases heq2

theorem invalidate_go_zero (ws : WalkStorage) (tg : NodeId) (prob : ℚ) (hp : ¬ 0 < prob) :
    ∀ (l : List (Nat × Nat)) (t : Tape),
      WalkStorage.invalidate_go ws (some tg) prob l t =
        (l.filter (fun pr =>
          decide (pr.2 + 1 < ((WalkStorage.get_walk ws pr.1).getD []).length ∧
            ((WalkStorage.get_walk ws pr.1).getD []).getD (pr.2 + 1) 0 = tg)), t) := by
  intro l
  induction l with
  | nil =>
    intro t
    rfl
  | cons pr rest ih =>
    intro t
    obtain ⟨id, p⟩ := pr
    simp only [WalkStorage.invalidate_go, hp, if_false, ih, List.filter_cons, Bool.false_or]

theorem remove_segment_visits (ws : WalkStorage) (id cut : Nat) (n : NodeId) :
    getK (WalkStorage.remove_walk_segment_from_bookkeeping ws id cut).visits n
      = (getK ws.visits n).map
          (fun l => l.filter (fun pr => decide (¬ (pr.1 = id ∧ cut ≤ pr.2)))) :=
  getK_map_values _ _ _

theorem add_bookkeeping_visits_other (ws : WalkStorage) (id fp : Nat) (n : NodeId)
    (h : n ∈ ((WalkStorage.get_walk ws id).getD []).take fp
      ∨ n ∉ ((WalkStorage.get_walk ws id).getD [])) :
    getK (WalkStorage.add_walk_to_bookkeeping ws id fp).visits n = getK ws.visits n := by
  unfold WalkStorage.add_walk_to_bookkeeping
  have main : ∀ (P : List Nat) (vis : List (NodeId × List (Nat × Nat))),
      (∀ p, p ∈ P → fp ≤ p ∧ p < ((WalkStorage.get_walk ws id).getD []).length) →
      getK (P.foldl (fun vis p =>
        let node := ((WalkStorage.get_walk ws id).getD []).getD p 0
        if node ∈ ((WalkStorage.get_walk ws id).getD []).take p then vis
        else modK vis node (fun l => setK l id p) []) vis) n = getK vis n := by
    intro P
    induction P with
    | nil =>
      intro vis _
      rfl
    | cons p rest ihp =>
      intro vis hP
      obtain ⟨hfp, hlen⟩ := hP p (List.mem_cons_self _ _)
      have hrest := fun q hq => hP q (List.mem_cons_of_mem _ hq)
      simp only [List.foldl_cons]
      by_cases hin : ((WalkStorage.get_walk ws id).getD []).getD p 0
          ∈ ((WalkStorage.get_walk ws id).getD []).take p
      · simp only [hin, if_true]
        exact ihp _ hrest
      · simp only [hin, if_false]
        rw [ihp _ hrest]
        apply getK_modK_ne
        intro hh
        rcases h with hmem | hnot
        · exact hin (mem_take_of_le _ fp p hfp _ (hh ▸ hmem))
        · exact hnot (hh ▸ getD_mem _ p 0 hlen)
  apply main
  intro p hp
  have := List.mem_range'_1.mp hp
  omega

/-- Detailed effect of the second zp loop in the zero-probability
regime: the graph is untouched, the visits entry of src is untouched,
walks outside the processed list are untouched, and each processed walk
becomes its prefix up to the cut followed by a segment whose first node
is a positive out-neighbor of src in the loop-entry graph. -/
theorem zp_loop2_c6 (cache : List (NodeId × List (NodeId × Weight))) (dest src : NodeId)
    (skip_flag : Bool) :
    ∀ (S : List (Nat × Nat)) (mr : MeritRank) (t : Tape),
      (∀ pr, pr ∈ S → ∃ wk, WalkStorage.get_walk mr.walks pr.1 = some wk
        ∧ pr.2 < wk.length ∧ wk.getD pr.2 0 = src) →
      (S.map Prod.fst).Nodup →
      (∀ pr, pr ∈ S → ∀ pr', pr' ∈ (getK mr.walks.visits src).getD [] →
        pr'.1 = pr.1 → pr' = pr) →
      ∀ m1 t1, MeritRank.zp_loop2 cache dest false skip_flag S mr t = .ok (m1, t1) →
        m1.graph = mr.graph
        ∧ getK m1.walks.visits src = getK mr.walks.visits src
        ∧ (∀ j, j ∉ S.map Prod.fst →
            WalkStorage.get_walk m1.walks j = WalkStorage.get_walk mr.walks j)
        ∧ (∀ pr, pr ∈ S → ∃ wk seg,
            WalkStorage.get_walk mr.walks pr.1 = some wk
            ∧ WalkStorage.get_walk m1.walks pr.1 = some (wk.take (pr.2 + 1) ++ seg)
            ∧ (∀ x, seg.head? = some x → 0 < (Graph.edge_weight mr.graph src x).getD 0)) := by
  intro S
  induction S with
  | nil =>
    intro mr t _ _ _ m1 t1 h
    have hm : mr = m1 ∧ t = t1 := by
      injection h with h
      exact ⟨congrArg Prod.fst h, congrArg Prod.snd h⟩
    rw [← hm.1]
    refine ⟨rfl, rfl, fun j _ => rfl, fun pr hpr => absurd hpr (List.not_mem_nil pr)⟩
  | cons pr0 rest ih =>
    intro mr t hS hnd hvis m1 t1 h
    obtain ⟨walk_id, pos⟩ := pr0
    obtain ⟨wk, hwk, hlen, hsrc⟩ := hS (walk_id, pos) (List.mem_cons_self _ _)
    have hnd2 : (walk_id :: rest.map Prod.fst).Nodup := hnd
    rcases List.nodup_cons.mp hnd2 with ⟨hhd, htl⟩
    have hwk1 : WalkStorage.get_walk (MeritRank.zp_truncate mr walk_id pos).walks walk_id
        = some (wk.take (pos + 1)) := by
      show getK (setK mr.walks.walks walk_id
        (((WalkStorage.get_walk mr.walks walk_id).getD []).take (pos + 1))) walk_id = _
      rw [hwk]
      exact getK_setK_self _ _ _
    have hne0 : wk.take (pos + 1) ≠ [] := by
      intro hh
      have := congrArg List.length hh
      rw [length_take_of_lt wk pos hlen] at this
      cases this
    obtain ⟨m2, t2, seg, heq, hcase⟩ := recalc_effect (MeritRank.zp_truncate mr walk_id pos)
      walk_id (if false = true then some dest else none) skip_flag t
      (wk.take (pos + 1)) hwk1 hne0
    rcases hcase with ⟨_, _, habs, _⟩ | ⟨hm2, hseg⟩
    · simp at habs
    have hrr : MeritRank.recalc_or_keep (MeritRank.zp_truncate mr walk_id pos) walk_id
        (if false = true then some dest else none) skip_flag t = (m2, t2) := by
      simp only [MeritRank.recalc_or_keep, heq]
    have hgm2 : m2.graph = mr.graph := by
      rw [hm2]
      rfl
    have hm2self : WalkStorage.get_walk m2.walks walk_id
        = some (wk.take (pos + 1) ++ seg) := by
      rw [hm2]
      show getK (setK (MeritRank.zp_truncate mr walk_id pos).walks.walks walk_id
        (wk.take (pos + 1) ++ seg)) walk_id = _
      exact getK_setK_self _ _ _
    have hm2others : ∀ j, ¬ j = walk_id →
        WalkStorage.get_walk m2.walks j = WalkStorage.get_walk mr.walks j := by
      intro j hj
      rw [hm2]
      show getK (setK (MeritRank.zp_truncate mr walk_id pos).walks.walks walk_id
        (wk.take (pos + 1) ++ seg)) j = _
      rw [getK_setK_ne _ _ _ _ hj]
      show getK (setK mr.walks.walks walk_id
        (((WalkStorage.get_walk mr.walks walk_id).getD []).take (pos + 1))) j = _
      rw [getK_setK_ne _ _ _ _ hj]
      rfl
    have hvis1 : getK (MeritRank.zp_truncate mr walk_id pos).walks.visits src
        = getK mr.walks.visits src := by
      show getK (WalkStorage.remove_walk_segment_from_bookkeeping mr.walks walk_id
        (pos + 1)).visits src = _
      rw [remove_segment_visits]
      cases hv0 : getK mr.walks.visits src with
      | none => rfl
      | some V =>
        have hfil : V.filter (fun pr => decide (¬ (pr.1 = walk_id ∧ pos + 1 ≤ pr.2))) = V := by
          rw [List.filter_eq_self]
          intro pr' hpr'
          simp only [decide_eq_true_eq]
          intro hcontra
          have hpr'' : pr' ∈ (getK mr.walks.visits src).getD [] := by
            rw [hv0]
            exact hpr'
          have := hvis (walk_id, pos) (List.mem_cons_self _ _) pr' hpr'' hcontra.1
          rw [this] at hcontra
          omega
        exact congrArg some hfil
    have hvism2 : getK m2.walks.visits src = getK mr.walks.visits src := by
      rw [hm2]
      show getK (WalkStorage.add_walk_to_bookkeeping
        (WalkStorage.set_walk (MeritRank.zp_truncate mr walk_id pos).walks walk_id
          (wk.take (pos + 1) ++ seg)) walk_id (wk.take (pos + 1)).length).visits src = _
      rw [add_bookkeeping_visits_other]
      · show getK (MeritRank.zp_truncate mr walk_id pos).walks.visits src = _
        exact hvis1
      · left
        have hget : WalkStorage.get_walk
            (WalkStorage.set_walk (MeritRank.zp_truncate mr walk_id pos).walks walk_id
              (wk.take (pos + 1) ++ seg)) walk_id = some (wk.take (pos + 1) ++ seg) := by
          show getK (setK (MeritRank.zp_truncate mr walk_id pos).walks.walks walk_id
            (wk.take (pos + 1) ++ seg)) walk_id = _
          exact getK_setK_self _ _ _
        rw [hget]
        simp only [Option.getD_some]
        rw [List.take_left]
        have := getD_mem_take wk pos 0 hlen
        rw [hsrc] at this
        exact this
    have hseghead : ∀ x, seg.head? = some x →
        0 < (Graph.edge_weight mr.graph src x).getD 0 := by
      intro x hx
      have := hseg x hx
      simp only at this
      obtain ⟨w', hw'⟩ := this
      have hlast : (wk.take (pos + 1)).getLastD 0 = src := by
        rw [take_getLastD wk pos hlen 0]
        exact hsrc
      rw [hlast] at hw'
      have hgt : (MeritRank.zp_truncate mr walk_id pos).graph = mr.graph := rfl
      rw [hgt] at hw'
      exact mem_nbw_pos mr.graph src x w' hw'
    simp only [MeritRank.zp_loop2, hrr] at h
    cases hre : MeritRank.zp_reapply cache m2 walk_id with
    | none =>
      rw [hre] at h
      cases h
    | some mr3 =>
      rw [hre] at h
      have hw3 : mr3.walks = m2.walks := zp_reapply_walks cache m2 walk_id mr3 hre
      have hg3 : mr3.graph = m2.graph := zp_reapply_graph cache m2 walk_id mr3 hre
      obtain ⟨ihg, ihvis, ihothers, ihsel⟩ := ih mr3 t2
        (by
          intro pr hpr
          obtain ⟨wkp, hwkp, hlp, hsp⟩ := hS pr (List.mem_cons_of_mem _ hpr)
          have hjne : ¬ pr.1 = walk_id := by
            intro hh
            exact hhd (hh ▸ List.mem_map.mpr ⟨pr, hpr, rfl⟩)
          refine ⟨wkp, ?_, hlp, hsp⟩
          show getK mr3.walks.walks pr.1 = _
          rw [hw3]
          show WalkStorage.get_walk m2.walks pr.1 = _
          rw [hm2others pr.1 hjne]
          exact hwkp)
        htl
        (by
          intro pr hpr pr' hpr' hpe
          apply hvis pr (List.mem_cons_of_mem _ hpr) pr' _ hpe
          have hv3 : getK mr3.walks.visits src = getK mr.walks.visits src := by
            rw [hw3]
            exact hvism2
          rw [← hv3]
          exact hpr')
        m1 t1 h
      refine ⟨?_, ?_, ?_, ?_⟩
      · rw [ihg, hg3, hgm2]
      · rw [ihvis]
        rw [show getK mr3.walks.visits src = getK m2.walks.visits src from by rw [hw3]]
        exact hvism2
      · intro j hj
        have hj1 : ¬ j = walk_id := by
          intro hh
          exact hj (hh ▸ List.mem_cons_self _ _)
        have hj2 : j ∉ rest.map Prod.fst := by
          intro hh
          exact hj (List.mem_cons_of_mem _ hh)
        rw [ihothers j hj2]
        show getK mr3.walks.walks j = _
        rw [hw3]
        exact hm2others j hj1
      · intro pr hpr
        rcases List.mem_cons.mp hpr with hp0 | hp0
        · subst hp0
          refine ⟨wk, seg, hwk, ?_, hseghead⟩
          have hjrest : walk_id ∉ rest.map Prod.fst := hhd
          rw [ihothers walk_id hjrest]
          show getK mr3.walks.walks walk_id = _
          rw [hw3]
          exact hm2self
        · obtain ⟨wkp, segp, hwkp3, hm1p, hheadp⟩ := ihsel pr hp0
          have hjne : ¬ pr.1 = walk_id := by
            intro hh
            exact hhd (hh ▸ List.mem_map.mpr ⟨pr, hp0, rfl⟩)
          refine ⟨wkp, segp, ?_, hm1p, ?_⟩
          · rw [← hwkp3]
            show WalkStorage.get_walk mr.walks pr.1 = getK mr3.walks.walks pr.1
            rw [hw3]
            exact (hm2others pr.1 hjne).symm
          · intro x hx
            have := hheadp x hx
            rw [hg3, hgm2] at this
            exact this

theorem step_recalc_zero (cfg : Cfg) (g : Graph) (src : NodeId) (w : Weight)
    (hwe : w ≤ EPSILON) : MeritRank.step_recalc_probability cfg g src w = 0 := by
  unfold MeritRank.step_recalc_probability
  rw [if_neg]
  intro hc
  exact absurd hc.2.1 (not_lt.mpr hwe)

theorem zp_zero_regime (cfg : Cfg) (ms : MeritRank) (src dest : NodeId) (w : Weight)
    (tape : Tape) (hw0 : ¬ w < 0) (hwe : w ≤ EPSILON) :
    MeritRank.zp cfg ms src dest w tape =
      MeritRank.zp_loop2
        (MeritRank.zp_loop1 ms.graph ms.walks (zp_hit_filter ms.walks src dest) []
          ms.personal_hits ms.neg_hits).1
        dest false (cfg.optimize_invalidation ∧ w ≤ EPSILON)
        (zp_hit_filter ms.walks src dest)
        { ms with
          graph := if Graph.contains_edge ms.graph src dest then
              Graph.remove_edge ms.graph src dest else ms.graph
          personal_hits := (MeritRank.zp_loop1 ms.graph ms.walks
            (zp_hit_filter ms.walks src dest) [] ms.personal_hits ms.neg_hits).2.1
          neg_hits := (MeritRank.zp_loop1 ms.graph ms.walks
            (zp_hit_filter ms.walks src dest) [] ms.personal_hits ms.neg_hits).2.2 }
        tape := by
  have hinv : WalkStorage.invalidate_walks_through_node ms.walks src (some dest) 0 tape
      = (zp_hit_filter ms.walks src dest, tape) := by
    unfold WalkStorage.invalidate_walks_through_node zp_hit_filter
    exact invalidate_go_zero ms.walks dest 0 (by norm_num) _ tape
  simp only [MeritRank.zp, if_neg hw0, step_recalc_zero cfg ms.graph src w hwe, hinv,
    if_pos hwe, decide_eq_false (lt_irrefl (0 : ℚ))]

/-- In the effectively-zero weight regime, a successful zp leaves a
state on which a repeated zp with the same arguments is the identity. -/
theorem zp_small_idem (cfg : Cfg) (ms : MeritRank) (src dest : NodeId) (w : Weight)
    (tape : Tape) (hw0 : 0 < w) (hwe : w ≤ EPSILON)
    (hv : ∀ pr, pr ∈ WalkStorage.visits_list ms.walks src →
      ∃ wk, WalkStorage.get_walk ms.walks pr.1 = some wk ∧ pr.2 < wk.length
        ∧ wk.getD pr.2 0 = src)
    (hnd : ((WalkStorage.visits_list ms.walks src).map Prod.fst).Nodup)
    (m1 : MeritRank) (t1 : Tape)
    (h1 : MeritRank.zp cfg ms src dest w tape = .ok (m1, t1)) :
    ∀ tape2, MeritRank.zp cfg m1 src dest w tape2 = .ok (m1, tape2) := by
  have hnlt : ¬ w < 0 := not_lt.mpr (le_of_lt hw0)
  rw [zp_zero_regime cfg ms src dest w tape hnlt hwe] at h1
  have hsub : ∀ pr, pr ∈ zp_hit_filter ms.walks src dest →
      pr ∈ WalkStorage.visits_list ms.walks src := by
    intro pr hpr
    exact List.mem_of_mem_filter hpr
  have hndS : ((zp_hit_filter ms.walks src dest).map Prod.fst).Nodup := by
    apply List.Nodup.sublist _ hnd
    exact List.Sublist.map _ (List.filter_sublist _)
  obtain ⟨hg, hvisEq, hothers, hsel⟩ := zp_loop2_c6
    (MeritRank.zp_loop1 ms.graph ms.walks (zp_hit_filter ms.walks src dest) []
      ms.personal_hits ms.neg_hits).1
    dest src (cfg.optimize_invalidation ∧ w ≤ EPSILON)
    (zp_hit_filter ms.walks src dest)
    { ms with
      graph := if Graph.contains_edge ms.graph src dest then
          Graph.remove_edge ms.graph src dest else ms.graph
      personal_hits := (MeritRank.zp_loop1 ms.graph ms.walks
        (zp_hit_filter ms.walks src dest) [] ms.personal_hits ms.neg_hits).2.1
      neg_hits := (MeritRank.zp_loop1 ms.graph ms.walks
        (zp_hit_filter ms.walks src dest) [] ms.personal_hits ms.neg_hits).2.2 }
    tape
    (fun pr hpr => hv pr (hsub pr hpr))
    hndS
    (fun pr hpr pr' hpr' hpe =>
      pair_unique (WalkStorage.visits_list ms.walks src) hnd pr pr' (hsub pr hpr) hpr' hpe)
    m1 t1 h1
  have hedge1 : Graph.edge_weight m1.graph src dest = none := by
    rw [hg]
    show Graph.edge_weight (if Graph.contains_edge ms.graph src dest then
      Graph.remove_edge ms.graph src dest else ms.graph) src dest = none
    by_cases hc : Graph.contains_edge ms.graph src dest
    · rw [if_pos hc]
      exact getK_eraseK_self _ _
    · rw [if_neg hc]
      cases he : Graph.edge_weight ms.graph src dest with
      | none => rfl
      | some v =>
        exfalso
        apply hc
        unfold Graph.contains_edge
        rw [he]
        rfl
  have hvlist : WalkStorage.visits_list m1.walks src = WalkStorage.visits_list ms.walks src := by
    unfold WalkStorage.visits_list
    rw [hvisEq]
  have hfilter2 : zp_hit_filter m1.walks src dest = [] := by
    unfold zp_hit_filter
    rw [hvlist]
    rw [List.filter_eq_nil_iff]
    intro pr hpr
    simp only [decide_eq_true_eq]
    intro hcontra
    by_cases hin : pr ∈ zp_hit_filter ms.walks src dest
    · obtain ⟨wkp, segp, hwkp, hm1p, hheadp⟩ := hsel pr hin
      obtain ⟨wk0, hwk0, hlen0, _⟩ := hv pr hpr
      have hweq : wk0 = wkp := by
        have := hwkp
        rw [hwk0] at this
        injection this
      rw [hm1p] at hcontra
      simp only [Option.getD_some] at hcontra
      have hlentake : (wkp.take (pr.2 + 1)).length = pr.2 + 1 := by
        apply length_take_of_lt
        rw [← hweq]
        exact hlen0
      obtain ⟨hlt, heqd⟩ := hcontra
      have hseg_pos : 0 < segp.length := by
        rw [List.length_append, hlentake] at hlt
        omega
      obtain ⟨x, segtl, hxeq⟩ : ∃ x segtl, segp = x :: segtl := by
        cases segp with
        | nil => cases hseg_pos
        | cons x segtl => exact ⟨x, segtl, rfl⟩
      have hgetd : (wkp.take (pr.2 + 1) ++ segp).getD (pr.2 + 1) 0 = x := by
        rw [List.getD_append_right]
        · rw [hlentake, hxeq]
          simp
        · rw [hlentake]
      rw [hgetd] at heqd
      have hpos := hheadp x (by rw [hxeq]; rfl)
      rw [heqd] at hpos
      have : Graph.edge_weight m1.graph src dest
          = Graph.edge_weight ({ ms with
            graph := if Graph.contains_edge ms.graph src dest then
                Graph.remove_edge ms.graph src dest else ms.graph
            personal_hits := (MeritRank.zp_loop1 ms.graph ms.walks
              (zp_hit_filter ms.walks src dest) [] ms.personal_hits ms.neg_hits).2.1
            neg_hits := (MeritRank.zp_loop1 ms.graph ms.walks
              (zp_hit_filter ms.walks src dest) [] ms.personal_hits ms.neg_hits).2.2 }
              : MeritRank).graph src dest := by
        rw [hg]
      rw [← this, hedge1] at hpos
      simp at hpos
    · have hjni : pr.1 ∉ (zp_hit_filter ms.walks src dest).map Prod.fst := by
        intro hji
        obtain ⟨pr', hpr', hpe⟩ := List.mem_map.mp hji
        have : pr = pr' :=
          pair_unique (WalkStorage.visits_list ms.walks src) hnd
            pr' pr (hsub pr' hpr') hpr hpe.symm
        rw [this] at hin
        exact hin hpr'
      have hwalk_same := hothers pr.1 hjni
      rw [hwalk_same] at hcontra
      apply hin
      unfold zp_hit_filter
      rw [List.mem_filter]
      refine ⟨hpr, ?_⟩
      simp only [decide_eq_true_eq]
      exact hcontra
  intro tape2
  rw [zp_zero_regime cfg m1 src dest w tape2 hnlt hwe]
  rw [hfilter2]
  have hce2 : Graph.contains_edge m1.graph src dest = false := by
    unfold Graph.contains_edge
    rw [hedge1]
    rfl
  simp only [hce2, Bool.false_eq_true, if_false]
  rfl

theorem add_edge_old_eq (cfg : Cfg) (mr : MeritRank) (src dest : NodeId) (w : Weight)
    (tape : Tape) (hne : ¬ src = dest)
    (hold : (Graph.edge_weight mr.graph src dest).getD 0 = w) :
    MeritRank.add_edge cfg mr src dest w tape = .ok (mr, tape) := by
  simp [MeritRank.add_edge, hne, hold]

theorem zp_small_edge_none (cfg : Cfg) (mr : MeritRank) (src dest : NodeId) (w : Weight)
    (tape : Tape) (m1 : MeritRank) (t1 : Tape) (hwe : w ≤ EPSILON)
    (h : MeritRank.zp cfg mr src dest w tape = .ok (m1, t1)) :
    Graph.edge_weight m1.graph src dest = none := by
  rw [zp_graph cfg mr src dest w tape m1 t1 h, if_pos hwe]
  by_cases hc : Graph.contains_edge mr.graph src dest
  · rw [if_pos hc]
    exact getK_eraseK_self _ _
  · rw [if_neg hc]
    cases he : Graph.edge_weight mr.graph src dest with
    | none => rfl
    | some v =>
      exfalso
      apply hc
      unfold Graph.contains_edge
      rw [he]
      rfl

/-- After a successful zp with a positive weight, a repeated add_edge
with the same weight is the identity on the state. -/
theorem zp_then_idem (cfg : Cfg) (mr : MeritRank) (src dest : NodeId) (w : Weight)
    (tape1 : Tape) (hne : ¬ src = dest) (hw : 0 < w)
    (hv : ∀ pr, pr ∈ WalkStorage.visits_list mr.walks src →
      ∃ wk, WalkStorage.get_walk mr.walks pr.1 = some wk ∧ pr.2 < wk.length
        ∧ wk.getD pr.2 0 = src)
    (hnd : ((WalkStorage.visits_list mr.walks src).map Prod.fst).Nodup)
    (m1 : MeritRank) (t1 : Tape)
    (h1 : MeritRank.zp cfg mr src dest w tape1 = .ok (m1, t1)) :
    ∀ tape2, MeritRank.add_edge cfg m1 src dest w tape2 = .ok (m1, tape2) := by
  intro tape2
  by_cases hε : w ≤ EPSILON
  · have hzp := zp_small_idem cfg mr src dest w tape1 hw hε hv hnd m1 t1 h1
    have hen : Graph.edge_weight m1.graph src dest = none :=
      zp_small_edge_none cfg mr src dest w tape1 m1 t1 hε h1
    have h0w : ¬ ((0 : ℚ) = w) := fun h0 => absurd (h0 ▸ hw) (lt_irrefl w)
    have hs0 : sign (0 : ℚ) = 0 := by simp [sign]
    have hsw : sign w = 1 := by simp [sign, hw]
    simp only [MeritRank.add_edge, if_neg hne, hen, Option.getD_none]
    rw [if_neg h0w, hs0, hsw]
    rw [if_neg (by decide : ¬ ((0 : ℤ) = 0 ∧ (1 : ℤ) = 0))]
    rw [if_pos (by decide : ((0 : ℤ) = 0 ∧ (1 : ℤ) = 1))]
    exact hzp tape2
  · have hen : Graph.edge_weight m1.graph src dest = some w := by
      rw [zp_graph cfg mr src dest w tape1 m1 t1 h1, if_neg hε]
      exact getK_setK_self _ _ _
    refine add_edge_old_eq cfg m1 src dest w tape2 hne ?_
    rw [hen]
    rfl

/-- Claim C6. Idempotence of add_edge with equal weight: for src distinct
from dest, whenever one add_edge succeeds (under a well-formed visits
index for src), running add_edge again with the same arguments returns
the very same state — graph, walks, visits index, personal hits and
negative hits included — and consumes none of the second tape. -/
theorem claim_C6_add_edge_idempotent (cfg : Cfg) (mr : MeritRank) (src dest : NodeId)
    (w : Weight) (tape1 : Tape) (hne : ¬ src = dest)
    (hv : ∀ pr, pr ∈ WalkStorage.visits_list mr.walks src →
      ∃ wk, WalkStorage.get_walk mr.walks pr.1 = some wk ∧ pr.2 < wk.length
        ∧ wk.getD pr.2 0 = src)
    (hnd : ((WalkStorage.visits_list mr.walks src).map Prod.fst).Nodup)
    (m1 : MeritRank) (t1 : Tape)
    (h1 : MeritRank.add_edge cfg mr src dest w tape1 = .ok (m1, t1)) :
    ∀ tape2, MeritRank.add_edge cfg m1 src dest w tape2 = .ok (m1, tape2) := by
  intro tape2
  simp only [MeritRank.add_edge, if_neg hne] at h1
  by_cases hold : (Graph.edge_weight mr.graph src dest).getD 0 = w
  · rw [if_pos hold] at h1
    injection h1 with h1
    injection h1 with hm ht
    rw [← hm]
    exact add_edge_old_eq cfg mr src dest w tape2 hne hold
  · rw [if_neg hold] at h1
    rcases lt_trichotomy ((Graph.edge_weight mr.graph src dest).getD 0) 0 with hlt | heq | hgt
    · have hs : sign ((Graph.edge_weight mr.graph src dest).getD 0) = -1 := by
        have h0 : ¬ 0 < (Graph.edge_weight mr.graph src dest).getD 0 :=
          not_lt.mpr (le_of_lt hlt)
        simp [sign, h0, hlt]
      rw [hs] at h1
      rcases lt_trichotomy 0 w with hw | hw0 | hwneg
      · have hsw : sign w = 1 := by simp [sign, hw]
        rw [hsw] at h1
        rw [if_neg (by decide : ¬ ((-1 : ℤ) = 0 ∧ (1 : ℤ) = 0))] at h1
        rw [if_neg (by decide : ¬ ((-1 : ℤ) = 0 ∧ (1 : ℤ) = 1))] at h1
        rw [if_neg (by decide : ¬ ((-1 : ℤ) = 0 ∧ (1 : ℤ) = -1))] at h1
        rw [if_neg (by decide : ¬ ((-1 : ℤ) = 1 ∧ (1 : ℤ) = 0))] at h1
        rw [if_neg (by decide : ¬ ((-1 : ℤ) = 1 ∧ (1 : ℤ) = 1))] at h1
        rw [if_neg (by decide : ¬ ((-1 : ℤ) = 1 ∧ (1 : ℤ) = -1))] at h1
        rw [if_neg (by decide : ¬ ((-1 : ℤ) = -1 ∧ (1 : ℤ) = 0))] at h1
        rw [if_pos (by decide : ((-1 : ℤ) = -1 ∧ (1 : ℤ) = 1))] at h1
        exact zp_then_idem cfg (MeritRank.nz mr src dest) src dest w tape1 hne hw hv hnd
          m1 t1 h1 tape2
      · have hsw : sign w = 0 := by
          rw [← hw0]
          simp [sign]
        rw [hsw] at h1
        rw [if_neg (by decide : ¬ ((-1 : ℤ) = 0 ∧ (0 : ℤ) = 0))] at h1
        rw [if_neg (by decide : ¬ ((-1 : ℤ) = 0 ∧ (0 : ℤ) = 1))] at h1
        rw [if_neg (by decide : ¬ ((-1 : ℤ) = 0 ∧ (0 : ℤ) = -1))] at h1
        rw [if_neg (by decide : ¬ ((-1 : ℤ) = 1 ∧ (0 : ℤ) = 0))] at h1
        rw [if_neg (by decide : ¬ ((-1 : ℤ) = 1 ∧ (0 : ℤ) = 1))] at h1
        rw [if_neg (by decide : ¬ ((-1 : ℤ) = 1 ∧ (0 : ℤ) = -1))] at h1
        rw [if_pos (by decide : ((-1 : ℤ) = -1 ∧ (0 : ℤ) = 0))] at h1
        injection h1 with h1
        injection h1 with hm ht
        rw [← hm]
        refine add_edge_old_eq cfg _ src dest w tape2 hne ?_
        rw [edge_weight_nz]
        exact hw0
      · have hsw : sign w = -1 := by
          have h0 : ¬ 0 < w := not_lt.mpr (le_of_lt hwneg)
          simp [sign, h0, hwneg]
        rw [hsw] at h1
        rw [if_neg (by decide : ¬ ((-1 : ℤ) = 0 ∧ (-1 : ℤ) = 0))] at h1
        rw [if_neg (by decide : ¬ ((-1 : ℤ) = 0 ∧ (-1 : ℤ) = 1))] at h1
        rw [if_neg (by decide : ¬ ((-1 : ℤ) = 0 ∧ (-1 : ℤ) = -1))] at h1
        rw [if_neg (by decide : ¬ ((-1 : ℤ) = 1 ∧ (-1 : ℤ) = 0))] at h1
        rw [if_neg (by decide : ¬ ((-1 : ℤ) = 1 ∧ (-1 : ℤ) = 1))] at h1
        rw [if_neg (by decide : ¬ ((-1 : ℤ) = 1 ∧ (-1 : ℤ) = -1))] at h1
        rw [if_neg (by decide : ¬ ((-1 : ℤ) = -1 ∧ (-1 : ℤ) = 0))] at h1
        rw [if_neg (by decide : ¬ ((-1 : ℤ) = -1 ∧ (-1 : ℤ) = 1))] at h1
        rw [if_pos (by decide : ((-1 : ℤ) = -1 ∧ (-1 : ℤ) = -1))] at h1
        injection h1 with h1
        injection h1 with hm ht
        rw [← hm]
        refine add_edge_old_eq cfg _ src dest w tape2 hne ?_
        rw [edge_weight_zn]
        rfl
    · have hs : sign ((Graph.edge_weight mr.graph src dest).getD 0) = 0 := by
        rw [heq]
        simp [sign]
      rw [hs] at h1
      rcases lt_trichotomy 0 w with hw | hw0 | hwneg
      · have hsw : sign w = 1 := by simp [sign, hw]
        rw [hsw] at h1
        rw [if_neg (by decide : ¬ ((0 : ℤ) = 0 ∧ (1 : ℤ) = 0))] at h1
        rw [if_pos (by decide : ((0 : ℤ) = 0 ∧ (1 : ℤ) = 1))] at h1
        exact zp_then_idem cfg mr src dest w tape1 hne hw hv hnd m1 t1 h1 tape2
      · exfalso
        apply hold
        rw [heq, ← hw0]
      · have hsw : sign w = -1 := by
          have h0 : ¬ 0 < w := not_lt.mpr (le_of_lt hwneg)
          simp [sign, h0, hwneg]
        rw [hsw] at h1
        rw [if_neg (by decide : ¬ ((0 : ℤ) = 0 ∧ (-1 : ℤ) = 0))] at h1
        rw [if_neg (by decide : ¬ ((0 : ℤ) = 0 ∧ (-1 : ℤ) = 1))] at h1
        rw [if_pos (by decide : ((0 : ℤ) = 0 ∧ (-1 : ℤ) = -1))] at h1
        injection h1 with h1
        injection h1 with hm ht
        rw [← hm]
        refine add_edge_old_eq cfg _ src dest w tape2 hne ?_
        rw [edge_weight_zn]
        rfl
    · have hs : sign ((Graph.edge_weight mr.graph src dest).getD 0) = 1 := by
        simp [sign, hgt]
      rw [hs] at h1
      rcases lt_trichotomy 0 w with hw | hw0 | hwneg
      · have hsw : sign w = 1 := by simp [sign, hw]
        rw [hsw] at h1
        rw [if_neg (by decide : ¬ ((1 : ℤ) = 0 ∧ (1 : ℤ) = 0))] at h1
        rw [if_neg (by decide : ¬ ((1 : ℤ) = 0 ∧ (1 : ℤ) = 1))] at h1
        rw [if_neg (by decide : ¬ ((1 : ℤ) = 0 ∧ (1 : ℤ) = -1))] at h1
        rw [if_neg (by decide : ¬ ((1 : ℤ) = 1 ∧ (1 : ℤ) = 0))] at h1
        rw [if_pos (by decide : ((1 : ℤ) = 1 ∧ (1 : ℤ) = 1))] at h1
        exact zp_then_idem cfg mr src dest w tape1 hne hw hv hnd m1 t1 h1 tape2
      · have hsw : sign w = 0 := by
          rw [← hw0]
          simp [sign]
        rw [hsw] at h1
        rw [if_neg (by decide : ¬ ((1 : ℤ) = 0 ∧ (0 : ℤ) = 0))] at h1
        rw [if_neg (by decide : ¬ ((1 : ℤ) = 0 ∧ (0 : ℤ) = 1))] at h1
        rw [if_neg (by decide : ¬ ((1 : ℤ) = 0 ∧ (0 : ℤ) = -1))] at h1
        rw [if_pos (by decide : ((1 : ℤ) = 1 ∧ (0 : ℤ) = 0))] at h1
        have hen : Graph.edge_weight m1.graph src dest = none :=
          zp_small_edge_none cfg mr src dest 0 tape1 m1 t1 (by norm_num [EPSILON]) h1
        refine add_edge_old_eq cfg m1 src dest w tape2 hne ?_
        rw [hen, ← hw0]
        rfl
      · have hsw : sign w = -1 := by
          have h0 : ¬ 0 < w := not_lt.mpr (le_of_lt hwneg)
          simp [sign, h0, hwneg]
        rw [hsw] at h1
        rw [if_neg (by decide : ¬ ((1 : ℤ) = 0 ∧ (-1 : ℤ) = 0))] at h1
        rw [if_neg (by decide : ¬ ((1 : ℤ) = 0 ∧ (-1 : ℤ) = 1))] at h1
        rw [if_neg (by decide : ¬ ((1 : ℤ) = 0 ∧ (-1 : ℤ) = -1))] at h1
        rw [if_neg (by decide : ¬ ((1 : ℤ) = 1 ∧ (-1 : ℤ) = 0))] at h1
        rw [if_neg (by decide : ¬ ((1 : ℤ) = 1 ∧ (-1 : ℤ) = 1))] at h1
        rw [if_pos (by decide : ((1 : ℤ) = 1 ∧ (-1 : ℤ) = -1))] at h1
        cases hz : MeritRank.zp cfg mr src dest 0 tape1 with
        | error e =>
          rw [hz] at h1
          have h1e : (Except.error e : Except PanicKind (MeritRank × Tape)) = .ok (m1, t1) := h1
          cases h1e
        | ok p =>
          obtain ⟨m0, t0⟩ := p
          rw [hz] at h1
          have h1o : (Except.ok (MeritRank.zn m0 src dest w, t0) :
              Except PanicKind (MeritRank × Tape)) = .ok (m1, t1) := h1
          injection h1o with h1o
          injection h1o with hm ht
          rw [← hm]
          refine add_edge_old_eq cfg _ src dest w tape2 hne ?_
          rw [edge_weight_zn]
          rfl

/-- Witness for claim C6 at the state c6mr, src 1, dest 2, weight 5. -/
theorem claim_C6_add_edge_idempotent_witness :
    (¬ (1 : NodeId) = 2)
    ∧ (∀ pr, pr ∈ WalkStorage.visits_list c6mr.walks 1 →
        ∃ wk, WalkStorage.get_walk c6mr.walks pr.1 = some wk ∧ pr.2 < wk.length
          ∧ wk.getD pr.2 0 = 1)
    ∧ ((WalkStorage.visits_list c6mr.walks 1).map Prod.fst).Nodup
    ∧ MeritRank.add_edge { assertOn := false, optimize_invalidation := true } c6mr 1 2 5 []
        = .ok (c6mr, [])
    ∧ (∀ tape2,
        MeritRank.add_edge { assertOn := false, optimize_invalidation := true } c6mr 1 2 5 tape2
          = .ok (c6mr, tape2)) :=
  ⟨by decide,
   fun pr hpr => absurd hpr (List.not_mem_nil pr),
   List.nodup_nil,
   by simp [MeritRank.add_edge, Graph.edge_weight, getK, getD],
   claim_C6_add_edge_idempotent { assertOn := false, optimize_invalidation := true }
     c6mr 1 2 5 [] (by decide)
     (fun pr hpr => absurd hpr (List.not_mem_nil pr))
     List.nodup_nil
     c6mr []
     (by simp [MeritRank.add_edge, Graph.edge_weight, getK, getD])⟩

/-- Witness state for claim C10: a stored walk of node 1 through the
positive edge to node 2, invalidated by re-weighting that edge. -/
theorem claim_C10_zp_negs_cache_hit_witness :
    MeritRank.zp { assertOn := false, optimize_invalidation := true } c5mr 1 2 (1 / 2) [] ≠
      .error .negsNotFound :=
  claim_C10_zp_negs_cache_hit { assertOn := false, optimize_invalidation := true } c5mr 1 2
    (1 / 2) []
    (by
      intro pr hpr
      fin_cases hpr
      exact ⟨[1], rfl, by decide⟩)

/-! ### Counter sanity: definitions -/

/-! ### Counter sanity: generic measure and map lemmas -/

theorem wmeas_nil (μ : List NodeId → ℚ) : wmeas [] μ = 0 := rfl

theorem wmeas_cons (e : Nat × List NodeId) (w : List (Nat × List NodeId))
    (μ : List NodeId → ℚ) : wmeas (e :: w) μ = μ e.2 + wmeas w μ := by
  simp [wmeas]

theorem wmeas_append (w1 w2 : List (Nat × List NodeId)) (μ : List NodeId → ℚ) :
    wmeas (w1 ++ w2) μ = wmeas w1 μ + wmeas w2 μ := by
  simp [wmeas]

theorem wmeas_setK (w : List (Nat × List NodeId)) (id : Nat) (v v' : List NodeId)
    (μ : List NodeId → ℚ) (hw : getK w id = some v) :
    wmeas (setK w id v') μ = wmeas w μ - μ v + μ v' := by
  induction w with
  | nil => cases hw
  | cons e rest ih =>
    by_cases he : e.1 = id
    · simp only [getK, he, if_true] at hw
      injection hw with hw
      simp only [setK, he, if_true, wmeas_cons, ← hw]
      ring
    · simp only [getK, he, if_false] at hw
      simp only [setK, he, if_false, wmeas_cons, ih hw]
      ring

theorem getK_none_of_not_mem_keys {κ α : Type} [DecidableEq κ] (l : List (κ × α)) (k : κ)
    (h : k ∉ keysK l) : getK l k = none := by
  induction l with
  | nil => rfl
  | cons e rest ih =>
    simp only [keysK, List.map_cons, List.mem_cons] at h
    push_neg at h
    have he : ¬ e.1 = k := fun hh => h.1 hh.symm
    simp only [getK, he, if_false]
    exact ih (by simpa [keysK] using h.2)

theorem mem_keys_of_getK {κ α : Type} [DecidableEq κ] (l : List (κ × α)) (k : κ) (v : α)
    (h : getK l k = some v) : k ∈ keysK l := by
  induction l with
  | nil => cases h
  | cons e rest ih =>
    by_cases he : e.1 = k
    · simp [keysK, he]
    · simp only [getK, he, if_false] at h
      have := ih h
      simp only [keysK, List.map_cons, List.mem_cons]
      right
      simpa [keysK] using this

theorem setK_eq_append_of_none {κ α : Type} [DecidableEq κ] (l : List (κ × α)) (k : κ)
    (v : α) (h : getK l k = none) : setK l k v = l ++ [(k, v)] := by
  induction l with
  | nil => rfl
  | cons e rest ih =>
    by_cases he : e.1 = k
    · simp [getK, he] at h
    · simp only [getK, he, if_false] at h
      simp [setK, he, ih h]

theorem wmeas_setK_none (w : List (Nat × List NodeId)) (id : Nat) (v : List NodeId)
    (μ : List NodeId → ℚ) (hw : getK w id = none) :
    wmeas (setK w id v) μ = wmeas w μ + μ v := by
  rw [setK_eq_append_of_none w id v hw, wmeas_append]
  simp [wmeas]

theorem wmeas_filter_of_zero (w : List (Nat × List NodeId)) (q : Nat × List NodeId → Bool)
    (μ : List NodeId → ℚ) (h : ∀ e ∈ w, q e = false → μ e.2 = 0) :
    wmeas (w.filter q) μ = wmeas w μ := by
  induction w with
  | nil => rfl
  | cons e rest ih =>
    have ih2 := ih (fun e' he' hq => h e' (List.mem_cons_of_mem e he') hq)
    cases hq : q e with
    | true => simp [List.filter_cons, hq, wmeas_cons, ih2]
    | false =>
      simp only [List.filter_cons, hq, Bool.false_eq_true, if_false]
      rw [wmeas_cons, ih2, h e (List.mem_cons_self e rest) hq]
      ring

theorem wmeas_filter_zero (w : List (Nat × List NodeId)) (q : Nat × List NodeId → Bool)
    (μ : List NodeId → ℚ) (h : ∀ e ∈ w, q e = true → μ e.2 = 0) :
    wmeas (w.filter q) μ = 0 := by
  induction w with
  | nil => rfl
  | cons e rest ih =>
    have ih2 := ih (fun e' he' hq => h e' (List.mem_cons_of_mem e he') hq)
    cases hq : q e with
    | true =>
      simp only [List.filter_cons, hq, if_true]
      rw [wmeas_cons, ih2, h e (List.mem_cons_self e rest) hq]
      ring
    | false => simp [List.filter_cons, hq, ih2]

theorem mem_keysK_setK {κ α : Type} [DecidableEq κ] (l : List (κ × α)) (k : κ) (v : α)
    (j : κ) (h : j ∈ keysK (setK l k v)) : j ∈ keysK l ∨ j = k := by
  induction l with
  | nil =>
    simp [setK, keysK] at h
    exact Or.inr h
  | cons e rest ih =>
    by_cases he : e.1 = k
    · simp only [setK, he, if_true, keysK, List.map_cons, List.mem_cons] at h
      rcases h with h | h
      · exact Or.inr h
      · left
        simp only [keysK, List.map_cons, List.mem_cons]
        right
        simpa [keysK] using h
    · simp only [setK, he, if_false, keysK, List.map_cons, List.mem_cons] at h
      rcases h with h | h
      · exact Or.inl (by simp [keysK, h])
      · rcases ih (by simpa [keysK] using h) with h2 | h2
        · left
          simp only [keysK, List.map_cons, List.mem_cons]
          right
          simpa [keysK] using h2
        · exact Or.inr h2

theorem keysK_setK_nodup {κ α : Type} [DecidableEq κ] (l : List (κ × α)) (k : κ) (v : α)
    (h : (keysK l).Nodup) : (keysK (setK l k v)).Nodup := by
  induction l with
  | nil => simp [setK, keysK]
  | cons e rest ih =>
    simp only [keysK, List.map_cons, List.nodup_cons] at h
    by_cases he : e.1 = k
    · simp only [setK, he, if_true, keysK, List.map_cons, List.nodup_cons]
      exact ⟨by rw [← he]; exact h.1, h.2⟩
    · simp only [setK, he, if_false, keysK, List.map_cons, List.nodup_cons]
      refine ⟨?_, ih h.2⟩
      intro hmem
      rcases mem_keysK_setK rest k v e.1 (by simpa [keysK] using hmem) with h2 | h2
      · exact h.1 (by simpa [keysK] using h2)
      · exact he h2

theorem keysK_setK_mem {κ α : Type} [DecidableEq κ] (l : List (κ × α)) (k : κ) (v : α)
    (h : k ∈ keysK l) : keysK (setK l k v) = keysK l := by
  induction l with
  | nil => simp [keysK] at h
  | cons e rest ih =>
    by_cases he : e.1 = k
    · simp [setK, he, keysK]
    · simp only [keysK, List.map_cons, List.mem_cons] at h
      rcases h with h | h
      · exact absurd h.symm he
      · simp only [setK, he, if_false, keysK, List.map_cons]
        have h2 := ih (by simpa [keysK] using h)
        simp only [keysK] at h2
        rw [h2]

/-! ### Counter sanity: pending-truncation lemmas -/

theorem setK_cons_self {κ α : Type} [DecidableEq κ] (e : κ × α) (rest : List (κ × α))
    (k : κ) (v : α) (h : e.1 = k) : setK (e :: rest) k v = (k, v) :: rest := by
  simp [setK, h]

theorem setK_cons_ne {κ α : Type} [DecidableEq κ] (e : κ × α) (rest : List (κ × α))
    (k : κ) (v : α) (h : ¬ e.1 = k) : setK (e :: rest) k v = e :: setK rest k v := by
  simp [setK, h]

theorem truncW_nil (w : List (Nat × List NodeId)) : truncW [] w = w := by
  unfold truncW
  have he : ∀ e : Nat × List NodeId,
      (match getK ([] : List (Nat × Nat)) e.1 with
       | some pos => (e.1, e.2.take (pos + 1))
       | none => e) = e := fun e => rfl
  simp only [he]
  exact List.map_id w

theorem getK_truncW_none (P : List (Nat × Nat)) (w : List (Nat × List NodeId)) (k : Nat)
    (h : getK P k = none) : getK (truncW P w) k = getK w k := by
  induction w with
  | nil => rfl
  | cons e rest ih =>
    by_cases he : e.1 = k
    · cases hgp : getK P e.1 with
      | none =>
        simp only [truncW, List.map_cons, hgp]
        simp [getK, he]
      | some pos =>
        rw [he] at hgp
        rw [hgp] at h
        cases h
    · cases hgp : getK P e.1 with
      | none =>
        simp only [truncW, List.map_cons, hgp, getK, he, if_false]
        exact ih
      | some pos =>
        simp only [truncW, List.map_cons, hgp, getK, he, if_false]
        exact ih

theorem keysK_truncW (P : List (Nat × Nat)) (w : List (Nat × List NodeId)) :
    keysK (truncW P w) = keysK w := by
  induction w with
  | nil => rfl
  | cons e rest ih =>
    cases hgp : getK P e.1 with
    | none =>
      simp only [truncW, List.map_cons, hgp, keysK, List.map_cons] at ih ⊢
      rw [ih]
    | some pos =>
      simp only [truncW, List.map_cons, hgp, keysK, List.map_cons] at ih ⊢
      rw [ih]

theorem truncW_cons_unfold (P : List (Nat × Nat)) (e : Nat × List NodeId)
    (rest : List (Nat × List NodeId)) :
    truncW P (e :: rest) =
      (match getK P e.1 with
       | some pos => (e.1, e.2.take (pos + 1))
       | none => e) :: truncW P rest := rfl

theorem truncW_setK_comm (P : List (Nat × Nat)) (w : List (Nat × List NodeId)) (id : Nat)
    (v : List NodeId) (h : getK P id = none) :
    truncW P (setK w id v) = setK (truncW P w) id v := by
  induction w with
  | nil =>
    show truncW P [(id, v)] = setK [] id v
    rw [truncW_cons_unfold]
    simp [h, setK, truncW]
  | cons e rest ih =>
    by_cases he : e.1 = id
    · rw [setK_cons_self e rest id v he, truncW_cons_unfold, truncW_cons_unfold]
      have hge : getK P e.1 = none := by rw [he]; exact h
      simp only [hge, h]
      rw [setK_cons_self _ _ _ _ (by rw [he] : (e : Nat × List NodeId).1 = id)]
    · rw [setK_cons_ne e rest id v he, truncW_cons_unfold, truncW_cons_unfold, ih]
      cases hgp : getK P e.1 with
      | none =>
        rw [setK_cons_ne _ _ _ _ he]
      | some pos =>
        rw [setK_cons_ne _ _ _ _ (by simpa using he)]

theorem truncW_cons_irrel (id pos : Nat) (rest : List (Nat × Nat)) :
    ∀ w : List (Nat × List NodeId), (∀ e ∈ w, ¬ e.1 = id) →
      truncW ((id, pos) :: rest) w = truncW rest w := by
  intro w
  induction w with
  | nil => intro _; rfl
  | cons e tail ih =>
    intro h
    have he : ¬ e.1 = id := h e (List.mem_cons_self e tail)
    have hg : getK ((id, pos) :: rest) e.1 = getK rest e.1 := by
      have : ¬ ((id, pos) : Nat × Nat).1 = e.1 := fun hh => he hh.symm
      simp [getK, this]
    simp only [truncW, List.map_cons, hg]
    have ih2 := ih (fun e' he' => h e' (List.mem_cons_of_mem e he'))
    simp only [truncW] at ih2
    rw [ih2]

theorem truncW_cons (id pos : Nat) (rest : List (Nat × Nat)) :
    ∀ (w : List (Nat × List NodeId)) (wk : List NodeId),
      getK w id = some wk → (keysK w).Nodup → id ∉ rest.map Prod.fst →
      truncW ((id, pos) :: rest) w = truncW rest (setK w id (wk.take (pos + 1))) := by
  intro w
  induction w with
  | nil => intro wk hw; cases hw
  | cons e tail ih =>
    intro wk hw hnd hid
    by_cases he : e.1 = id
    · simp only [getK, he, if_true] at hw
      injection hw with hw
      have hgr : getK rest id = none := by
        apply getK_none_of_not_mem_keys
        simpa [keysK] using hid
      have hself : getK ((id, pos) :: rest) id = some pos := by simp [getK]
      simp only [setK, he, if_true]
      simp only [truncW, List.map_cons, he, hself, hgr, hw]
      have htail : ∀ e' ∈ tail, ¬ e'.1 = id := by
        intro e' he' heq
        simp only [keysK, List.map_cons, List.nodup_cons] at hnd
        apply hnd.1
        rw [he]
        rw [← heq]
        exact List.mem_map_of_mem _ he'
      have h2 := truncW_cons_irrel id pos rest tail htail
      simp only [truncW] at h2 ⊢
      rw [h2]
    · simp only [getK, he, if_false] at hw
      have hg : getK ((id, pos) :: rest) e.1 = getK rest e.1 := by
        have : ¬ ((id, pos) : Nat × Nat).1 = e.1 := fun hh => he hh.symm
        simp [getK, this]
      simp only [setK, he, if_false]
      simp only [truncW, List.map_cons, hg]
      have hndt : (keysK tail).Nodup := by
        simp only [keysK, List.map_cons, List.nodup_cons] at hnd
        exact hnd.2
      have ih2 := ih wk hw hndt hid
      simp only [truncW] at ih2
      rw [ih2]

/-! ### Counter sanity: distinct-count lemmas -/

theorem dedup_length_toFinset (l : List NodeId) : l.dedup.length = l.toFinset.card :=
  (List.card_toFinset l).symm

theorem filter_dedup_length (l : List NodeId) (p : NodeId → Bool) :
    (l.filter p).dedup.length = (l.dedup.filter p).length := by
  rw [dedup_length_toFinset]
  have h1 : (l.filter p).toFinset = l.toFinset.filter (fun x => p x) := by
    ext x
    simp [List.mem_toFinset, List.mem_filter]
  rw [h1]
  have h2 : (l.dedup.filter p).length = (l.dedup.filter p).toFinset.card := by
    rw [List.toFinset_card_of_nodup ((l.nodup_dedup).filter p)]
  rw [h2]
  congr 1
  ext x
  simp [List.mem_toFinset, List.mem_filter, List.mem_dedup]

theorem dedup_length_append (l1 l2 : List NodeId) :
    (l1 ++ l2).dedup.length
      = l1.dedup.length + (l2.dedup.filter (fun n => decide (n ∉ l1))).length := by
  rw [dedup_length_toFinset, dedup_length_toFinset]
  rw [List.toFinset_append]
  rw [← filter_dedup_length]
  have h2 : (l2.filter (fun n => decide (n ∉ l1))).dedup.length
      = (l2.toFinset \ l1.toFinset).card := by
    rw [dedup_length_toFinset]
    congr 1
    ext x
    simp [List.mem_toFinset, List.mem_filter, Finset.mem_sdiff]
  rw [h2]
  rw [Finset.union_comm]
  rw [← Finset.card_sdiff_add_card]
  exact Nat.add_comm _ _

/-! ### Counter sanity: bridges to the claim-facing counts -/

theorem count_walks_with_eq (ws : WalkStorage) (ego t : NodeId) :
    (count_walks_with ws ego t : ℚ) = wmeas ws.walks (indC ego t) := by
  unfold count_walks_with
  induction ws.walks with
  | nil => rfl
  | cons e rest ih =>
    rw [wmeas_cons]
    by_cases hc : e.2.head? = some ego ∧ t ∈ e.2
    · have hd : (decide (e.2.head? = some ego ∧ t ∈ e.2)) = true := by simpa using hc
      simp only [List.filter_cons, hd, if_true, List.length_cons]
      push_cast
      rw [ih]
      simp only [indC]
      rw [if_pos hc]
      ring
    · have hd : (decide (e.2.head? = some ego ∧ t ∈ e.2)) = false := by simpa using hc
      simp only [List.filter_cons, hd, Bool.false_eq_true, if_false]
      rw [ih]
      simp only [indC]
      rw [if_neg hc]
      ring

theorem total_distinct_eq (ws : WalkStorage) (ego : NodeId) :
    (total_distinct ws ego : ℚ) = wmeas ws.walks (indT ego) := by
  unfold total_distinct
  induction ws.walks with
  | nil => rfl
  | cons e rest ih =>
    rw [wmeas_cons]
    by_cases hc : e.2.head? = some ego
    · have hd : (decide (e.2.head? = some ego)) = true := by simpa using hc
      simp only [List.filter_cons, hd, if_true, List.map_cons, List.sum_cons]
      rw [Nat.cast_add, ih]
      simp only [indT]
      rw [if_pos hc]
    · have hd : (decide (e.2.head? = some ego)) = false := by simpa using hc
      simp only [List.filter_cons, hd, Bool.false_eq_true, if_false]
      rw [ih]
      simp only [indT]
      rw [if_neg hc]
      ring

theorem indC_ne (ego' t a : NodeId) (l : List NodeId) (h : ¬ ego' = a) :
    indC ego' t (a :: l) = 0 := by
  unfold indC
  rw [if_neg]
  intro hc
  simp only [List.head?_cons, Option.some.injEq] at hc
  exact h hc.1.symm

theorem indT_ne (ego' a : NodeId) (l : List NodeId) (h : ¬ ego' = a) :
    indT ego' (a :: l) = 0 := by
  unfold indT
  rw [if_neg]
  intro hc
  simp only [List.head?_cons, Option.some.injEq] at hc
  exact h hc.symm

theorem indC_self (a t : NodeId) (l : List NodeId) :
    indC a t (a :: l) = if t ∈ a :: l then 1 else 0 := by
  unfold indC
  simp

theorem indT_self (a : NodeId) (l : List NodeId) :
    indT a (a :: l) = ((a :: l).dedup.length : ℚ) := by
  unfold indT
  simp

theorem indC_nil (ego t : NodeId) : indC ego t [] = 0 := by
  unfold indC
  simp

theorem indT_nil (ego : NodeId) : indT ego [] = 0 := by
  unfold indT
  simp

/-- Reverting the counters of walk wk from cut pos+1 moves the walk's
counted contribution from the full walk to its prefix of length pos+1. -/
theorem hits_ok_revert (hits : List (NodeId × Counter)) (W : List (Nat × List NodeId))
    (id : Nat) (wk : List NodeId) (pos : Nat) (hw : getK W id = some wk) (hne : wk ≠ [])
    (h : hits_ok hits W) :
    hits_ok (revert_counters_for_walk_from_pos hits wk (pos + 1))
      (setK W id (wk.take (pos + 1))) := by
  obtain ⟨a, tl, rfl⟩ : ∃ a tl, wk = a :: tl := by
    cases wk with
    | nil => exact absurd rfl hne
    | cons a tl => exact ⟨a, tl, rfl⟩
  have hmem : ∀ t, t ∈ (((a :: tl).drop (pos + 1)).filter
        (fun n => decide (n ∉ (a :: tl).take (pos + 1)))).dedup
      ↔ (t ∈ (a :: tl) ∧ t ∉ (a :: tl).take (pos + 1)) := by
    intro t
    rw [List.mem_dedup, List.mem_filter]
    constructor
    · intro ⟨h1, h2⟩
      refine ⟨?_, by simpa using h2⟩
      rw [← List.take_append_drop (pos + 1) (a :: tl)]
      exact List.mem_append.mpr (Or.inr h1)
    · intro ⟨h1, h2⟩
      rw [← List.take_append_drop (pos + 1) (a :: tl)] at h1
      rcases List.mem_append.mp h1 with h3 | h3
      · exact absurd h3 h2
      · exact ⟨h3, by simpa using h2⟩
  have hlen : ((a :: tl).dedup.length : ℚ)
      = (((a :: tl).take (pos + 1)).dedup.length : ℚ)
        + ((((a :: tl).drop (pos + 1)).filter
            (fun n => decide (n ∉ (a :: tl).take (pos + 1)))).dedup.length : ℚ) := by
    have hn : (a :: tl).dedup.length
        = ((a :: tl).take (pos + 1)).dedup.length
          + (((a :: tl).drop (pos + 1)).filter
              (fun n => decide (n ∉ (a :: tl).take (pos + 1)))).dedup.length := by
      conv_lhs => rw [← List.take_append_drop (pos + 1) (a :: tl)]
      rw [dedup_length_append, filter_dedup_length]
    rw [hn]
    push_cast
    ring
  have htake : (a :: tl).take (pos + 1) = a :: tl.take pos := List.take_succ_cons
  intro ego'
  unfold revert_counters_for_walk_from_pos
  simp only [List.headD_cons]
  by_cases he : ego' = a
  · subst he
    constructor
    · intro t
      rw [getD_modK_self]
      rw [Counter.getD_fold_sub_one _ (List.nodup_dedup _)]
      rw [(h ego').1 t]
      rw [wmeas_setK W id _ _ _ hw]
      have harr : (if t ∈ (((ego' :: tl).drop (pos + 1)).filter
            (fun n => decide (n ∉ (ego' :: tl).take (pos + 1)))).dedup then (1:ℚ) else 0)
          = indC ego' t (ego' :: tl) - indC ego' t ((ego' :: tl).take (pos + 1)) := by
        have hhead : ((ego' :: tl).take (pos + 1)).head? = some ego' := by
          rw [htake]
          rfl
        unfold indC
        rw [hhead, List.head?_cons]
        by_cases h1 : t ∈ (ego' :: tl).take (pos + 1)
        · have h2 : t ∈ ego' :: tl := List.take_subset _ _ h1
          rw [if_neg (fun hc => ((hmem t).mp hc).2 h1), if_pos ⟨rfl, h2⟩, if_pos ⟨rfl, h1⟩]
          norm_num
        · by_cases h2 : t ∈ ego' :: tl
          · rw [if_pos ((hmem t).mpr ⟨h2, h1⟩), if_pos ⟨rfl, h2⟩, if_neg (fun hc => h1 hc.2)]
            norm_num
          · rw [if_neg (fun hc => h2 ((hmem t).mp hc).1), if_neg (fun hc => h2 hc.2),
              if_neg (fun hc => h1 hc.2)]
            norm_num
      rw [harr]
      ring
    · rw [getD_modK_self]
      rw [Counter.total_fold_sub_one]
      rw [(h ego').2]
      rw [wmeas_setK W id _ _ _ hw]
      have hhead : ((ego' :: tl).take (pos + 1)).head? = some ego' := by
        rw [htake]
        rfl
      unfold indT
      rw [hhead, List.head?_cons, if_pos rfl, if_pos rfl]
      rw [hlen]
      ring
  · constructor
    · intro t
      rw [getD_modK_ne _ _ _ _ _ _ he]
      rw [(h ego').1 t]
      rw [wmeas_setK W id _ _ _ hw]
      rw [indC_ne _ _ _ _ he, htake, indC_ne _ _ _ _ he]
      ring
    · rw [getD_modK_ne _ _ _ _ _ _ he]
      rw [(h ego').2]
      rw [wmeas_setK W id _ _ _ hw]
      rw [indT_ne _ _ _ he, htake, indT_ne _ _ _ he]
      ring

/-- Extending walk wk0 by seg and incrementing the ego counter at the
new distinct nodes moves the counted contribution from wk0 to wk0++seg. -/
theorem hits_ok_extend (hits : List (NodeId × Counter)) (W : List (Nat × List NodeId))
    (id : Nat) (wk0 seg : List NodeId) (hw : getK W id = some wk0) (hne : wk0 ≠ [])
    (h : hits_ok hits W) :
    hits_ok (modK hits (wk0.headD 0)
        (fun c => Counter.increment_unique_counts c
          (seg.dedup.filter (fun n => decide (n ∉ wk0)))) Counter.new)
      (setK W id (wk0 ++ seg)) := by
  obtain ⟨a, tl, rfl⟩ : ∃ a tl, wk0 = a :: tl := by
    cases wk0 with
    | nil => exact absurd rfl hne
    | cons a tl => exact ⟨a, tl, rfl⟩
  have happ : (a :: tl) ++ seg = a :: (tl ++ seg) := rfl
  have hmem : ∀ t, t ∈ seg.dedup.filter (fun n => decide (n ∉ a :: tl))
      ↔ (t ∈ seg ∧ t ∉ a :: tl) := by
    intro t
    rw [List.mem_filter, List.mem_dedup]
    simp
  intro ego'
  simp only [List.headD_cons]
  by_cases he : ego' = a
  · subst he
    constructor
    · intro t
      rw [getD_modK_self]
      rw [Counter.getD_increment_unique]
      have hc0 : getD hits ego' Counter.new = getD hits ego' [] := rfl
      rw [hc0, (h ego').1 t]
      rw [wmeas_setK W id _ _ _ hw]
      rw [indC_self, happ, indC_self]
      by_cases h1 : t ∈ ego' :: tl
      · have h2 : t ∈ ego' :: (tl ++ seg) := by
          rcases List.mem_cons.mp h1 with hh | hh
          · exact List.mem_cons.mpr (Or.inl hh)
          · exact List.mem_cons.mpr (Or.inr (List.mem_append.mpr (Or.inl hh)))
        rw [if_neg (fun hc => ((hmem t).mp hc).2 h1), if_pos h1, if_pos h2]
        ring
      · by_cases h2 : t ∈ seg
        · have h3 : t ∈ ego' :: (tl ++ seg) :=
            List.mem_cons.mpr (Or.inr (List.mem_append.mpr (Or.inr h2)))
          rw [if_pos ((hmem t).mpr ⟨h2, h1⟩), if_neg h1, if_pos h3]
          ring
        · have h3 : t ∉ ego' :: (tl ++ seg) := by
            intro hc
            rcases List.mem_cons.mp hc with hh | hh
            · exact h1 (List.mem_cons.mpr (Or.inl hh))
            · rcases List.mem_append.mp hh with hh2 | hh2
              · exact h1 (List.mem_cons.mpr (Or.inr hh2))
              · exact h2 hh2
          rw [if_neg (fun hc => h2 ((hmem t).mp hc).1), if_neg h1, if_neg h3]
          ring
    · rw [getD_modK_self]
      rw [Counter.total_increment_unique]
      have hc0 : getD hits ego' Counter.new = getD hits ego' [] := rfl
      rw [hc0, (h ego').2]
      rw [wmeas_setK W id _ _ _ hw]
      rw [indT_self, happ, indT_self]
      have hdd : (seg.dedup.filter (fun n => decide (n ∉ ego' :: tl))).dedup
          = seg.dedup.filter (fun n => decide (n ∉ ego' :: tl)) :=
        List.dedup_eq_self.mpr ((List.nodup_dedup seg).filter _)
      rw [hdd]
      have hlen : ((ego' :: (tl ++ seg)).dedup.length : ℚ)
          = ((ego' :: tl).dedup.length : ℚ)
            + ((seg.dedup.filter (fun n => decide (n ∉ ego' :: tl))).length : ℚ) := by
        have hn : ((ego' :: tl) ++ seg).dedup.length
            = (ego' :: tl).dedup.length
              + (seg.dedup.filter (fun n => decide (n ∉ ego' :: tl))).length :=
          dedup_length_append (ego' :: tl) seg
        rw [happ] at hn
        rw [hn]
        push_cast
        ring
      rw [hlen]
      ring
  · constructor
    · intro t
      rw [getD_modK_ne _ _ _ _ _ _ he]
      rw [(h ego').1 t]
      rw [wmeas_setK W id _ _ _ hw]
      rw [indC_ne _ _ _ _ he, happ, indC_ne _ _ _ _ he]
      ring
    · rw [getD_modK_ne _ _ _ _ _ _ he]
      rw [(h ego').2]
      rw [wmeas_setK W id _ _ _ hw]
      rw [indT_ne _ _ _ he, happ, indT_ne _ _ _ he]
      ring

/-- Registering a fresh empty walk changes no counts. -/
theorem hits_ok_insert_nil (hits : List (NodeId × Counter)) (W : List (Nat × List NodeId))
    (id : Nat) (hid : getK W id = none) (h : hits_ok hits W) :
    hits_ok hits (setK W id []) := by
  intro ego'
  constructor
  · intro t
    rw [wmeas_setK_none W id _ _ hid, indC_nil, (h ego').1 t]
    ring
  · rw [wmeas_setK_none W id _ _ hid, indT_nil, (h ego').2]
    ring

/-- Storing a freshly performed walk over the registered empty walk and
folding its distinct nodes into the present ego counter keeps the
counters exact. -/
theorem hits_ok_seed (hits : List (NodeId × Counter)) (W : List (Nat × List NodeId))
    (id : Nat) (ego : NodeId) (seg : List NodeId) (hw : getK W id = some [])
    (c0 : Counter) (hpres : getK hits ego = some c0) (h : hits_ok hits W) :
    hits_ok (amodK hits ego (fun c => Counter.increment_unique_counts c (ego :: seg)))
      (setK W id (ego :: seg)) := by
  intro ego'
  by_cases he : ego' = ego
  · subst he
    have hsel : getD (amodK hits ego' (fun c => Counter.increment_unique_counts c (ego' :: seg)))
        ego' [] = Counter.increment_unique_counts (getD hits ego' []) (ego' :: seg) := by
      unfold getD
      rw [getK_amodK_self, hpres]
      rfl
    constructor
    · intro t
      rw [hsel, Counter.getD_increment_unique, (h ego').1 t]
      rw [wmeas_setK W id _ _ _ hw, indC_nil, indC_self]
      ring
    · rw [hsel, Counter.total_increment_unique, (h ego').2]
      rw [wmeas_setK W id _ _ _ hw, indT_nil, indT_self]
      ring
  · have hsel : getD (amodK hits ego (fun c => Counter.increment_unique_counts c (ego :: seg)))
        ego' [] = getD hits ego' [] := by
      unfold getD
      rw [getK_amodK_ne _ _ _ _ he]
    constructor
    · intro t
      rw [hsel, (h ego').1 t]
      rw [wmeas_setK W id _ _ _ hw, indC_nil, indC_ne _ _ _ _ he]
      ring
    · rw [hsel, (h ego').2]
      rw [wmeas_setK W id _ _ _ hw, indT_nil, indT_ne _ _ _ he]
      ring

/-- Dropping the walks of ego and resetting the ego counter keeps the
counters exact. -/
theorem hits_ok_drop (hits : List (NodeId × Counter)) (W : List (Nat × List NodeId))
    (ego0 : NodeId) (h : hits_ok hits W) :
    hits_ok (setK hits ego0 Counter.new)
      (W.filter (fun e => decide (¬ e.2.head? = some ego0))) := by
  intro ego'
  by_cases he : ego' = ego0
  · subst he
    have hsel : getD (setK hits ego' Counter.new) ego' [] = [] := by
      unfold getD
      rw [getK_setK_self]
      rfl
    constructor
    · intro t
      rw [hsel]
      rw [wmeas_filter_zero]
      · simp [getD, getK]
      · intro e _ hq
        simp only [decide_eq_true_eq] at hq
        unfold indC
        rw [if_neg (fun hc => hq hc.1)]
    · rw [hsel]
      rw [wmeas_filter_zero]
      · simp [Counter.total_count, valsSum]
      · intro e _ hq
        simp only [decide_eq_true_eq] at hq
        unfold indT
        rw [if_neg hq]
  · have hsel : getD (setK hits ego0 Counter.new) ego' [] = getD hits ego' [] := by
      unfold getD
      rw [getK_setK_ne _ _ _ _ he]
    constructor
    · intro t
      rw [hsel, (h ego').1 t]
      rw [wmeas_filter_of_zero]
      intro e _ hq
      simp only [decide_eq_false_iff_not, not_not] at hq
      unfold indC
      rw [if_neg]
      intro hc
      rw [hq] at hc
      exact he (Option.some.inj hc.1).symm
    · rw [hsel, (h ego').2]
      rw [wmeas_filter_of_zero]
      intro e _ hq
      simp only [decide_eq_false_iff_not, not_not] at hq
      unfold indT
      rw [if_neg]
      intro hc
      rw [hq] at hc
      exact he (Option.some.inj hc).symm

/-- The personal-hits component of the first zp loop is exactly the fold
of the per-walk counter reverts; cache and neg hits do not feed back. -/
theorem zp_loop1_hits_eq (g : Graph) (ws : WalkStorage) :
    ∀ (S : List (Nat × Nat)) (cache : List (NodeId × List (NodeId × Weight)))
      (hits : List (NodeId × Counter)) (nh : List (NodeId × List (NodeId × Weight))),
      (MeritRank.zp_loop1 g ws S cache hits nh).2.1 =
        S.foldl (fun h pr =>
          revert_counters_for_walk_from_pos h ((WalkStorage.get_walk ws pr.1).getD [])
            (pr.2 + 1)) hits := by
  intro S
  induction S with
  | nil => intro cache hits nh; rfl
  | cons pr rest ih =>
    intro cache hits nh
    obtain ⟨id, pos⟩ := pr
    cases hgc : getK cache (((WalkStorage.get_walk ws id).getD []).headD 0) with
    | none =>
      simp only [MeritRank.zp_loop1, hgc, List.foldl_cons]
      exact ih _ _ _
    | some negs =>
      simp only [MeritRank.zp_loop1, hgc, List.foldl_cons]
      exact ih _ _ _

/-- Folding the counter reverts of distinct walks moves each walk's
counted contribution to its pending truncation. -/
theorem hits_ok_revert_fold (ws : WalkStorage) :
    ∀ (S : List (Nat × Nat)) (hits : List (NodeId × Counter)) (W : List (Nat × List NodeId)),
      (∀ pr, pr ∈ S → ∃ wk, WalkStorage.get_walk ws pr.1 = some wk ∧ wk ≠ []
        ∧ getK W pr.1 = some wk) →
      (S.map Prod.fst).Nodup →
      (keysK W).Nodup →
      hits_ok hits W →
      hits_ok (S.foldl (fun h pr =>
          revert_counters_for_walk_from_pos h ((WalkStorage.get_walk ws pr.1).getD [])
            (pr.2 + 1)) hits)
        (truncW S W) := by
  intro S
  induction S with
  | nil =>
    intro hits W _ _ _ hok
    rw [truncW_nil]
    exact hok
  | cons pr rest ih =>
    intro hits W hex hnd hndW hok
    obtain ⟨id, pos⟩ := pr
    obtain ⟨wk, hwk, hne, hwkW⟩ := hex (id, pos) (List.mem_cons_self _ _)
    have hid : id ∉ rest.map Prod.fst := by
      simp only [List.map_cons, List.nodup_cons] at hnd
      exact hnd.1
    have hndr : (rest.map Prod.fst).Nodup := by
      simp only [List.map_cons, List.nodup_cons] at hnd
      exact hnd.2
    rw [truncW_cons id pos rest W wk hwkW hndW hid]
    simp only [List.foldl_cons, hwk, Option.getD_some]
    apply ih (revert_counters_for_walk_from_pos hits wk (pos + 1))
      (setK W id (wk.take (pos + 1)))
    · intro pr hpr
      obtain ⟨wk', hwk', hne', hwkW'⟩ := hex pr (List.mem_cons_of_mem _ hpr)
      have hprid : ¬ pr.1 = id := fun hh => hid (hh ▸ List.mem_map_of_mem Prod.fst hpr)
      refine ⟨wk', hwk', hne', ?_⟩
      rw [getK_setK_ne _ _ _ _ hprid]
      exact hwkW'
    · exact hndr
    · exact keysK_setK_nodup _ _ _ hndW
    · exact hits_ok_revert hits W id wk pos hwkW hne hok

/-- The second zp loop keeps the counters exact: each processed walk is
truncated to its pending cut and then possibly extended, with matching
counter updates; walk ids and the id source are untouched. -/
theorem zp_loop2_hits_ok (cache : List (NodeId × List (NodeId × Weight))) (dest : NodeId)
    (ff sf : Bool) :
    ∀ (S : List (Nat × Nat)) (mr : MeritRank) (t : Tape),
      (∀ pr, pr ∈ S → ∃ wk, WalkStorage.get_walk mr.walks pr.1 = some wk ∧ wk ≠ []) →
      (S.map Prod.fst).Nodup →
      (keysK mr.walks.walks).Nodup →
      hits_ok mr.personal_hits (truncW S mr.walks.walks) →
      ∀ m1 t1, MeritRank.zp_loop2 cache dest ff sf S mr t = .ok (m1, t1) →
        hits_ok m1.personal_hits m1.walks.walks
        ∧ keysK m1.walks.walks = keysK mr.walks.walks
        ∧ m1.walks.next_id = mr.walks.next_id := by
  intro S
  induction S with
  | nil =>
    intro mr t _ _ _ hok m1 t1 h
    injection h with h
    have hm : mr = m1 := congrArg Prod.fst h
    rw [← hm]
    rw [truncW_nil] at hok
    exact ⟨hok, rfl, rfl⟩
  | cons pr rest ih =>
    intro mr t hex hnd hndW hok m1 t1 h
    obtain ⟨id, pos⟩ := pr
    obtain ⟨wk, hwk, hne⟩ := hex (id, pos) (List.mem_cons_self _ _)
    have hwkK : getK mr.walks.walks id = some wk := hwk
    have hid : id ∉ rest.map Prod.fst := by
      simp only [List.map_cons, List.nodup_cons] at hnd
      exact hnd.1
    have hndr : (rest.map Prod.fst).Nodup := by
      simp only [List.map_cons, List.nodup_cons] at hnd
      exact hnd.2
    have hgr : getK rest id = none := by
      apply getK_none_of_not_mem_keys
      simpa [keysK] using hid
    have hwlk1 : (MeritRank.zp_truncate mr id pos).walks.walks
        = setK mr.walks.walks id (wk.take (pos + 1)) := by
      show (WalkStorage.remove_walk_segment_from_bookkeeping mr.walks id (pos + 1)).walks = _
      rw [remove_segment_walks]
      show setK mr.walks.walks id (((WalkStorage.get_walk mr.walks id).getD []).take (pos + 1))
        = _
      rw [hwk]
      rfl
    have htkne : wk.take (pos + 1) ≠ [] := by
      obtain ⟨a, tl, rfl⟩ : ∃ a tl, wk = a :: tl := by
        cases wk with
        | nil => exact absurd rfl hne
        | cons a tl => exact ⟨a, tl, rfl⟩
      rw [List.take_succ_cons]
      exact List.cons_ne_nil a _
    have hwk1 : WalkStorage.get_walk (MeritRank.zp_truncate mr id pos).walks id
        = some (wk.take (pos + 1)) := by
      show getK (MeritRank.zp_truncate mr id pos).walks.walks id = _
      rw [hwlk1]
      exact getK_setK_self _ _ _
    obtain ⟨m', tape', seg, hrec, hcase⟩ :=
      recalc_effect (MeritRank.zp_truncate mr id pos) id
        (if ff = true then some dest else none) sf t (wk.take (pos + 1)) hwk1 htkne
    have hrk : (MeritRank.recalc_or_keep (MeritRank.zp_truncate mr id pos) id
        (if ff = true then some dest else none) sf t).1 = m' := by
      unfold MeritRank.recalc_or_keep
      rw [hrec]
    rw [truncW_cons id pos rest mr.walks.walks wk hwkK hndW hid] at hok
    have hokW1 : hits_ok mr.personal_hits
        (truncW rest (setK mr.walks.walks id (wk.take (pos + 1)))) := hok
    have hwmid : keysK (setK mr.walks.walks id (wk.take (pos + 1))) = keysK mr.walks.walks :=
      keysK_setK_mem _ _ _ (mem_keys_of_getK _ _ _ hwkK)
    -- invariant and storage facts after the recalc step
    have hstep : hits_ok m'.personal_hits (truncW rest m'.walks.walks)
        ∧ keysK m'.walks.walks = keysK mr.walks.walks
        ∧ m'.walks.next_id = mr.walks.next_id
        ∧ (∀ j, ¬ j = id → getK m'.walks.walks j = getK mr.walks.walks j) := by
      rcases hcase with ⟨hm1', _, _, _, _, _⟩ | ⟨hm2', _⟩
      · rw [hm1']
        refine ⟨?_, ?_, rfl, ?_⟩
        · show hits_ok mr.personal_hits (truncW rest (MeritRank.zp_truncate mr id pos).walks.walks)
          rw [hwlk1]
          exact hokW1
        · show keysK (MeritRank.zp_truncate mr id pos).walks.walks = _
          rw [hwlk1]
          exact hwmid
        · intro j hj
          show getK (MeritRank.zp_truncate mr id pos).walks.walks j = _
          rw [hwlk1, getK_setK_ne _ _ _ _ hj]
      · have hw2 : m'.walks.walks
            = setK (setK mr.walks.walks id (wk.take (pos + 1))) id (wk.take (pos + 1) ++ seg) := by
          rw [hm2']
          show (WalkStorage.add_walk_to_bookkeeping
            (WalkStorage.set_walk (MeritRank.zp_truncate mr id pos).walks id
              (wk.take (pos + 1) ++ seg)) id (wk.take (pos + 1)).length).walks = _
          rw [add_bookkeeping_walks]
          show setK (MeritRank.zp_truncate mr id pos).walks.walks id (wk.take (pos + 1) ++ seg)
            = _
          rw [hwlk1]
        have hh2 : m'.personal_hits
            = modK mr.personal_hits ((wk.take (pos + 1)).headD 0)
              (fun c => Counter.increment_unique_counts c
                (seg.dedup.filter (fun n => decide (n ∉ wk.take (pos + 1))))) Counter.new := by
          rw [hm2']
          rfl
        have hget1 : getK (truncW rest (setK mr.walks.walks id (wk.take (pos + 1)))) id
            = some (wk.take (pos + 1)) := by
          rw [getK_truncW_none rest _ id hgr]
          exact getK_setK_self _ _ _
        have hext := hits_ok_extend mr.personal_hits
          (truncW rest (setK mr.walks.walks id (wk.take (pos + 1)))) id
          (wk.take (pos + 1)) seg hget1 htkne hokW1
        rw [← truncW_setK_comm rest _ id _ hgr] at hext
        refine ⟨?_, ?_, ?_, ?_⟩
        · rw [hh2, hw2]
          exact hext
        · rw [hw2]
          rw [keysK_setK_mem _ _ _ (mem_keys_of_getK _ _ _ (getK_setK_self _ _ _))]
          exact hwmid
        · rw [hm2']
          rfl
        · intro j hj
          rw [hw2, getK_setK_ne _ _ _ _ hj, getK_setK_ne _ _ _ _ hj]
    simp only [MeritRank.zp_loop2] at h
    cases hre : MeritRank.zp_reapply cache
      (MeritRank.recalc_or_keep (MeritRank.zp_truncate mr id pos) id
        (if ff = true then some dest else none) sf t).1 id with
    | none =>
      rw [hre] at h
      cases h
    | some mr3 =>
      rw [hre] at h
      rw [hrk] at hre
      have hr3h : mr3.personal_hits = m'.personal_hits := zp_reapply_hits _ _ _ _ hre
      have hr3w : mr3.walks = m'.walks := zp_reapply_walks _ _ _ _ hre
      have hres := ih mr3 ((MeritRank.recalc_or_keep (MeritRank.zp_truncate mr id pos) id
          (if ff = true then some dest else none) sf t).2)
        (fun pr hpr => by
          obtain ⟨wk', hwk', hne'⟩ := hex pr (List.mem_cons_of_mem _ hpr)
          have hprid : ¬ pr.1 = id := fun hh => hid (hh ▸ List.mem_map_of_mem Prod.fst hpr)
          refine ⟨wk', ?_, hne'⟩
          show getK mr3.walks.walks pr.1 = some wk'
          rw [hr3w, hstep.2.2.2 pr.1 hprid]
          exact hwk')
        hndr
        (by
          rw [hr3w, hstep.2.1]
          exact hndW)
        (by
          rw [hr3h, hr3w]
          exact hstep.1)
        m1 t1 h
      refine ⟨hres.1, ?_, ?_⟩
      · rw [hres.2.1, hr3w, hstep.2.1]
      · rw [hres.2.2, hr3w, hstep.2.2.1]

theorem zn_hits (mr : MeritRank) (src dest : NodeId) (w : Weight) :
    (MeritRank.zn mr src dest w).personal_hits = mr.personal_hits := rfl

theorem nz_hits (mr : MeritRank) (src dest : NodeId) :
    (MeritRank.nz mr src dest).personal_hits = mr.personal_hits := rfl

/-- A successful zp keeps the counters exact and does not change the
stored walk ids or the id source. -/
theorem zp_hits_ok (cfg : Cfg) (mr : MeritRank) (src dest : NodeId) (w : Weight) (tape : Tape)
    (hv : ∀ pr, pr ∈ WalkStorage.visits_list mr.walks src →
      ∃ wk, WalkStorage.get_walk mr.walks pr.1 = some wk ∧ pr.2 < wk.length
        ∧ wk.getD pr.2 0 = src)
    (hnd : ((WalkStorage.visits_list mr.walks src).map Prod.fst).Nodup)
    (hndW : (keysK mr.walks.walks).Nodup)
    (hok : hits_ok mr.personal_hits mr.walks.walks)
    (m1 : MeritRank) (t1 : Tape)
    (h : MeritRank.zp cfg mr src dest w tape = .ok (m1, t1)) :
    hits_ok m1.personal_hits m1.walks.walks
    ∧ keysK m1.walks.walks = keysK mr.walks.walks
    ∧ m1.walks.next_id = mr.walks.next_id := by
  unfold MeritRank.zp at h
  by_cases hw : w < 0
  · simp [hw] at h
  · simp only [hw, if_false] at h
    have hS : ∀ pr, pr ∈ (WalkStorage.invalidate_walks_through_node mr.walks src (some dest)
        (MeritRank.step_recalc_probability cfg mr.graph src w) tape).1 →
        pr ∈ WalkStorage.visits_list mr.walks src := by
      intro pr hpr
      exact invalidate_mem mr.walks (some dest) _ _ tape pr hpr
    have hsub : ((WalkStorage.invalidate_walks_through_node mr.walks src (some dest)
        (MeritRank.step_recalc_probability cfg mr.graph src w) tape).1).Sublist
        (WalkStorage.visits_list mr.walks src) :=
      invalidate_go_sublist mr.walks (some dest) _ _ tape
    have hndS : (((WalkStorage.invalidate_walks_through_node mr.walks src (some dest)
        (MeritRank.step_recalc_probability cfg mr.graph src w) tape).1).map Prod.fst).Nodup :=
      List.Nodup.sublist (List.Sublist.map _ hsub) hnd
    have hex : ∀ pr, pr ∈ (WalkStorage.invalidate_walks_through_node mr.walks src (some dest)
        (MeritRank.step_recalc_probability cfg mr.graph src w) tape).1 →
        ∃ wk, WalkStorage.get_walk mr.walks pr.1 = some wk ∧ wk ≠ []
          ∧ getK mr.walks.walks pr.1 = some wk := by
      intro pr hpr
      obtain ⟨wk, hwk, hlen, _⟩ := hv pr (hS pr hpr)
      exact ⟨wk, hwk,
        List.ne_nil_of_length_pos (Nat.lt_of_le_of_lt (Nat.zero_le _) hlen), hwk⟩
    have hok1 : hits_ok (MeritRank.zp_loop1 mr.graph mr.walks
        (WalkStorage.invalidate_walks_through_node mr.walks src (some dest)
          (MeritRank.step_recalc_probability cfg mr.graph src w) tape).1 []
        mr.personal_hits mr.neg_hits).2.1
        (truncW (WalkStorage.invalidate_walks_through_node mr.walks src (some dest)
          (MeritRank.step_recalc_probability cfg mr.graph src w) tape).1 mr.walks.walks) := by
      rw [zp_loop1_hits_eq]
      exact hits_ok_revert_fold mr.walks _ mr.personal_hits mr.walks.walks hex hndS hndW hok
    have hex2 : ∀ pr, pr ∈ (WalkStorage.invalidate_walks_through_node mr.walks src (some dest)
        (MeritRank.step_recalc_probability cfg mr.graph src w) tape).1 →
        ∃ wk, WalkStorage.get_walk mr.walks pr.1 = some wk ∧ wk ≠ [] := by
      intro pr hpr
      obtain ⟨wk, hwk, hne2, _⟩ := hex pr hpr
      exact ⟨wk, hwk, hne2⟩
    have hres := zp_loop2_hits_ok _ dest _ _ _ _ _ (by exact hex2) (by exact hndS)
      (by exact hndW) (by exact hok1) m1 t1 h
    exact ⟨hres.1, hres.2.1, hres.2.2⟩

set_option maxHeartbeats 1600000 in
/-- Every successful add_edge keeps the counters exact and does not
change the stored walk ids or the id source. -/
theorem add_edge_hits_ok (cfg : Cfg) (mr : MeritRank) (src dest : NodeId) (w : Weight)
    (tape : Tape)
    (hv : ∀ pr, pr ∈ WalkStorage.visits_list mr.walks src →
      ∃ wk, WalkStorage.get_walk mr.walks pr.1 = some wk ∧ pr.2 < wk.length
        ∧ wk.getD pr.2 0 = src)
    (hnd : ((WalkStorage.visits_list mr.walks src).map Prod.fst).Nodup)
    (hndW : (keysK mr.walks.walks).Nodup)
    (hok : hits_ok mr.personal_hits mr.walks.walks)
    (m1 : MeritRank) (t1 : Tape)
    (h1 : MeritRank.add_edge cfg mr src dest w tape = .ok (m1, t1)) :
    hits_ok m1.personal_hits m1.walks.walks
    ∧ keysK m1.walks.walks = keysK mr.walks.walks
    ∧ m1.walks.next_id = mr.walks.next_id := by
  by_cases hne : src = dest
  · unfold MeritRank.add_edge at h1
    rw [if_pos hne] at h1
    cases h1
  · simp only [MeritRank.add_edge, if_neg hne] at h1
    split at h1
    · injection h1 with h1
      have hm : mr = m1 := congrArg Prod.fst h1
      rw [← hm]
      exact ⟨hok, rfl, rfl⟩
    · split at h1
      · injection h1 with h1
        have hm : mr = m1 := congrArg Prod.fst h1
        rw [← hm]
        exact ⟨hok, rfl, rfl⟩
      · split at h1
        · exact zp_hits_ok cfg mr src dest w tape hv hnd hndW hok m1 t1 h1
        · split at h1
          · injection h1 with h1
            have hm : MeritRank.zn mr src dest w = m1 := congrArg Prod.fst h1
            rw [← hm]
            exact ⟨hok, rfl, rfl⟩
          · split at h1
            · exact zp_hits_ok cfg mr src dest 0 tape hv hnd hndW hok m1 t1 h1
            · split at h1
              · exact zp_hits_ok cfg mr src dest w tape hv hnd hndW hok m1 t1 h1
              · split at h1
                · cases hz : MeritRank.zp cfg mr src dest 0 tape with
                  | error e =>
                    rw [hz] at h1
                    have h1e : (Except.error e : Except PanicKind (MeritRank × Tape))
                        = .ok (m1, t1) := h1
                    cases h1e
                  | ok p =>
                    obtain ⟨m0, t0⟩ := p
                    rw [hz] at h1
                    have h1o : (Except.ok (MeritRank.zn m0 src dest w, t0) :
                        Except PanicKind (MeritRank × Tape)) = .ok (m1, t1) := h1
                    injection h1o with h1o
                    have hm : MeritRank.zn m0 src dest w = m1 := congrArg Prod.fst h1o
                    have hres := zp_hits_ok cfg mr src dest 0 tape hv hnd hndW hok m0 t0 hz
                    rw [← hm]
                    exact ⟨hres.1, hres.2.1, hres.2.2⟩
                · split at h1
                  · injection h1 with h1
                    have hm : MeritRank.nz mr src dest = m1 := congrArg Prod.fst h1
                    rw [← hm]
                    exact ⟨hok, rfl, rfl⟩
                  · split at h1
                    · have hres := zp_hits_ok cfg (MeritRank.nz mr src dest) src dest w tape
                        hv hnd hndW hok m1 t1 h1
                      exact ⟨hres.1, hres.2.1, hres.2.2⟩
                    · split at h1
                      · injection h1 with h1
                        have hm : MeritRank.zn (MeritRank.nz mr src dest) src dest w = m1 :=
                          congrArg Prod.fst h1
                        rw [← hm]
                        exact ⟨hok, rfl, rfl⟩
                      · cases h1

/-- Every iteration of the calculate loop registers one fresh walk from
ego and folds its distinct nodes into the present ego counter, keeping
the counters exact and the storage well-formed. -/
theorem calculate_loop_hits_ok (ego : NodeId) (negs : List (NodeId × Weight)) :
    ∀ (n : Nat) (mr : MeritRank) (t : Tape),
      hits_ok mr.personal_hits mr.walks.walks →
      walks_wf mr.walks →
      (getK mr.personal_hits ego).isSome = true →
      hits_ok (MeritRank.calculate_loop n mr ego negs t).1.personal_hits
        (MeritRank.calculate_loop n mr ego negs t).1.walks.walks
      ∧ walks_wf (MeritRank.calculate_loop n mr ego negs t).1.walks := by
  intro n
  induction n with
  | zero =>
    intro mr t hok hwf _
    exact ⟨hok, hwf⟩
  | succ n ih =>
    intro mr t hok hwf hpres
    have hfresh : getK mr.walks.walks mr.walks.next_id = none := by
      apply getK_none_of_not_mem_keys
      intro hmem
      exact absurd (hwf.2 _ hmem) (lt_irrefl _)
    rcases hgen : generate_walk_segment mr.graph mr.alpha ego false t with ⟨seg, tg⟩
    have hwkred : (WalkStorage.get_walk (WalkStorage.set_walk
        { walks := setK mr.walks.walks mr.walks.next_id []
          visits := mr.walks.visits
          next_id := mr.walks.next_id + 1 } mr.walks.next_id (ego :: seg))
        mr.walks.next_id).getD [] = ego :: seg := by
      show (getK (setK (setK mr.walks.walks mr.walks.next_id []) mr.walks.next_id (ego :: seg))
        mr.walks.next_id).getD [] = _
      rw [getK_setK_self]
      rfl
    have hred : MeritRank.calculate_loop (n + 1) mr ego negs t
        = MeritRank.calculate_loop n
          { graph := mr.graph
            walks := (WalkStorage.add_walk_to_bookkeeping
              (WalkStorage.set_walk
                { walks := setK mr.walks.walks mr.walks.next_id []
                  visits := mr.walks.visits
                  next_id := mr.walks.next_id + 1 } mr.walks.next_id (ego :: seg))
              mr.walks.next_id 0)
            personal_hits := (amodK mr.personal_hits ego
              (fun c => Counter.increment_unique_counts c (ego :: seg)))
            neg_hits := update_negative_hits mr.neg_hits (ego :: seg) negs false
            alpha := mr.alpha } ego negs tg := by
      simp only [MeritRank.calculate_loop, WalkStorage.get_next_free_walkid,
        MeritRank.perform_walk, hgen, hwkred]
    rw [hred]
    apply ih
    · show hits_ok
        (amodK mr.personal_hits ego (fun c => Counter.increment_unique_counts c (ego :: seg)))
        (setK (setK mr.walks.walks mr.walks.next_id []) mr.walks.next_id (ego :: seg))
      obtain ⟨c0, hc0⟩ : ∃ c0, getK mr.personal_hits ego = some c0 := by
        cases hg : getK mr.personal_hits ego with
        | none => rw [hg] at hpres; cases hpres
        | some c => exact ⟨c, rfl⟩
      exact hits_ok_seed mr.personal_hits (setK mr.walks.walks mr.walks.next_id [])
        mr.walks.next_id ego seg (getK_setK_self _ _ _) c0 hc0
        (hits_ok_insert_nil mr.personal_hits mr.walks.walks mr.walks.next_id hfresh hok)
    · refine ⟨?_, ?_⟩
      · show (keysK (setK (setK mr.walks.walks mr.walks.next_id []) mr.walks.next_id
          (ego :: seg))).Nodup
        exact keysK_setK_nodup _ _ _ (keysK_setK_nodup _ _ _ hwf.1)
      · show ∀ j, j ∈ keysK (setK (setK mr.walks.walks mr.walks.next_id []) mr.walks.next_id
          (ego :: seg)) → j < mr.walks.next_id + 1
        intro j hj
        rcases mem_keysK_setK _ _ _ j hj with hj2 | hj2
        · rcases mem_keysK_setK _ _ _ j hj2 with hj3 | hj3
          · exact Nat.lt_succ_of_lt (hwf.2 j hj3)
          · rw [hj3]
            exact Nat.lt_succ_self _
        · rw [hj2]
          exact Nat.lt_succ_self _
    · show (getK (amodK mr.personal_hits ego
        (fun c => Counter.increment_unique_counts c (ego :: seg))) ego).isSome = true
      rw [getK_amodK_self]
      cases hg : getK mr.personal_hits ego with
      | none =>
        rw [hg] at hpres
        cases hpres
      | some c => rfl

/-- A successful calculate drops the walks of ego, resets its counter,
and performs num_walks fresh walks; the counters stay exact and the
storage stays well-formed. -/
theorem calculate_hits_ok (mr : MeritRank) (ego : NodeId) (n : Nat) (tape : Tape)
    (hok : hits_ok mr.personal_hits mr.walks.walks) (hwf : walks_wf mr.walks)
    (mr' : MeritRank) (t' : Tape)
    (h : MeritRank.calculate mr ego n tape = .ok (mr', t')) :
    hits_ok mr'.personal_hits mr'.walks.walks ∧ walks_wf mr'.walks := by
  unfold MeritRank.calculate at h
  by_cases hc : ¬ Graph.contains_node mr.graph ego
  · rw [if_pos hc] at h
    cases h
  · rw [if_neg hc] at h
    injection h with h
    have hmid_ok : hits_ok (setK mr.personal_hits ego Counter.new)
        (WalkStorage.drop_walks_from_node mr.walks ego).walks :=
      hits_ok_drop mr.personal_hits mr.walks.walks ego hok
    have hmid_wf : walks_wf (WalkStorage.drop_walks_from_node mr.walks ego) := by
      refine ⟨?_, ?_⟩
      · show (keysK (mr.walks.walks.filter
          (fun e => decide (¬ e.2.head? = some ego)))).Nodup
        exact List.Nodup.sublist (List.Sublist.map _ (List.filter_sublist _)) hwf.1
      · show ∀ j, j ∈ keysK (mr.walks.walks.filter
          (fun e => decide (¬ e.2.head? = some ego))) → j < mr.walks.next_id
        intro j hj
        obtain ⟨e, he, hej⟩ := List.mem_map.mp hj
        exact hej ▸ hwf.2 e.1 (List.mem_map_of_mem _ (List.mem_of_mem_filter he))
    have hpres : (getK (setK mr.personal_hits ego Counter.new) ego).isSome = true := by
      rw [getK_setK_self]
      rfl
    have hloop := calculate_loop_hits_ok ego (neighbors_weighted mr.graph ego .negative) n
      { graph := mr.graph
        walks := WalkStorage.drop_walks_from_node mr.walks ego
        personal_hits := setK mr.personal_hits ego Counter.new
        neg_hits := mr.neg_hits
        alpha := mr.alpha } tape hmid_ok hmid_wf hpres
    have hm : _ = mr' := congrArg Prod.fst h
    rw [← hm]
    exact hloop

theorem hits_ok_counter_sanity (mr : MeritRank)
    (h : hits_ok mr.personal_hits mr.walks.walks) : counter_sanity mr := by
  intro ego c hc
  have h1 := h ego
  have hgd : getD mr.personal_hits ego [] = c := by
    unfold getD
    rw [hc]
    rfl
  rw [hgd] at h1
  refine ⟨fun t => ?_, ?_⟩
  · rw [count_walks_with_eq]
    exact h1.1 t
  · rw [total_distinct_eq]
    exact h1.2

/-- Claim C1. Counter sanity invariant: for every ego holding a
personal_hits counter, counter[t] equals the number of stored walks
originating at ego that contain t, and total_count equals the sum over
those walks of their distinct-node counts; this holds after
calculate(ego, N) and is preserved by every successful add_edge, given
exact counters beforehand, a well-formed walk storage, and a well-formed
visits index at the edge source. -/
theorem claim_C1_counter_sanity :
    (∀ (mr : MeritRank) (ego : NodeId) (n : Nat) (tape : Tape) (mr' : MeritRank) (t' : Tape),
      hits_ok mr.personal_hits mr.walks.walks → walks_wf mr.walks →
      MeritRank.calculate mr ego n tape = .ok (mr', t') →
      counter_sanity mr' ∧ hits_ok mr'.personal_hits mr'.walks.walks ∧ walks_wf mr'.walks)
    ∧ (∀ (cfg : Cfg) (mr : MeritRank) (src dest : NodeId) (w : Weight) (tape : Tape)
        (m1 : MeritRank) (t1 : Tape),
      hits_ok mr.personal_hits mr.walks.walks → walks_wf mr.walks →
      (∀ pr, pr ∈ WalkStorage.visits_list mr.walks src →
        ∃ wk, WalkStorage.get_walk mr.walks pr.1 = some wk ∧ pr.2 < wk.length
          ∧ wk.getD pr.2 0 = src) →
      ((WalkStorage.visits_list mr.walks src).map Prod.fst).Nodup →
      MeritRank.add_edge cfg mr src dest w tape = .ok (m1, t1) →
      counter_sanity m1 ∧ hits_ok m1.personal_hits m1.walks.walks ∧ walks_wf m1.walks) := by
  constructor
  · intro mr ego n tape mr' t' hok hwf h
    obtain ⟨h1, h2⟩ := calculate_hits_ok mr ego n tape hok hwf mr' t' h
    exact ⟨hits_ok_counter_sanity mr' h1, h1, h2⟩
  · intro cfg mr src dest w tape m1 t1 hok hwf hv hnd h
    obtain ⟨h1, h2, h3⟩ := add_edge_hits_ok cfg mr src dest w tape hv hnd hwf.1 hok m1 t1 h
    refine ⟨hits_ok_counter_sanity m1 h1, h1, ?_, ?_⟩
    · rw [h2]
      exact hwf.1
    · intro j hj
      rw [h3]
      exact hwf.2 j (h2 ▸ hj)

/-- Witness for claim C1 at the state c1mr with calculate(1, 0). -/
theorem claim_C1_counter_sanity_witness :
    hits_ok c1mr.personal_hits c1mr.walks.walks
    ∧ walks_wf c1mr.walks
    ∧ MeritRank.calculate c1mr 1 0 [] = .ok (c1res, [])
    ∧ counter_sanity c1res :=
  ⟨fun _ => ⟨fun _ => rfl, rfl⟩,
   ⟨List.nodup_nil, fun j hj => absurd hj (List.not_mem_nil j)⟩,
   rfl,
   (claim_C1_counter_sanity.1 c1mr 1 0 [] c1res []
     (fun _ => ⟨fun _ => rfl, rfl⟩)
     ⟨List.nodup_nil, fun j hj => absurd hj (List.not_mem_nil j)⟩
     rfl).1⟩

end Meritrank
